import Mathlib

/-!
# Verification of a fixed-size priority queue built on a min-max heap

Shallow embedding of the repository `jimbozhang/fixed-size-priority-queue`:

* `src/MinMaxHeap.h` / `src/MinMaxHeap.inl` — a min-max heap over a
  `std::vector` with a user-supplied less-than comparator;
* `src/FixedSizePriorityQueue.h` — a bounded-capacity policy wrapper;
* `src/fixed-size-priority-queue.h` — an alternate linear-scan
  implementation using `std::make_heap`.

The backing `std::vector<Type>` is modelled as a `List α`; node offsets
(`NodeOffsetType`, a signed `ptrdiff_t` in C++) are modelled as `ℤ`,
keeping the `-1` sentinels the source uses for "no parent" / "invalid
level".  `m_LessThanComparison` is passed to each operation as an explicit
parameter `lt : α → α → Bool`.  Operations that throw
`std::out_of_range` are modelled in `Except String`; the message strings
are the ones in the source.  Index arithmetic is carried out over
unbounded integers: the C++ level computation casts the offset to a
32-bit `unsigned`, a cast that is value-preserving for every offset
below 2^32 (the regime of every concrete instance here; the exactness
claim about the 32-bit domain is stated with that bound explicitly).

Recursive heap-repair procedures (`BubbleUpImplementation`,
`TrickleDownImplementation`) are modelled with an explicit fuel
argument so that they compute by kernel reduction; the top-level
wrappers supply fuel that is proved sufficient on the domain the C++
code exercises (non-negative offsets), where the recursion provably
terminates.
-/

namespace MMH

/-- C++ `MinMaxHeap::LevelOrderingType`: selects whether an algorithm
starts on a minimum or a maximum level. -/
inductive LevelOrderingType where
  | Minimum : LevelOrderingType
  | Maximum : LevelOrderingType
deriving DecidableEq, Repr

/-- C++ `GetRootOffset`: the root of the heap lives at offset `0`. -/
def getRootOffset : ℤ := 0

/-- C++ `GetLeftChildOffset`: `2 * ParentOffset + 1` (child may or may not exist). -/
def getLeftChildOffset (parentOffset : ℤ) : ℤ := 2 * parentOffset + 1

/-- C++ `GetRightChildOffset`: `GetLeftChildOffset(ParentOffset) + 1`. -/
def getRightChildOffset (parentOffset : ℤ) : ℤ := getLeftChildOffset parentOffset + 1

/-- C++ `GetParentOffset`: `-1` for the root, otherwise `(ChildOffset - 1) / 2`.
(The only negative numerator ever reaching the division is `-2`, where C++
truncated division and Lean's Euclidean division agree: both give `-1`.) -/
def getParentOffset (childOffset : ℤ) : ℤ :=
  if childOffset = getRootOffset then -1 else (childOffset - 1) / 2

/-- C++ `GetGrandParentOffset`: parent of the parent. -/
def getGrandParentOffset (grandChildOffset : ℤ) : ℤ :=
  getParentOffset (getParentOffset grandChildOffset)

/-- C++ `MinMaxHeap::GetSize()` as a signed quantity (the source compares
offsets against `static_cast<NodeOffsetType>(m_Heap.size())`). -/
def sizeZ {α : Type} (heap : List α) : ℤ := heap.length

/-- C++ `IsValidNode`: `0 <= NodeOffset && NodeOffset < size`. -/
def isValidNode {α : Type} (heap : List α) (nodeOffset : ℤ) : Bool :=
  decide (0 ≤ nodeOffset) && decide (nodeOffset < sizeZ heap)

/-- C++ `GetValue` / `m_Heap.at(NodeOffset)`.  Every evaluation the source
performs is at a valid offset (otherwise `at` would throw); out-of-range
reads return `default`, and validity is tracked separately where needed. -/
def getValue {α : Type} [Inhabited α] (heap : List α) (nodeOffset : ℤ) : α :=
  heap.getD nodeOffset.toNat default

/-- An assignment `GetValue(i) = v` on the backing vector. -/
def setValue {α : Type} (heap : List α) (nodeOffset : ℤ) (v : α) : List α :=
  heap.set nodeOffset.toNat v

/-- C++ `std::swap(GetValue(i), GetValue(j))`. -/
def swapValues {α : Type} [Inhabited α] (heap : List α) (i j : ℤ) : List α :=
  setValue (setValue heap i (getValue heap j)) j (getValue heap i)

/-- Fuel-indexed body of C++ `BinaryLogarithmIntegerFloor`'s generic
implementation, the right-shift loop
`while(Value >>= 1) ++PowersOfTwo;`: each iteration halves the value and
bumps the counter, stopping when the shifted value reaches zero.  The
fuel only bounds the iteration count (the loop runs at most
`log2 value` times, and the wrapper passes `value` itself as fuel). -/
def binaryLogarithmIntegerFloorAux : ℕ → ℕ → ℕ
  | 0, _ => 0
  | fuel + 1, value =>
    if value < 2 then 0 else binaryLogarithmIntegerFloorAux fuel (value / 2) + 1

/-- C++ `BinaryLogarithmIntegerFloor` on the unsigned representation:
the exact integer floor of the base-two logarithm, computed by the
right-shift loop (the `__builtin_clz` fast path computes the same
function).  The source asserts `Value > 0`; `0` is never passed. -/
def binaryLogarithmIntegerFloor (value : ℕ) : ℕ :=
  binaryLogarithmIntegerFloorAux value value

/-- C++ `GetLevel`: `-1` for an invalid node, otherwise the floor
base-two logarithm of `NodeOffset + 1` (computed on the unsigned
representation of the offset). -/
def getLevel {α : Type} (heap : List α) (nodeOffset : ℤ) : ℤ :=
  if ¬ (isValidNode heap nodeOffset = true) then -1
  else binaryLogarithmIntegerFloor (nodeOffset.toNat + 1)

/-- C++ `IsMinimumLevel`: `GetLevel(NodeOffset) % 2 == 0`.  (For an
invalid node the level is `-1`; `-1 % 2` is nonzero in both C++
truncated and Lean Euclidean semantics, so both yield `false`.) -/
def isMinimumLevel {α : Type} (heap : List α) (nodeOffset : ℤ) : Bool :=
  decide (getLevel heap nodeOffset % 2 = 0)

/-- C++ `IsMaximumLevel`: negation of `IsMinimumLevel`. -/
def isMaximumLevel {α : Type} (heap : List α) (nodeOffset : ℤ) : Bool :=
  ! isMinimumLevel heap nodeOffset

/-- C++ `IsParentExist`: the parent offset is a valid node. -/
def isParentExist {α : Type} (heap : List α) (nodeOffset : ℤ) : Bool :=
  isValidNode heap (getParentOffset nodeOffset)

/-- C++ `IsGrandParentExist`: the grandparent offset is a valid node. -/
def isGrandParentExist {α : Type} (heap : List α) (grandChildOffset : ℤ) : Bool :=
  isValidNode heap (getGrandParentOffset grandChildOffset)

/-- C++ `IsLeftChildExist`: `GetLeftChildOffset(ParentOffset) < size`. -/
def isLeftChildExist {α : Type} (heap : List α) (parentOffset : ℤ) : Bool :=
  decide (getLeftChildOffset parentOffset < sizeZ heap)

/-- C++ `IsRightChildExist`: `GetRightChildOffset(ParentOffset) < size`. -/
def isRightChildExist {α : Type} (heap : List α) (parentOffset : ℤ) : Bool :=
  decide (getRightChildOffset parentOffset < sizeZ heap)

/-- C++ `LessThan<InvertRelationalOperator>`: the user's less-than, or —
when inverted — the greater-than composed by swapping the operands
(`ComposeGreaterThanFromLessThan`). -/
def lessThan {α : Type} (lt : α → α → Bool) (invert : Bool) (lhs rhs : α) : Bool :=
  if invert then lt rhs lhs else lt lhs rhs

/-- C++ `GreaterThan<InvertRelationalOperator>`: operand-swapped
composition of the user's less-than, or — when inverted — the user's
less-than itself. -/
def greaterThan {α : Type} (lt : α → α → Bool) (invert : Bool) (lhs rhs : α) : Bool :=
  if invert then lt lhs rhs else lt rhs lhs

/-- Fuel-indexed body of C++ `BubbleUpImplementation<LevelOrdering>`:
while a grandparent exists and the node is out of order with it (per
the level's polarity), swap them and continue from the grandparent.
The recursion climbs two levels at a time, so the node offset strictly
decreases; the wrapper supplies fuel that is proved sufficient. -/
def bubbleUpImplementationAux {α : Type} [Inhabited α] (lt : α → α → Bool)
    (ord : LevelOrderingType) : ℕ → List α → ℤ → List α
  | 0, heap, _ => heap
  | fuel + 1, heap, nodeOffset =>
    if ¬ (isGrandParentExist heap nodeOffset = true) then heap
    else if lessThan lt (decide (ord = LevelOrderingType.Maximum))
        (getValue heap nodeOffset) (getValue heap (getGrandParentOffset nodeOffset)) = true then
      bubbleUpImplementationAux lt ord fuel
        (swapValues heap nodeOffset (getGrandParentOffset nodeOffset))
        (getGrandParentOffset nodeOffset)
    else heap

/-- C++ `BubbleUpImplementation<LevelOrdering>` (the recursion in
`MinMaxHeap.inl`).  A grandparent exists only for offsets `≥ 3` and the
recursion moves to the strictly smaller grandparent offset, so fuel
`nodeOffset + 1` is sufficient (proved in
`bubbleUpImplementationAux_fuel`). -/
def bubbleUpImplementation {α : Type} [Inhabited α] (lt : α → α → Bool)
    (ord : LevelOrderingType) (heap : List α) (nodeOffset : ℤ) : List α :=
  bubbleUpImplementationAux lt ord (nodeOffset.toNat + 1) heap nodeOffset

/-- C++ `BubbleUp`: dispatch on the level of the just-appended leaf.
On a minimum level, if the node is greater than its (maximum-level)
parent, swap and continue upward with maximum ordering, else continue
with minimum ordering; symmetric on a maximum level. -/
def bubbleUp {α : Type} [Inhabited α] (lt : α → α → Bool) (heap : List α)
    (nodeOffset : ℤ) : List α :=
  if isMinimumLevel heap nodeOffset = true then
    if isParentExist heap nodeOffset = true ∧
        greaterThan lt false (getValue heap nodeOffset)
          (getValue heap (getParentOffset nodeOffset)) = true then
      bubbleUpImplementation lt LevelOrderingType.Maximum
        (swapValues heap nodeOffset (getParentOffset nodeOffset))
        (getParentOffset nodeOffset)
    else
      bubbleUpImplementation lt LevelOrderingType.Minimum heap nodeOffset
  else
    if isParentExist heap nodeOffset = true ∧
        lessThan lt false (getValue heap nodeOffset)
          (getValue heap (getParentOffset nodeOffset)) = true then
      bubbleUpImplementation lt LevelOrderingType.Minimum
        (swapValues heap nodeOffset (getParentOffset nodeOffset))
        (getParentOffset nodeOffset)
    else
      bubbleUpImplementation lt LevelOrderingType.Maximum heap nodeOffset

/-- C++ `MinMaxHeap::Emplace`: append the element at the very back and
bubble the new last leaf up.  (`GetLastNodeOffset` cannot throw here:
the vector has just received an element.) -/
def emplaceHeap {α : Type} [Inhabited α] (lt : α → α → Bool) (heap : List α)
    (element : α) : List α :=
  bubbleUp lt (heap ++ [element]) (sizeZ (heap ++ [element]) - 1)

/-- C++ `GetLastNodeOffset`: throws `std::out_of_range` on an empty
heap, else `size - 1`. -/
def getLastNodeOffset {α : Type} (heap : List α) : Except String ℤ :=
  if heap.isEmpty then Except.error "No last node in an already empty heap."
  else Except.ok (sizeZ heap - 1)

/-- C++ `FindMinimumOffset`: throws on an empty heap; the minimum is
always the root. -/
def findMinimumOffset {α : Type} (lt : α → α → Bool) (heap : List α) :
    Except String ℤ :=
  if heap.isEmpty then Except.error "Cannot find minimum in an empty min-max heap."
  else Except.ok getRootOffset

/-- C++ `FindMaximumOffset`: throws on an empty heap; for a single
element the root, else the greater of the root's children (the right
one only if it exists and is greater than the left). -/
def findMaximumOffset {α : Type} [Inhabited α] (lt : α → α → Bool) (heap : List α) :
    Except String ℤ :=
  if heap.isEmpty then Except.error "Cannot find maximum in an empty min-max heap."
  else if heap.length = 1 then Except.ok getRootOffset
  else if isRightChildExist heap getRootOffset = true ∧
      greaterThan lt false (getValue heap (getRightChildOffset getRootOffset))
        (getValue heap (getLeftChildOffset getRootOffset)) = true then
    Except.ok (getRightChildOffset getRootOffset)
  else Except.ok (getLeftChildOffset getRootOffset)

/-- C++ `FindMinimum`: the value at `FindMinimumOffset`. -/
def findMinimum {α : Type} [Inhabited α] (lt : α → α → Bool) (heap : List α) :
    Except String α :=
  (findMinimumOffset lt heap).map (getValue heap)

/-- C++ `FindMaximum`: the value at `FindMaximumOffset`. -/
def findMaximum {α : Type} [Inhabited α] (lt : α → α → Bool) (heap : List α) :
    Except String α :=
  (findMaximumOffset lt heap).map (getValue heap)

/-- The six descendant offsets examined by
`TrickleDownImplementation`: left child, its two children, right
child, its two children — in the fixed order of the source's
`std::array`. -/
def descendantOffsets (subTreeOffset : ℤ) : List ℤ :=
  [getLeftChildOffset subTreeOffset,
   getLeftChildOffset (getLeftChildOffset subTreeOffset),
   getRightChildOffset (getLeftChildOffset subTreeOffset),
   getRightChildOffset subTreeOffset,
   getLeftChildOffset (getRightChildOffset subTreeOffset),
   getRightChildOffset (getRightChildOffset subTreeOffset)]

/-- The descendant scan inside C++ `TrickleDownImplementation`: start
from the left child (which must exist) and adopt each extant descendant
whose value is less (per the level's polarity) than the current
extremum's. -/
def findExtremumDescendantOffset {α : Type} [Inhabited α] (lt : α → α → Bool)
    (invert : Bool) (heap : List α) (subTreeOffset : ℤ) : ℤ :=
  (descendantOffsets subTreeOffset).foldl
    (fun extremumOffset currentDescendentOffset =>
      if isValidNode heap currentDescendentOffset = true ∧
          lessThan lt invert (getValue heap currentDescendentOffset)
            (getValue heap extremumOffset) = true then
        currentDescendentOffset
      else extremumOffset)
    (getLeftChildOffset subTreeOffset)

/-- Fuel-indexed body of C++ `TrickleDownImplementation<LevelOrdering>`.
Stops at a leaf (no left child); otherwise finds the extremum among the
up-to-six descendants.  If it is a grandchild: when out of order with
the sub-tree root, swap them and, if the moved value is now out of
order with its (opposite-polarity) parent, swap those too; then recurse
on the grandchild position (the source recurses whether or not a swap
occurred).  If it is a child: swap when out of order, no recursion. -/
def trickleDownImplementationAux {α : Type} [Inhabited α] (lt : α → α → Bool)
    (ord : LevelOrderingType) : ℕ → List α → ℤ → List α
  | 0, heap, _ => heap
  | fuel + 1, heap, subTreeOffset =>
    if ¬ (isLeftChildExist heap subTreeOffset = true) then heap
    else
      let extremumOffset :=
        findExtremumDescendantOffset lt (decide (ord = LevelOrderingType.Maximum))
          heap subTreeOffset
      if getGrandParentOffset extremumOffset = subTreeOffset then
        trickleDownImplementationAux lt ord fuel
          (if lessThan lt (decide (ord = LevelOrderingType.Maximum))
              (getValue heap extremumOffset) (getValue heap subTreeOffset) = true then
            if greaterThan lt (decide (ord = LevelOrderingType.Maximum))
                (getValue (swapValues heap extremumOffset subTreeOffset) extremumOffset)
                (getValue (swapValues heap extremumOffset subTreeOffset)
                  (getParentOffset extremumOffset)) = true then
              swapValues (swapValues heap extremumOffset subTreeOffset)
                extremumOffset (getParentOffset extremumOffset)
            else swapValues heap extremumOffset subTreeOffset
          else heap)
          extremumOffset
      else if getParentOffset extremumOffset = subTreeOffset then
        if lessThan lt (decide (ord = LevelOrderingType.Maximum))
            (getValue heap extremumOffset) (getValue heap subTreeOffset) = true then
          swapValues heap extremumOffset subTreeOffset
        else heap
      else heap

/-- C++ `TrickleDownImplementation<LevelOrdering>`.  On the domain the
source exercises (non-negative sub-tree offsets) the recursion descends
to a valid strictly larger offset, so fuel `heap.length + 1` is
sufficient (proved in `trickleDownImplementationAux_fuel`). -/
def trickleDownImplementation {α : Type} [Inhabited α] (lt : α → α → Bool)
    (ord : LevelOrderingType) (heap : List α) (subTreeOffset : ℤ) : List α :=
  trickleDownImplementationAux lt ord (heap.length + 1) heap subTreeOffset

/-- C++ `TrickleDown`: dispatch on the level of the sub-tree root.
(For an invalid offset `GetLevel` yields `-1`, so the maximum branch is
taken and immediately stops at the left-child existence check.) -/
def trickleDown {α : Type} [Inhabited α] (lt : α → α → Bool) (heap : List α)
    (subTreeOffset : ℤ) : List α :=
  if isMinimumLevel heap subTreeOffset = true then
    trickleDownImplementation lt LevelOrderingType.Minimum heap subTreeOffset
  else
    trickleDownImplementation lt LevelOrderingType.Maximum heap subTreeOffset

/-- C++ `DeleteMinimum`: throws on an empty heap; otherwise move the
last leaf over the root, drop the old last leaf, and trickle down from
the root. -/
def deleteMinimum {α : Type} [Inhabited α] (lt : α → α → Bool) (heap : List α) :
    Except String (List α) :=
  if heap.isEmpty then Except.error "Cannot delete minimum from an empty min-max heap."
  else Except.ok (trickleDown lt
    ((setValue heap getRootOffset (getValue heap (sizeZ heap - 1))).dropLast)
    getRootOffset)

/-- C++ `DeleteMaximum`: no explicit emptiness guard of its own — the
`FindMaximumOffset` call throws first on an empty heap.  Otherwise move
the last leaf over the maximum, drop the old last leaf, and trickle
down from the replaced maximum's offset (which may be the just-removed
last index, in which case the trickle-down is a no-op). -/
def deleteMaximum {α : Type} [Inhabited α] (lt : α → α → Bool) (heap : List α) :
    Except String (List α) := do
  let maximumOffset ← findMaximumOffset lt heap
  let lastOffset ← getLastNodeOffset heap
  pure (trickleDown lt
    ((setValue heap maximumOffset (getValue heap lastOffset)).dropLast)
    maximumOffset)

/-- C++ bulk constructor `MinMaxHeap(First, Last, LessThanComparison)`:
copy the source, then — unless fewer than two elements — trickle down
every sub-tree root from the last parent back to the root (Floyd's
bottom-up heapify adapted to min-max levels; the `NumericRange` runs
from the root offset to `GetLastParentOffset() + 1` and is traversed in
reverse). -/
def minMaxHeapOfSeq {α : Type} [Inhabited α] (lt : α → α → Bool)
    (source : List α) : List α :=
  if source.length < 2 then source
  else
    ((List.range ((getParentOffset (sizeZ source - 1)).toNat + 1)).reverse).foldl
      (fun heap subTreeOffset => trickleDown lt heap (subTreeOffset : ℤ)) source

end MMH

namespace FSPQ

open MMH

/-- C++ `FixedSizePriorityQueue::ComposeGreaterThanFromLessThan`:
swap the operands of the user's less-than. -/
def composeGreaterThanFromLessThan {α : Type} (lt : α → α → Bool) :
    α → α → Bool :=
  fun lhs rhs => lt rhs lhs

/-- C++ `FixedSizePriorityQueue::Emplace`.  Below capacity the element
is always inserted.  At capacity, a max-priority queue keeps the new
element only if it is greater (per the composed comparator built from
the user's `m_LessThanComparison`) than the current minimum, which is
then deleted; a min-priority queue keeps it only if
`Element < m_MinMaxHeap.FindMaximum()` — note the source's min branch
compares with the element type's built-in `operator<` (modelled by the
separate parameter `opLt`), not with `m_LessThanComparison` (`lt`),
while every heap operation orders by `lt`. -/
def emplaceQueue {α : Type} [Inhabited α] (maxPriority : Bool)
    (lt opLt : α → α → Bool) (maximumCapacity : ℕ) (heap : List α)
    (element : α) : Except String (List α) :=
  if heap.length < maximumCapacity then
    Except.ok (emplaceHeap lt heap element)
  else if maxPriority then do
    let minimum ← findMinimum lt heap
    if composeGreaterThanFromLessThan lt element minimum = true then
      deleteMinimum lt (emplaceHeap lt heap element)
    else pure heap
  else do
    let maximum ← findMaximum lt heap
    if opLt element maximum = true then
      deleteMaximum lt (emplaceHeap lt heap element)
    else pure heap

/-- C++ `PopMinimum` (the min-priority queue's pop): forwards to the
heap's `DeleteMinimum`. -/
def popMinimum {α : Type} [Inhabited α] (lt : α → α → Bool) (heap : List α) :
    Except String (List α) :=
  deleteMinimum lt heap

/-- C++ `PopMaximum` (the max-priority queue's pop): forwards to the
heap's `DeleteMaximum`. -/
def popMaximum {α : Type} [Inhabited α] (lt : α → α → Bool) (heap : List α) :
    Except String (List α) :=
  deleteMaximum lt heap

/-- Inserting a whole input stream through
`FixedSizePriorityQueue::Emplace`, left to right. -/
def insertStream {α : Type} [Inhabited α] (maxPriority : Bool)
    (lt opLt : α → α → Bool) (maximumCapacity : ℕ) (heap : List α)
    (stream : List α) : Except String (List α) :=
  stream.foldlM (fun h x => emplaceQueue maxPriority lt opLt maximumCapacity h x) heap

end FSPQ

namespace LSQ

/-- Index of the first minimum of the list, as returned by
`std::min_element` in `fixed_size_priority_queue::push` (the iterator
to the first element strictly smaller than every earlier one).  On an
empty list `min_element` would be `end()`; `push` never dereferences it
then because the claim's `max_size >= 1` keeps the scan on a non-empty
vector. -/
def minElementIndex {α : Type} [LinearOrder α] [Inhabited α] : List α → ℕ
  | [] => 0
  | [_] => 0
  | x :: xs =>
    if decide (xs.getD (minElementIndex xs) default < x) = true then
      minElementIndex xs + 1
    else 0

/-- C++ `fixed_size_priority_queue::push`.  At capacity, if
`x > *min_element(c_)` (the element type's `operator>`), overwrite the
first minimum with `x`; below capacity, append.  In both mutating
branches the source then calls `std::make_heap`, which permutes the
vector in place; that permutation is modelled as the identity, which is
sound for the contents-level (multiset) properties stated about this
container. -/
def push {α : Type} [LinearOrder α] [Inhabited α] (maxSize : ℕ) (c : List α)
    (x : α) : List α :=
  if c.length = maxSize then
    if decide (c.getD (minElementIndex c) default < x) = true then
      c.set (minElementIndex c) x
    else c
  else c ++ [x]

/-- Pushing a whole stream through `fixed_size_priority_queue::push`. -/
def pushStream {α : Type} [LinearOrder α] [Inhabited α] (maxSize : ℕ)
    (c : List α) (stream : List α) : List α :=
  stream.foldl (fun acc x => push maxSize acc x) c

end LSQ

namespace MMH

/-- `std::less<Type>` — and, where the source writes a bare comparison
on the element type, its built-in `operator<`. -/
def stdLt {α : Type} [LinearOrder α] : α → α → Bool :=
  fun lhs rhs => decide (lhs < rhs)

end MMH

/-- Decidable equality for `Except`, used to evaluate the embedded
operations (which model C++ exceptions in `Except String`) on concrete
inputs. -/
instance {ε σ : Type} [DecidableEq ε] [DecidableEq σ] : DecidableEq (Except ε σ)
  | Except.ok a, Except.ok b =>
    if h : a = b then Decidable.isTrue (by rw [h]) else Decidable.isFalse (by simp [h])
  | Except.error a, Except.error b =>
    if h : a = b then Decidable.isTrue (by rw [h]) else Decidable.isFalse (by simp [h])
  | Except.ok _, Except.error _ => Decidable.isFalse (by simp)
  | Except.error _, Except.ok _ => Decidable.isFalse (by simp)

namespace MMH

/-- Parent index over `ℕ`: `(j - 1) / 2` (meaningful for `j ≥ 1`). -/
def parentN (j : ℕ) : ℕ := (j - 1) / 2

/-- Grandparent index over `ℕ`. -/
def grandParentN (j : ℕ) : ℕ := parentN (parentN j)

/-- Tree level of index `j`: `⌊log₂ (j + 1)⌋`. -/
def levelN (j : ℕ) : ℕ := Nat.log2 (j + 1)

/-- Min levels are the even ones (0, 2, 4, …). -/
def minLvl (j : ℕ) : Prop := levelN j % 2 = 0

instance (j : ℕ) : Decidable (minLvl j) := by unfold minLvl; infer_instance

/-- `Desc i j`: index `j` lies in the sub-tree rooted at index `i`
(reflexively). -/
inductive Desc : ℕ → ℕ → Prop where
  | refl (i : ℕ) : Desc i i
  | left (i : ℕ) {k : ℕ} : Desc (2 * i + 1) k → Desc i k
  | right (i : ℕ) {k : ℕ} : Desc (2 * i + 2) k → Desc i k

/-- The value stored at (natural-number) offset `i`. -/
def valN {α : Type} [Inhabited α] (A : List α) (i : ℕ) : α := A.getD i default

/-- `swapValues` seen at natural-number offsets. -/
def swapN {α : Type} [Inhabited α] (A : List α) (i j : ℕ) : List α :=
  (A.set i (valN A j)).set j (valN A i)

/-- The ordering constraint between an ancestor `i` and a node `j` of
its sub-tree: a min-level ancestor is `≤` the descendant, a max-level
ancestor is `≥` it. -/
def pairOrdered {α : Type} [LinearOrder α] [Inhabited α] (A : List α)
    (i j : ℕ) : Prop :=
  if minLvl i then valN A i ≤ valN A j else valN A j ≤ valN A i

/-- The min-max ordering invariant: every node on an even (min) level
is `≤` all of its descendants, every node on an odd (max) level is `≥`
all of its descendants.  (The completeness invariant — a contiguous
array with no holes — is inherent to the list representation of the
backing `std::vector`.) -/
def minMaxHeapInvariant {α : Type} [LinearOrder α] [Inhabited α]
    (A : List α) : Prop :=
  ∀ i j : ℕ, Desc i j → j < A.length → pairOrdered A i j

/-- Relation-parameterised form of `pairOrdered`, used to run the
minimum-ordering proofs once and read them back for both polarities:
levels whose `minLvl`-flag equals `b` dominate their sub-trees with
respect to `le`. -/
def pairOrderedRel {α : Type} [Inhabited α] (le : α → α → Prop) (b : Bool)
    (A : List α) (i j : ℕ) : Prop :=
  if decide (minLvl i) = b then le (valN A i) (valN A j)
  else le (valN A j) (valN A i)

/-- All pairs inside the sub-tree rooted at `r` are ordered. -/
def subtreeOrderedRel {α : Type} [Inhabited α] (le : α → α → Prop) (b : Bool)
    (A : List α) (r : ℕ) : Prop :=
  ∀ i j : ℕ, Desc r i → Desc i j → j < A.length → pairOrderedRel le b A i j

/-- All pairs inside the sub-tree rooted at `r` whose ancestor is not
`r` itself are ordered (the root of the sub-tree may be out of
order). -/
def belowOrderedRel {α : Type} [Inhabited α] (le : α → α → Prop) (b : Bool)
    (A : List α) (r : ℕ) : Prop :=
  ∀ i j : ℕ, Desc r i → i ≠ r → Desc i j → j < A.length →
    pairOrderedRel le b A i j

/-- The reversed integer comparator `lt(a,b) := (b < a)` — a legitimate
strict total order a C++ user can supply as `LessThanComparisonType`. -/
def revLtInt : ℤ → ℤ → Bool := fun lhs rhs => decide (rhs < lhs)

/-- States of a `MinMaxHeap` reachable through its public interface:
empty or bulk construction followed by any sequence of successful
`Emplace`, `DeleteMinimum` and `DeleteMaximum` calls. -/
inductive Reachable {α : Type} [Inhabited α] (lt : α → α → Bool) : List α → Prop where
  | empty : Reachable lt []
  | ofSeq (source : List α) : Reachable lt (minMaxHeapOfSeq lt source)
  | emplaceStep (heap : List α) (x : α) : Reachable lt heap →
      Reachable lt (emplaceHeap lt heap x)
  | deleteMinStep (heap heap' : List α) : Reachable lt heap →
      deleteMinimum lt heap = Except.ok heap' → Reachable lt heap'
  | deleteMaxStep (heap heap' : List α) : Reachable lt heap →
      deleteMaximum lt heap = Except.ok heap' → Reachable lt heap'

/-- Fuel-indexed sorted drain: repeatedly `FindMinimum` then
`DeleteMinimum` until the heap is empty (both calls fail together,
exactly at size 0); the fuel is the heap size. -/
def drainMinimumAux {α : Type} [Inhabited α] (lt : α → α → Bool) :
    ℕ → List α → List α
  | 0, _ => []
  | fuel + 1, heap =>
    match findMinimum lt heap, deleteMinimum lt heap with
    | Except.ok v, Except.ok heap' => v :: drainMinimumAux lt fuel heap'
    | _, _ => []

/-- Sorted drain of a heap: the sequence of minima obtained by
repeating `find-min`/`delete-min` until `Empty`. -/
def drainMinimum {α : Type} [Inhabited α] (lt : α → α → Bool)
    (heap : List α) : List α :=
  drainMinimumAux lt heap.length heap

/-- The multiset of the `k` smallest elements of a stream (all of them
when the stream is shorter): take `k` from a sorted permutation. -/
def kSmallest {α : Type} [LinearOrder α] (k : ℕ) (s : List α) : Multiset α :=
  ((s.insertionSort (· ≤ ·)).take k : List α)

/-- The multiset of the `k` largest elements of a stream. -/
def kLargest {α : Type} [LinearOrder α] (k : ℕ) (s : List α) : Multiset α :=
  ((s.insertionSort (fun lhs rhs => rhs ≤ lhs)).take k : List α)

/-- `M` selects the `k` smallest elements of `s`: a sub-multiset of the
right size all of whose members are `≤` everything left behind. -/
def selectsSmallest {α : Type} [LinearOrder α] (k : ℕ) (s M : Multiset α) : Prop :=
  M ≤ s ∧ Multiset.card M = min k (Multiset.card s) ∧
    ∀ a ∈ M, ∀ b ∈ s - M, a ≤ b

/-- `M` selects the `k` largest elements of `s`. -/
def selectsLargest {α : Type} [LinearOrder α] (k : ℕ) (s M : Multiset α) : Prop :=
  M ≤ s ∧ Multiset.card M = min k (Multiset.card s) ∧
    ∀ a ∈ M, ∀ b ∈ s - M, b ≤ a

end MMH

namespace MMH

/-! ## The shift loop computes the exact binary logarithm -/

theorem binaryLogarithmIntegerFloorAux_eq_log2 :
    ∀ (fuel value : ℕ), value ≤ fuel →
    binaryLogarithmIntegerFloorAux fuel value = Nat.log2 value := by
  intro fuel
  induction fuel with
  | zero =>
    intro value h
    rw [show value = 0 by omega, Nat.log2]
    simp [binaryLogarithmIntegerFloorAux]
  | succ g ih =>
    intro value h
    rw [binaryLogarithmIntegerFloorAux, Nat.log2]
    by_cases h2 : value < 2
    · simp [h2, show ¬ (2 ≤ value) by omega]
    · simp only [if_neg h2, if_pos (show 2 ≤ value by omega)]
      rw [ih (value / 2) (by omega)]

theorem binaryLogarithmIntegerFloor_eq_log2 (value : ℕ) :
    binaryLogarithmIntegerFloor value = Nat.log2 value :=
  binaryLogarithmIntegerFloorAux_eq_log2 value value le_rfl

/-! ## Index arithmetic on natural-number offsets

The algorithms are stated over signed offsets (`ptrdiff_t`); every
offset the source ever manipulates for an existing node is
non-negative.  The invariant development happens over `ℕ` and a small
collection of bridge lemmas connects the two views. -/

theorem parentN_left_child (i : ℕ) : parentN (2 * i + 1) = i := by
  unfold parentN; omega

theorem parentN_right_child (i : ℕ) : parentN (2 * i + 2) = i := by
  unfold parentN; omega

theorem parentN_lt {j : ℕ} (h : 0 < j) : parentN j < j := by
  unfold parentN; omega

theorem parentN_child_cases {j : ℕ} (h : 0 < j) :
    j = 2 * parentN j + 1 ∨ j = 2 * parentN j + 2 := by
  unfold parentN; omega

theorem levelN_left_child (i : ℕ) : levelN (2 * i + 1) = levelN i + 1 := by
  unfold levelN
  rw [Nat.log2]
  simp only [if_pos (show 2 ≤ 2 * i + 1 + 1 by omega)]
  rw [show (2 * i + 1 + 1) / 2 = i + 1 by omega]

theorem levelN_right_child (i : ℕ) : levelN (2 * i + 2) = levelN i + 1 := by
  unfold levelN
  rw [Nat.log2]
  simp only [if_pos (show 2 ≤ 2 * i + 2 + 1 by omega)]
  rw [show (2 * i + 2 + 1) / 2 = i + 1 by omega]

theorem levelN_parent {j : ℕ} (h : 0 < j) :
    levelN j = levelN (parentN j) + 1 := by
  rcases parentN_child_cases h with hc | hc
  · conv_lhs => rw [hc]
    rw [levelN_left_child]
  · conv_lhs => rw [hc]
    rw [levelN_right_child]

theorem levelN_zero : levelN 0 = 0 := by
  unfold levelN
  rw [Nat.log2]
  simp

theorem levelN_pos {j : ℕ} (h : 0 < j) : 0 < levelN j := by
  rw [levelN_parent h]; omega

theorem levelN_grandParent {j : ℕ} (h : 3 ≤ j) :
    levelN j = levelN (grandParentN j) + 2 := by
  have h1 : 0 < j := by omega
  have h2 : 0 < parentN j := by unfold parentN; omega
  rw [levelN_parent h1, levelN_parent h2]
  rfl

theorem minLvl_iff_not_minLvl_parent {j : ℕ} (h : 0 < j) :
    minLvl j ↔ ¬ minLvl (parentN j) := by
  unfold minLvl
  rw [levelN_parent h]
  omega

theorem minLvl_grandParent_iff {j : ℕ} (h : 3 ≤ j) :
    minLvl (grandParentN j) ↔ minLvl j := by
  unfold minLvl
  rw [levelN_grandParent h]
  omega

/-! ## The descendant relation on indices -/

theorem Desc.le {i j : ℕ} (h : Desc i j) : i ≤ j := by
  induction h with
  | refl => exact le_rfl
  | left i _ ih => omega
  | right i _ ih => omega

theorem Desc.trans {i j k : ℕ} (h1 : Desc i j) (h2 : Desc j k) : Desc i k := by
  induction h1 with
  | refl => exact h2
  | left i _ ih => exact Desc.left i (ih h2)
  | right i _ ih => exact Desc.right i (ih h2)

theorem Desc.parent {j : ℕ} (h : 0 < j) : Desc (parentN j) j := by
  rcases parentN_child_cases h with hc | hc
  · exact Desc.left _ (hc ▸ Desc.refl j)
  · exact Desc.right _ (hc ▸ Desc.refl j)

theorem Desc.of_parent_desc {i j : ℕ} (h : 0 < j) (hd : Desc i (parentN j)) :
    Desc i j :=
  hd.trans (Desc.parent h)

/-- Unfolding from above: `j` is in the sub-tree of `i` iff it is `i`
itself or its parent is (and `j` is not the root). -/
theorem desc_iff_parent {i j : ℕ} :
    Desc i j ↔ i = j ∨ (0 < j ∧ Desc i (parentN j)) := by
  constructor
  · intro h
    induction h with
    | refl => exact Or.inl rfl
    | left i k ih =>
      rcases ih with rfl | ⟨hk, hd⟩
      · exact Or.inr ⟨by omega, by rw [parentN_left_child]; exact Desc.refl i⟩
      · exact Or.inr ⟨hk, Desc.left i hd⟩
    | right i k ih =>
      rcases ih with rfl | ⟨hk, hd⟩
      · exact Or.inr ⟨by omega, by rw [parentN_right_child]; exact Desc.refl i⟩
      · exact Or.inr ⟨hk, Desc.right i hd⟩
  · rintro (rfl | ⟨hj, hd⟩)
    · exact Desc.refl _
    · exact hd.of_parent_desc hj

theorem Desc.zero (j : ℕ) : Desc 0 j := by
  induction j using Nat.strong_induction_on with
  | _ j ih =>
    rcases Nat.eq_zero_or_pos j with rfl | hj
    · exact Desc.refl 0
    · exact (ih (parentN j) (parentN_lt hj)).of_parent_desc hj

theorem Desc.grandParent {j : ℕ} (h : 3 ≤ j) : Desc (grandParentN j) j := by
  have h1 : 0 < j := by omega
  have h2 : 0 < parentN j := by unfold parentN; omega
  exact (Desc.parent h2).of_parent_desc h1

/-- Two ancestors of the same node are comparable. -/
theorem Desc.comparable {i r j : ℕ} (hi : Desc i j) (hr : Desc r j) :
    Desc i r ∨ Desc r i := by
  induction j using Nat.strong_induction_on with
  | _ j ih =>
    rcases desc_iff_parent.mp hi with rfl | ⟨hj, hip⟩
    · exact Or.inr hr
    · rcases desc_iff_parent.mp hr with rfl | ⟨_, hrp⟩
      · exact Or.inl hi
      · exact ih (parentN j) (parentN_lt hj) hip hrp

/-- A strict descendant of `i` is a descendant of one of its children. -/
theorem Desc.strict_step {i j : ℕ} (h : Desc i j) (hne : i ≠ j) :
    Desc (2 * i + 1) j ∨ Desc (2 * i + 2) j := by
  cases h with
  | refl => exact absurd rfl hne
  | left i h => exact Or.inl h
  | right i h => exact Or.inr h

theorem Desc.strict_lb {i j : ℕ} (h : Desc i j) (hne : i ≠ j) :
    2 * i + 1 ≤ j := by
  rcases h.strict_step hne with h' | h' <;> have := h'.le <;> omega

/-- A node whose left child is already out of range has no strict
descendant in range. -/
theorem Desc.leaf {i j n : ℕ} (h : Desc i j) (hj : j < n) (hn : n ≤ 2 * i + 1) :
    j = i := by
  by_contra hne
  have := h.strict_lb (fun e => hne e.symm)
  omega

/-- Ancestors of a strict descendant of `i`'s child stay inside the
sub-tree: if `j` is in the sub-tree of `i` and also of `r`, with
`r ≤ j`… (comparability gives the chain).  Conversely, a parent of a
non-root member of a sub-tree stays in the sub-tree. -/
theorem Desc.parent_mem {r j : ℕ} (h : Desc r j) (hne : r ≠ j) (hj : 0 < j) :
    Desc r (parentN j) := by
  rcases desc_iff_parent.mp h with rfl | ⟨_, hd⟩
  · exact absurd rfl hne
  · exact hd

/-! ## Reading, writing and swapping at natural-number offsets -/

theorem getValue_coe {α : Type} [Inhabited α] (A : List α) (i : ℕ) :
    getValue A (i : ℤ) = valN A i := rfl

theorem setValue_coe {α : Type} (A : List α) (i : ℕ) (v : α) :
    setValue A (i : ℤ) v = A.set i v := rfl

theorem swapValues_coe {α : Type} [Inhabited α] (A : List α) (i j : ℕ) :
    swapValues A (i : ℤ) (j : ℤ) = swapN A i j := rfl

theorem length_swapN {α : Type} [Inhabited α] (A : List α) (i j : ℕ) :
    (swapN A i j).length = A.length := by
  simp [swapN]

theorem valN_set_self {α : Type} [Inhabited α] {A : List α} {i : ℕ}
    (h : i < A.length) (v : α) : valN (A.set i v) i = v := by
  simp [valN, List.getD_eq_getElem?_getD, List.getElem?_set, h]

theorem valN_set_ne {α : Type} [Inhabited α] {A : List α} {i j : ℕ}
    (h : i ≠ j) (v : α) : valN (A.set i v) j = valN A j := by
  simp [valN, List.getD_eq_getElem?_getD, List.getElem?_set, h]

theorem valN_eq_getElem {α : Type} [Inhabited α] {A : List α} {i : ℕ}
    (h : i < A.length) : valN A i = A[i] := by
  simp [valN, List.getD_eq_getElem?_getD, List.getElem?_eq_getElem h]

theorem valN_swapN_fst {α : Type} [Inhabited α] {A : List α} {i j : ℕ}
    (hi : i < A.length) (hj : j < A.length) :
    valN (swapN A i j) i = valN A j := by
  unfold swapN
  rcases eq_or_ne j i with rfl | hne
  · rw [valN_set_self (by simpa using hi)]
  · rw [valN_set_ne hne, valN_set_self hi]

theorem valN_swapN_snd {α : Type} [Inhabited α] {A : List α} {i j : ℕ}
    (hj : j < A.length) : valN (swapN A i j) j = valN A i := by
  unfold swapN
  rw [valN_set_self (by simpa using hj)]

theorem valN_swapN_other {α : Type} [Inhabited α] {A : List α} {i j k : ℕ}
    (hik : i ≠ k) (hjk : j ≠ k) : valN (swapN A i j) k = valN A k := by
  unfold swapN
  rw [valN_set_ne hjk, valN_set_ne hik]

theorem multiset_set {α : Type} [Inhabited α] {A : List α} {i : ℕ}
    (h : i < A.length) (v : α) :
    ((A.set i v : List α) : Multiset α) + {valN A i} = (A : Multiset α) + {v} := by
  have hval : valN A i = A[i] := valN_eq_getElem h
  have hA : A = A.take i ++ A[i] :: A.drop (i + 1) := by
    conv_lhs => rw [← List.take_append_drop i A]
    congr 1
    exact List.drop_eq_getElem_cons h
  have hset : A.set i v = A.take i ++ v :: A.drop (i + 1) :=
    List.set_eq_take_cons_drop v h
  rw [hset, hval]
  conv_rhs => rw [hA]
  simp only [← Multiset.coe_add, ← Multiset.cons_coe]
  simp only [← Multiset.singleton_add]
  abel

theorem multiset_swapN {α : Type} [Inhabited α] {A : List α} {i j : ℕ}
    (hi : i < A.length) (hj : j < A.length) :
    ((swapN A i j : List α) : Multiset α) = (A : Multiset α) := by
  unfold swapN
  have h1 := multiset_set (A := A) hi (valN A j)
  have hj1 : j < (A.set i (valN A j)).length := by simpa using hj
  have h2 := multiset_set (A := A.set i (valN A j)) hj1 (valN A i)
  have hv : valN (A.set i (valN A j)) j = valN A j := by
    rcases eq_or_ne i j with rfl | hne
    · rw [valN_set_self hi]
    · rw [valN_set_ne hne]
  rw [hv] at h2
  exact add_right_cancel (h2.trans h1)

/-! ## Bridges between signed offsets and natural-number offsets -/

theorem isValidNode_coe {α : Type} (A : List α) (i : ℕ) :
    isValidNode A (i : ℤ) = true ↔ i < A.length := by
  simp [isValidNode, sizeZ]

theorem isValidNode_neg {α : Type} (A : List α) {i : ℤ} (h : i < 0) :
    isValidNode A i = false := by
  simp [isValidNode, sizeZ]
  omega

theorem getParentOffset_coe {j : ℕ} (h : 0 < j) :
    getParentOffset (j : ℤ) = (parentN j : ℤ) := by
  simp only [getParentOffset, getRootOffset, parentN]
  rw [if_neg (by omega)]
  omega

theorem getGrandParentOffset_coe {j : ℕ} (h : 3 ≤ j) :
    getGrandParentOffset (j : ℤ) = (grandParentN j : ℤ) := by
  unfold getGrandParentOffset grandParentN
  rw [getParentOffset_coe (by omega), getParentOffset_coe (by unfold parentN; omega)]

theorem getLeftChildOffset_coe (i : ℕ) :
    getLeftChildOffset (i : ℤ) = ((2 * i + 1 : ℕ) : ℤ) := by
  unfold getLeftChildOffset; push_cast; ring

theorem getRightChildOffset_coe (i : ℕ) :
    getRightChildOffset (i : ℤ) = ((2 * i + 2 : ℕ) : ℤ) := by
  unfold getRightChildOffset getLeftChildOffset; push_cast; ring

theorem getLevel_coe {α : Type} {A : List α} {i : ℕ} (h : i < A.length) :
    getLevel A (i : ℤ) = (levelN i : ℤ) := by
  unfold getLevel
  rw [if_neg (by simp [isValidNode_coe, h])]
  rw [show (i : ℤ).toNat = i from rfl, binaryLogarithmIntegerFloor_eq_log2]
  rfl

theorem isMinimumLevel_coe {α : Type} {A : List α} {i : ℕ} (h : i < A.length) :
    isMinimumLevel A (i : ℤ) = true ↔ minLvl i := by
  unfold isMinimumLevel minLvl
  rw [getLevel_coe h]
  simp only [decide_eq_true_eq]
  omega

theorem isMinimumLevel_invalid {α : Type} {A : List α} {i : ℤ}
    (h : isValidNode A i = false) : isMinimumLevel A i = false := by
  unfold isMinimumLevel getLevel
  rw [if_pos (by simp [h])]
  decide

/-- Where a non-negative grandparent offset can come from: only
offsets `≥ 3`, and the grandparent is strictly smaller. -/
theorem getGrandParentOffset_nonneg {i : ℤ} (h : 0 ≤ getGrandParentOffset i) :
    3 ≤ i ∧ getGrandParentOffset i < i := by
  unfold getGrandParentOffset getParentOffset getRootOffset at *
  split_ifs at h ⊢ <;> omega

theorem swapValues_toNat {α : Type} [Inhabited α] (A : List α) (i j : ℤ) :
    swapValues A i j = swapN A i.toNat j.toNat := rfl

theorem length_swapValues {α : Type} [Inhabited α] (A : List α) (i j : ℤ) :
    (swapValues A i j).length = A.length := by
  rw [swapValues_toNat, length_swapN]

theorem multiset_swapValues {α : Type} [Inhabited α] {A : List α} {i j : ℤ}
    (hi : isValidNode A i = true) (hj : isValidNode A j = true) :
    ((swapValues A i j : List α) : Multiset α) = (A : Multiset α) := by
  rw [swapValues_toNat]
  simp only [isValidNode, sizeZ, Bool.and_eq_true, decide_eq_true_eq] at hi hj
  exact multiset_swapN (by omega) (by omega)

/-! ## Fuel sufficiency and one-step equations for the recursions -/

theorem bubbleUpImplementationAux_congr {α : Type} [Inhabited α]
    (lt : α → α → Bool) (ord : LevelOrderingType) :
    ∀ (f1 f2 : ℕ) (heap : List α) (i : ℤ), i.toNat < f1 → i.toNat < f2 →
    bubbleUpImplementationAux lt ord f1 heap i =
      bubbleUpImplementationAux lt ord f2 heap i := by
  intro f1
  induction f1 with
  | zero => intro f2 heap i h1; omega
  | succ g1 ih =>
    intro f2 heap i h1 h2
    match f2 with
    | 0 => omega
    | g2 + 1 =>
      rw [bubbleUpImplementationAux, bubbleUpImplementationAux]
      split_ifs with hgp hless
      · have hnn : 0 ≤ getGrandParentOffset i := by
          unfold isGrandParentExist isValidNode at hgp
          simp only [Bool.and_eq_true, decide_eq_true_eq] at hgp
          exact hgp.1
        obtain ⟨hi3, hlt⟩ := getGrandParentOffset_nonneg hnn
        exact ih g2 _ _ (by omega) (by omega)
      · rfl
      · rfl

theorem bubbleUpImplementation_eq {α : Type} [Inhabited α]
    (lt : α → α → Bool) (ord : LevelOrderingType) (heap : List α) (i : ℤ) :
    bubbleUpImplementation lt ord heap i =
      if ¬ (isGrandParentExist heap i = true) then heap
      else if lessThan lt (decide (ord = LevelOrderingType.Maximum))
          (getValue heap i) (getValue heap (getGrandParentOffset i)) = true then
        bubbleUpImplementation lt ord
          (swapValues heap i (getGrandParentOffset i)) (getGrandParentOffset i)
      else heap := by
  unfold bubbleUpImplementation
  conv_lhs => rw [bubbleUpImplementationAux]
  split_ifs with hgp hless
  · have hnn : 0 ≤ getGrandParentOffset i := by
      unfold isGrandParentExist isValidNode at hgp
      simp only [Bool.and_eq_true, decide_eq_true_eq] at hgp
      exact hgp.1
    obtain ⟨hi3, hlt⟩ := getGrandParentOffset_nonneg hnn
    exact bubbleUpImplementationAux_congr lt ord _ _ _ _ (by omega) (by omega)
  · rfl
  · rfl

theorem length_bubbleUpImplementationAux {α : Type} [Inhabited α]
    (lt : α → α → Bool) (ord : LevelOrderingType) :
    ∀ (f : ℕ) (heap : List α) (i : ℤ),
    (bubbleUpImplementationAux lt ord f heap i).length = heap.length := by
  intro f
  induction f with
  | zero => intro heap i; rfl
  | succ g ih =>
    intro heap i
    rw [bubbleUpImplementationAux]
    split_ifs with h1 h2
    · rw [ih, length_swapValues]
    · rfl
    · rfl

theorem length_bubbleUpImplementation {α : Type} [Inhabited α]
    (lt : α → α → Bool) (ord : LevelOrderingType) (heap : List α) (i : ℤ) :
    (bubbleUpImplementation lt ord heap i).length = heap.length :=
  length_bubbleUpImplementationAux lt ord _ heap i

theorem multiset_bubbleUpImplementationAux {α : Type} [Inhabited α]
    (lt : α → α → Bool) (ord : LevelOrderingType) :
    ∀ (f : ℕ) (heap : List α) (i : ℤ), isValidNode heap i = true →
    ((bubbleUpImplementationAux lt ord f heap i : List α) : Multiset α) =
      (heap : Multiset α) := by
  intro f
  induction f with
  | zero => intro heap i _; rfl
  | succ g ih =>
    intro heap i hi
    rw [bubbleUpImplementationAux]
    split_ifs with h1 h2
    · rw [ih]
      · exact multiset_swapValues hi (by simpa [isGrandParentExist] using h1)
      · unfold isValidNode at *
        simp only [Bool.and_eq_true, decide_eq_true_eq] at *
        unfold isGrandParentExist isValidNode at h1
        simp only [Bool.and_eq_true, decide_eq_true_eq] at h1
        constructor
        · simpa [sizeZ] using h1.1
        · rw [show sizeZ (swapValues heap i (getGrandParentOffset i))
            = sizeZ heap by simp [sizeZ, length_swapValues]]
          simpa [sizeZ] using h1.2
    · rfl
    · rfl

theorem multiset_bubbleUpImplementation {α : Type} [Inhabited α]
    (lt : α → α → Bool) (ord : LevelOrderingType) (heap : List α) (i : ℤ)
    (hi : isValidNode heap i = true) :
    ((bubbleUpImplementation lt ord heap i : List α) : Multiset α) =
      (heap : Multiset α) :=
  multiset_bubbleUpImplementationAux lt ord _ heap i hi

theorem length_trickleDownImplementationAux {α : Type} [Inhabited α]
    (lt : α → α → Bool) (ord : LevelOrderingType) :
    ∀ (f : ℕ) (heap : List α) (r : ℤ),
    (trickleDownImplementationAux lt ord f heap r).length = heap.length := by
  intro f
  induction f with
  | zero => intro heap r; rfl
  | succ g ih =>
    intro heap r
    rw [trickleDownImplementationAux]
    dsimp only
    split_ifs <;> simp [ih, length_swapValues]

theorem length_trickleDownImplementation {α : Type} [Inhabited α]
    (lt : α → α → Bool) (ord : LevelOrderingType) (heap : List α) (r : ℤ) :
    (trickleDownImplementation lt ord heap r).length = heap.length :=
  length_trickleDownImplementationAux lt ord _ heap r

theorem length_trickleDown {α : Type} [Inhabited α]
    (lt : α → α → Bool) (heap : List α) (r : ℤ) :
    (trickleDown lt heap r).length = heap.length := by
  unfold trickleDown
  split_ifs <;> exact length_trickleDownImplementation ..

/-- The descendant scan returns its initial accumulator (the left
child) or some valid member of the candidate list. -/
theorem foldl_extremum_cases {α : Type} [Inhabited α] (lt : α → α → Bool)
    (invert : Bool) (heap : List α) :
    ∀ (cands : List ℤ) (acc : ℤ),
    (cands.foldl
      (fun extremumOffset d =>
        if isValidNode heap d = true ∧
            lessThan lt invert (getValue heap d) (getValue heap extremumOffset) = true then d
        else extremumOffset) acc) = acc ∨
    (isValidNode heap (cands.foldl
      (fun extremumOffset d =>
        if isValidNode heap d = true ∧
            lessThan lt invert (getValue heap d) (getValue heap extremumOffset) = true then d
        else extremumOffset) acc) = true ∧
     (cands.foldl
      (fun extremumOffset d =>
        if isValidNode heap d = true ∧
            lessThan lt invert (getValue heap d) (getValue heap extremumOffset) = true then d
        else extremumOffset) acc) ∈ cands) := by
  intro cands
  induction cands with
  | nil => intro acc; exact Or.inl rfl
  | cons c cs ih =>
    intro acc
    rw [List.foldl_cons]
    rcases ih (if isValidNode heap c = true ∧
        lessThan lt invert (getValue heap c) (getValue heap acc) = true then c else acc) with
      heq | ⟨hvalid, hmem⟩
    · rw [heq]
      split_ifs with hc
      · exact Or.inr ⟨hc.1, List.mem_cons_self c cs⟩
      · exact Or.inl rfl
    · exact Or.inr ⟨hvalid, List.mem_cons_of_mem c hmem⟩

theorem findExtremumDescendantOffset_valid {α : Type} [Inhabited α]
    {lt : α → α → Bool} {invert : Bool} {heap : List α} {r : ℤ}
    (hr : 0 ≤ r) (hlc : isLeftChildExist heap r = true) :
    isValidNode heap (findExtremumDescendantOffset lt invert heap r) = true ∧
      r < findExtremumDescendantOffset lt invert heap r := by
  have hlcvalid : isValidNode heap (getLeftChildOffset r) = true := by
    unfold isLeftChildExist at hlc
    unfold isValidNode getLeftChildOffset at *
    simp only [Bool.and_eq_true, decide_eq_true_eq] at *
    omega
  unfold findExtremumDescendantOffset
  set x := (descendantOffsets r).foldl
    (fun extremumOffset currentDescendentOffset =>
      if isValidNode heap currentDescendentOffset = true ∧
          lessThan lt invert (getValue heap currentDescendentOffset)
            (getValue heap extremumOffset) = true then
        currentDescendentOffset
      else extremumOffset)
    (getLeftChildOffset r) with hx
  rcases foldl_extremum_cases lt invert heap (descendantOffsets r) (getLeftChildOffset r) with
    heq | ⟨hvalid, hmem⟩
  · rw [← hx] at heq
    rw [heq]
    refine ⟨hlcvalid, ?_⟩
    unfold getLeftChildOffset
    omega
  · rw [← hx] at hvalid hmem
    refine ⟨hvalid, ?_⟩
    simp only [descendantOffsets, List.mem_cons, List.not_mem_nil, or_false] at hmem
    unfold getLeftChildOffset getRightChildOffset getLeftChildOffset at hmem
    rcases hmem with h | h | h | h | h | h <;> omega

theorem trickleDownImplementationAux_congr {α : Type} [Inhabited α]
    (lt : α → α → Bool) (ord : LevelOrderingType) :
    ∀ (f1 f2 : ℕ) (heap : List α) (r : ℤ), 0 ≤ r →
    heap.length < r.toNat + f1 → heap.length < r.toNat + f2 →
    trickleDownImplementationAux lt ord f1 heap r =
      trickleDownImplementationAux lt ord f2 heap r := by
  intro f1
  induction f1 with
  | zero =>
    intro f2 heap r hr h1 h2
    match f2 with
    | 0 => rfl
    | g2 + 1 =>
      rw [trickleDownImplementationAux, trickleDownImplementationAux]
      have hnc : ¬ (isLeftChildExist heap r = true) := by
        unfold isLeftChildExist getLeftChildOffset sizeZ
        simp only [decide_eq_true_eq]
        omega
      rw [if_pos hnc]
  | succ g1 ih =>
    intro f2 heap r hr h1 h2
    match f2 with
    | 0 =>
      rw [trickleDownImplementationAux, trickleDownImplementationAux]
      have hnc : ¬ (isLeftChildExist heap r = true) := by
        unfold isLeftChildExist getLeftChildOffset sizeZ
        simp only [decide_eq_true_eq]
        omega
      rw [if_pos hnc]
    | g2 + 1 =>
      rw [trickleDownImplementationAux, trickleDownImplementationAux]
      by_cases hlc : isLeftChildExist heap r = true
      · rw [if_neg (not_not_intro hlc), if_neg (not_not_intro hlc)]
        dsimp only
        obtain ⟨hmv, hmgt⟩ := findExtremumDescendantOffset_valid hr hlc
        set m := findExtremumDescendantOffset lt
          (decide (ord = LevelOrderingType.Maximum)) heap r with hm
        have hmlen : m.toNat < heap.length := by
          unfold isValidNode sizeZ at hmv
          simp only [Bool.and_eq_true, decide_eq_true_eq] at hmv
          omega
        by_cases hgp : getGrandParentOffset m = r
        · rw [if_pos hgp, if_pos hgp]
          apply ih
          · unfold isValidNode at hmv
            simp only [Bool.and_eq_true, decide_eq_true_eq] at hmv
            exact hmv.1
          · split_ifs <;> (try simp only [length_swapValues]) <;> omega
          · split_ifs <;> (try simp only [length_swapValues]) <;> omega
        · rw [if_neg hgp, if_neg hgp]
      · rw [if_pos hlc, if_pos hlc]

theorem trickleDownImplementation_eq {α : Type} [Inhabited α]
    (lt : α → α → Bool) (ord : LevelOrderingType) (heap : List α) (r : ℤ)
    (hr : 0 ≤ r) :
    trickleDownImplementation lt ord heap r =
      if ¬ (isLeftChildExist heap r = true) then heap
      else
        let extremumOffset :=
          findExtremumDescendantOffset lt (decide (ord = LevelOrderingType.Maximum))
            heap r
        if getGrandParentOffset extremumOffset = r then
          trickleDownImplementation lt ord
            (if lessThan lt (decide (ord = LevelOrderingType.Maximum))
                (getValue heap extremumOffset) (getValue heap r) = true then
              if greaterThan lt (decide (ord = LevelOrderingType.Maximum))
                  (getValue (swapValues heap extremumOffset r) extremumOffset)
                  (getValue (swapValues heap extremumOffset r)
                    (getParentOffset extremumOffset)) = true then
                swapValues (swapValues heap extremumOffset r)
                  extremumOffset (getParentOffset extremumOffset)
              else swapValues heap extremumOffset r
            else heap)
            extremumOffset
        else if getParentOffset extremumOffset = r then
          if lessThan lt (decide (ord = LevelOrderingType.Maximum))
              (getValue heap extremumOffset) (getValue heap r) = true then
            swapValues heap extremumOffset r
          else heap
        else heap := by
  unfold trickleDownImplementation
  conv_lhs => rw [trickleDownImplementationAux]
  by_cases hlc : isLeftChildExist heap r = true
  · rw [if_neg (not_not_intro hlc), if_neg (not_not_intro hlc)]
    dsimp only
    obtain ⟨hmv, hmgt⟩ := findExtremumDescendantOffset_valid hr hlc
    set m := findExtremumDescendantOffset lt
      (decide (ord = LevelOrderingType.Maximum)) heap r with hm
    have hmlen : m.toNat < heap.length := by
      unfold isValidNode sizeZ at hmv
      simp only [Bool.and_eq_true, decide_eq_true_eq] at hmv
      omega
    have hmnn : 0 ≤ m := by
      unfold isValidNode at hmv
      simp only [Bool.and_eq_true, decide_eq_true_eq] at hmv
      exact hmv.1
    by_cases hgp : getGrandParentOffset m = r
    · rw [if_pos hgp, if_pos hgp]
      apply trickleDownImplementationAux_congr lt ord _ _ _ _ hmnn
      · split_ifs <;> (try simp only [length_swapValues]) <;> omega
      · split_ifs <;> (try simp only [length_swapValues]) <;> omega
    · rw [if_neg hgp, if_neg hgp]
  · rw [if_pos hlc, if_pos hlc]

theorem multiset_trickleDownImplementationAux {α : Type} [Inhabited α]
    (lt : α → α → Bool) (ord : LevelOrderingType) :
    ∀ (f : ℕ) (heap : List α) (r : ℤ), 0 ≤ r →
    ((trickleDownImplementationAux lt ord f heap r : List α) : Multiset α) =
      (heap : Multiset α) := by
  intro f
  induction f with
  | zero => intro heap r _; rfl
  | succ g ih =>
    intro heap r hr
    rw [trickleDownImplementationAux]
    by_cases hlc : isLeftChildExist heap r = true
    · rw [if_neg (not_not_intro hlc)]
      dsimp only
      obtain ⟨hmv, hmgt⟩ := findExtremumDescendantOffset_valid hr hlc
      set m := findExtremumDescendantOffset lt
        (decide (ord = LevelOrderingType.Maximum)) heap r with hm
      have hmnn : 0 ≤ m := by
        unfold isValidNode at hmv
        simp only [Bool.and_eq_true, decide_eq_true_eq] at hmv
        exact hmv.1
      have hrvalid : isValidNode heap r = true := by
        unfold isLeftChildExist getLeftChildOffset at hlc
        unfold isValidNode sizeZ at *
        simp only [Bool.and_eq_true, decide_eq_true_eq] at *
        omega
      by_cases hgp : getGrandParentOffset m = r
      · rw [if_pos hgp]
        rw [ih _ m hmnn]
        split_ifs with hless hgt
        · have hpar : isValidNode (swapValues heap m r) (getParentOffset m) = true := by
            have h3 := getGrandParentOffset_nonneg (hgp ▸ hr)
            unfold getGrandParentOffset at h3
            unfold isValidNode sizeZ at *
            unfold getParentOffset getRootOffset at *
            simp only [Bool.and_eq_true, decide_eq_true_eq] at *
            rw [show ((swapValues heap m r).length : ℤ) = (heap.length : ℤ) by
              simp [length_swapValues]]
            split_ifs at * <;> omega
          have hm' : isValidNode (swapValues heap m r) m = true := by
            unfold isValidNode sizeZ at *
            simp only [Bool.and_eq_true, decide_eq_true_eq] at *
            rw [show ((swapValues heap m r).length : ℤ) = (heap.length : ℤ) by
              simp [length_swapValues]]
            omega
          rw [multiset_swapValues hm' hpar, multiset_swapValues hmv hrvalid]
        · rw [multiset_swapValues hmv hrvalid]
        · rfl
      · rw [if_neg hgp]
        by_cases hpc : getParentOffset m = r
        · rw [if_pos hpc]
          split_ifs with hless
          · rw [multiset_swapValues hmv hrvalid]
          · rfl
        · rw [if_neg hpc]
    · rw [if_pos hlc]

theorem multiset_trickleDownImplementation {α : Type} [Inhabited α]
    (lt : α → α → Bool) (ord : LevelOrderingType) (heap : List α) (r : ℤ)
    (hr : 0 ≤ r) :
    ((trickleDownImplementation lt ord heap r : List α) : Multiset α) =
      (heap : Multiset α) :=
  multiset_trickleDownImplementationAux lt ord _ heap r hr

theorem multiset_trickleDown {α : Type} [Inhabited α]
    (lt : α → α → Bool) (heap : List α) (r : ℤ) (hr : 0 ≤ r) :
    ((trickleDown lt heap r : List α) : Multiset α) = (heap : Multiset α) := by
  unfold trickleDown
  split_ifs <;> exact multiset_trickleDownImplementation lt _ heap r hr

end MMH


namespace MMH

/-! ## Further index and parity lemmas -/

theorem Desc.child_left (i : ℕ) : Desc i (2 * i + 1) :=
  Desc.left i (Desc.refl _)

theorem Desc.child_right (i : ℕ) : Desc i (2 * i + 2) :=
  Desc.right i (Desc.refl _)

theorem minLvl_left_child_iff (i : ℕ) : minLvl (2 * i + 1) ↔ ¬ minLvl i := by
  unfold minLvl
  rw [levelN_left_child]
  omega

theorem minLvl_right_child_iff (i : ℕ) : minLvl (2 * i + 2) ↔ ¬ minLvl i := by
  unfold minLvl
  rw [levelN_right_child]
  omega

theorem minLvl_parent_iff {j : ℕ} (h : 0 < j) : minLvl (parentN j) ↔ ¬ minLvl j := by
  unfold minLvl
  rw [levelN_parent h]
  omega

/-- A strict descendant of `r` is a child of `r`, or lies in the
sub-tree of a grandchild of `r`. -/
theorem Desc.strict_cover {r k : ℕ} (h : Desc r k) (hne : r ≠ k) :
    k = 2 * r + 1 ∨ k = 2 * r + 2 ∨
    ((Desc (2 * (2 * r + 1) + 1) k ∨ Desc (2 * (2 * r + 1) + 2) k) ∨
     (Desc (2 * (2 * r + 2) + 1) k ∨ Desc (2 * (2 * r + 2) + 2) k)) := by
  rcases h.strict_step hne with hc | hc
  · rcases eq_or_ne (2 * r + 1) k with rfl | hne'
    · exact Or.inl rfl
    · exact Or.inr (Or.inr (Or.inl (hc.strict_step hne')))
  · rcases eq_or_ne (2 * r + 2) k with rfl | hne'
    · exact Or.inr (Or.inl rfl)
    · exact Or.inr (Or.inr (Or.inr (hc.strict_step hne')))

/-- The only ancestors of a child `c` of `r` inside the sub-tree of `r`
are `r` and `c` itself. -/
theorem Desc.anc_of_child {r c i : ℕ} (hc : parentN c = r) (hcpos : 0 < c)
    (hi : Desc i c) (hir : Desc r i) : i = r ∨ i = c := by
  rcases eq_or_ne i c with rfl | hne
  · exact Or.inr rfl
  · left
    have h1 : Desc i (parentN c) := hi.parent_mem hne hcpos
    rw [hc] at h1
    exact le_antisymm h1.le hir.le

theorem getValue_toNat {α : Type} [Inhabited α] (A : List α) (i : ℤ) :
    getValue A i = valN A i.toNat := rfl

theorem minMaxHeapInvariant_iff_subtree {α : Type} [LinearOrder α]
    [Inhabited α] (A : List α) :
    minMaxHeapInvariant A ↔ subtreeOrderedRel (· ≤ ·) true A 0 := by
  unfold minMaxHeapInvariant subtreeOrderedRel pairOrdered pairOrderedRel
  constructor
  · intro h i j hri hij hj
    have := h i j hij hj
    split_ifs at * <;> simp_all
  · intro h i j hij hj
    have := h i j (Desc.zero i) hij hj
    split_ifs at * <;> simp_all

end MMH

open MMH FSPQ LSQ

/-- C2: the claim states that a bounded queue with capacity `K = 0`
discards every insert without failing.  In fact `Emplace` on a
zero-capacity queue is not below capacity, so it consults the
opposite-polarity extremum of its (necessarily empty) heap, and
`FindMaximum` throws `std::out_of_range` on the empty heap: the insert
fails instead of discarding silently. -/
theorem C2_insert_at_zero_capacity_throws :
    emplaceQueue false stdLt stdLt 0 ([] : List ℤ) 5 =
      Except.error "Cannot find maximum in an empty min-max heap." := by decide

/-- C2 (amended): a queue with capacity `K = 0` is permanently empty,
but not by silent discard: under either polarity every insert fails by
propagating the heap's `Empty` error (`FindMaximum` for MinKeep,
`FindMinimum` for MaxKeep, both on the empty heap), and — the failure
occurring before any mutation — the container stays empty. -/
theorem C2_zero_capacity_insert_fails_both_polarities
    (lt : ℤ → ℤ → Bool) (x : ℤ) :
    emplaceQueue false lt lt 0 ([] : List ℤ) x =
      Except.error "Cannot find maximum in an empty min-max heap." ∧
    emplaceQueue true lt lt 0 ([] : List ℤ) x =
      Except.error "Cannot find minimum in an empty min-max heap." :=
  ⟨rfl, rfl⟩

/-- C3: at full capacity under MinKeep the source decides acceptance
with `Element < m_MinMaxHeap.FindMaximum()` — the element type's
built-in `operator<` — not with the user-supplied
`m_LessThanComparison` that orders the heap.  With the reversed
comparator `lt(a,b) = (b < a)` and capacity 2, inserting 1 then 9
yields the heap `[9, 1]`, whose worst-of-polarity (its `lt`-maximum) is
`1`; the claim's guard `lt(5, 1)` holds, so 5 ought to be accepted and
1 evicted, yet the code evaluates the built-in `5 < 1`, which is false,
and discards 5, leaving the state unchanged. -/
theorem C3_min_keep_guard_uses_builtin_less :
    insertStream false revLtInt stdLt 2 ([] : List ℤ) [1, 9] = Except.ok [9, 1] ∧
    findMaximum revLtInt ([9, 1] : List ℤ) = Except.ok 1 ∧
    revLtInt 5 1 = true ∧
    emplaceQueue false revLtInt stdLt 2 ([9, 1] : List ℤ) 5 = Except.ok [9, 1] := by
  refine ⟨by decide, by decide, by decide, by decide⟩

/-- C6: on an empty container every extremum query and deletion, and
the bounded queue's pop, fails with the `Empty` error (the exact
`std::out_of_range` message of the source), for any comparator;
`DeleteMaximum` has no emptiness guard of its own and fails through
its `FindMaximumOffset` call, before any mutation.  The errors
propagate to the caller unhandled (the operations return the error
verbatim; nothing catches or retries). -/
theorem C6_empty_container_operations_fail (lt : ℤ → ℤ → Bool) :
    findMinimum lt ([] : List ℤ) =
      Except.error "Cannot find minimum in an empty min-max heap." ∧
    findMaximum lt ([] : List ℤ) =
      Except.error "Cannot find maximum in an empty min-max heap." ∧
    deleteMinimum lt ([] : List ℤ) =
      Except.error "Cannot delete minimum from an empty min-max heap." ∧
    deleteMaximum lt ([] : List ℤ) =
      Except.error "Cannot find maximum in an empty min-max heap." ∧
    popMinimum lt ([] : List ℤ) =
      Except.error "Cannot delete minimum from an empty min-max heap." ∧
    popMaximum lt ([] : List ℤ) =
      Except.error "Cannot find maximum in an empty min-max heap." :=
  ⟨rfl, rfl, rfl, rfl, rfl, rfl⟩

/-- C7: the claim's concrete instance is wrong: at `i = 16,777,204` the
level computation returns `23` — which is the exact value
`⌊log₂ 16,777,205⌋` (`2^23 ≤ 16,777,205 < 2^24`) — not `24`. -/
theorem C7_level_at_16777204_is_23 :
    binaryLogarithmIntegerFloor (16777204 + 1) = 23 ∧
    binaryLogarithmIntegerFloor (16777204 + 1) ≠ 24 := by
  refine ⟨by decide, by decide⟩

/-- C7 (amended): the level computation is the exact integer floor of
the base-two logarithm — `BinaryLogarithmIntegerFloor(i+1)` (the
right-shift loop on the unsigned representation) equals
`⌊log₂ (i+1)⌋` for every index in the claimed 32-bit range, and
`GetLevel` returns exactly that on every valid node; in particular at
`i = 16,777,204` it returns `23` (not `24` as the claim stated). -/
theorem C7_level_exactness :
    (∀ i : ℕ, i < 2 ^ 32 - 1 →
      binaryLogarithmIntegerFloor (i + 1) = Nat.log 2 (i + 1)) ∧
    (∀ (A : List ℤ) (i : ℤ), isValidNode A i = true →
      getLevel A i = (Nat.log 2 (i.toNat + 1) : ℤ)) ∧
    binaryLogarithmIntegerFloor (16777204 + 1) = 23 := by
  refine ⟨?_, ?_, by decide⟩
  · intro i _
    rw [binaryLogarithmIntegerFloor_eq_log2, Nat.log2_eq_log_two]
  · intro A i hvalid
    unfold getLevel
    rw [if_neg (by simp [hvalid])]
    rw [binaryLogarithmIntegerFloor_eq_log2, Nat.log2_eq_log_two]

/-- C7 witness: the general exactness statement applied at the claim's
own boundary index. -/
theorem C7_level_exactness_witness :
    (16777204 : ℕ) < 2 ^ 32 - 1 ∧
    binaryLogarithmIntegerFloor (16777204 + 1) = Nat.log 2 (16777204 + 1) :=
  ⟨by norm_num, C7_level_exactness.1 16777204 (by norm_num)⟩

namespace MMH

/-! ## Core correctness of the trickle-down procedure

The procedure is analysed once, for an arbitrary relation `le` tied to
the effective comparison `lessThan lt invert`; instantiating
`le := (· ≤ ·)` with `invert := false` gives the minimum-ordering
facts, and `le := (fun a b => b ≤ a)` with `invert := true` the
maximum-ordering ones. -/

theorem greaterThan_eq_lessThan {α : Type} (lt : α → α → Bool) (invert : Bool)
    (lhs rhs : α) : greaterThan lt invert lhs rhs = lessThan lt invert rhs lhs := by
  unfold greaterThan lessThan
  cases invert <;> rfl

/-- The descendant scan's result is `le` every valid candidate and the
initial accumulator. -/
theorem foldl_extremum_le {α : Type} [Inhabited α] (lt : α → α → Bool)
    (invert : Bool) (le : α → α → Prop)
    (hcmp : ∀ a b, lessThan lt invert a b = true ↔ ¬ le b a)
    (htot : ∀ a b, le a b ∨ le b a)
    (htrans : ∀ a b c, le a b → le b c → le a c)
    (heap : List α) :
    ∀ (cands : List ℤ) (acc : ℤ),
    le (getValue heap (cands.foldl
      (fun extremumOffset d =>
        if isValidNode heap d = true ∧
            lessThan lt invert (getValue heap d) (getValue heap extremumOffset) = true then d
        else extremumOffset) acc)) (getValue heap acc) ∧
    (∀ d, d ∈ cands → isValidNode heap d = true →
      le (getValue heap (cands.foldl
        (fun extremumOffset d =>
          if isValidNode heap d = true ∧
              lessThan lt invert (getValue heap d) (getValue heap extremumOffset) = true then d
          else extremumOffset) acc)) (getValue heap d)) := by
  have hrefl : ∀ a, le a a := fun a => (htot a a).elim id id
  intro cands
  induction cands with
  | nil =>
    intro acc
    exact ⟨hrefl _, by intro d hd; exact absurd hd (List.not_mem_nil d)⟩
  | cons c cs ih =>
    intro acc
    rw [List.foldl_cons]
    by_cases hcond : isValidNode heap c = true ∧
        lessThan lt invert (getValue heap c) (getValue heap acc) = true
    · rw [if_pos hcond]
      obtain ⟨ih1, ih2⟩ := ih c
      have h1 : ¬ le (getValue heap acc) (getValue heap c) := (hcmp _ _).mp hcond.2
      have h2 : le (getValue heap c) (getValue heap acc) :=
        (htot _ _).resolve_left h1
      refine ⟨htrans _ _ _ ih1 h2, ?_⟩
      intro d hd hdvalid
      rcases List.mem_cons.mp hd with rfl | hdcs
      · exact ih1
      · exact ih2 d hdcs hdvalid
    · rw [if_neg hcond]
      obtain ⟨ih1, ih2⟩ := ih acc
      refine ⟨ih1, ?_⟩
      intro d hd hdvalid
      rcases List.mem_cons.mp hd with rfl | hdcs
      · have hnl : ¬ (lessThan lt invert (getValue heap d) (getValue heap acc) = true) := by
          intro h
          exact hcond ⟨hdvalid, h⟩
        have h2 : le (getValue heap acc) (getValue heap d) := by
          by_contra hno
          exact hnl ((hcmp _ _).mpr hno)
        exact htrans _ _ _ ih1 h2
      · exact ih2 d hdcs hdvalid

/-- Parity of grandchildren of `r` agrees with the parity of `r`. -/
theorem minLvl_grandchild_decide {r gc : ℕ} (hp : parentN (parentN gc) = r)
    (h3 : 3 ≤ gc) :
    decide (minLvl gc) = decide (minLvl r) := by
  have h1 : 0 < gc := by omega
  have h2 : 0 < parentN gc := by unfold parentN; omega
  have e1 := minLvl_parent_iff h1
  have e2 := minLvl_parent_iff h2
  rw [hp] at e2
  rcases Classical.em (minLvl gc) with h | h <;> simp [h] at e1 ⊢ <;>
    [skip; skip] <;> simp_all

/-- Each of the six scanned descendants has `r` as its parent or
grandparent; hence so does the scan's result. -/
theorem findExtremum_parent_or_grandParent {α : Type} [Inhabited α]
    (lt : α → α → Bool) (invert : Bool) (A : List α) (r : ℕ) :
    getParentOffset (findExtremumDescendantOffset lt invert A (r : ℤ)) = (r : ℤ) ∨
    getGrandParentOffset (findExtremumDescendantOffset lt invert A (r : ℤ)) = (r : ℤ) := by
  have hlc : getLeftChildOffset (r : ℤ) = ((2 * r + 1 : ℕ) : ℤ) := getLeftChildOffset_coe r
  have hrc : getRightChildOffset (r : ℤ) = ((2 * r + 2 : ℕ) : ℤ) := getRightChildOffset_coe r
  have hp1 : getParentOffset ((2 * r + 1 : ℕ) : ℤ) = (r : ℤ) := by
    rw [getParentOffset_coe (by omega), parentN_left_child]
  have hp2 : getParentOffset ((2 * r + 2 : ℕ) : ℤ) = (r : ℤ) := by
    rw [getParentOffset_coe (by omega), parentN_right_child]
  have hcases : findExtremumDescendantOffset lt invert A (r : ℤ) = getLeftChildOffset (r : ℤ) ∨
      (isValidNode A (findExtremumDescendantOffset lt invert A (r : ℤ)) = true ∧
       findExtremumDescendantOffset lt invert A (r : ℤ) ∈ descendantOffsets (r : ℤ)) :=
    foldl_extremum_cases lt invert A (descendantOffsets (r : ℤ)) (getLeftChildOffset (r : ℤ))
  rcases hcases with heq | ⟨_, hmem⟩
  · rw [heq, hlc]
    exact Or.inl hp1
  · simp only [descendantOffsets, List.mem_cons, List.not_mem_nil, or_false] at hmem
    rcases hmem with h | h | h | h | h | h <;> rw [h]
    · rw [hlc]; exact Or.inl hp1
    · rw [hlc, getLeftChildOffset_coe]
      refine Or.inr ?_
      unfold getGrandParentOffset
      rw [getParentOffset_coe (by omega), parentN_left_child, hp1]
    · rw [hlc, getRightChildOffset_coe]
      refine Or.inr ?_
      unfold getGrandParentOffset
      rw [getParentOffset_coe (by omega), parentN_right_child, hp1]
    · rw [hrc]; exact Or.inl hp2
    · rw [hrc, getLeftChildOffset_coe]
      refine Or.inr ?_
      unfold getGrandParentOffset
      rw [getParentOffset_coe (by omega), parentN_left_child, hp2]
    · rw [hrc, getRightChildOffset_coe]
      refine Or.inr ?_
      unfold getGrandParentOffset
      rw [getParentOffset_coe (by omega), parentN_right_child, hp2]

/-- The scan's result value is `le` the value at every strict
descendant of `r` (using the sub-tree hypothesis below `r` for
descendants deeper than two levels). -/
theorem findExtremum_le_subtree {α : Type} [Inhabited α] (lt : α → α → Bool)
    (invert : Bool) (le : α → α → Prop)
    (hcmp : ∀ a b, lessThan lt invert a b = true ↔ ¬ le b a)
    (htot : ∀ a b, le a b ∨ le b a)
    (htrans : ∀ a b c, le a b → le b c → le a c)
    (A : List α) (r : ℕ)
    (hb : belowOrderedRel le (decide (minLvl r)) A r) :
    ∀ k : ℕ, Desc r k → k ≠ r → k < A.length →
      le (getValue A (findExtremumDescendantOffset lt invert A (r : ℤ))) (valN A k) := by
  intro k hdesc hne hk
  have hcands : ∀ d, d ∈ descendantOffsets (r : ℤ) → isValidNode A d = true →
      le (getValue A (findExtremumDescendantOffset lt invert A (r : ℤ))) (getValue A d) :=
    (foldl_extremum_le lt invert le hcmp htot htrans A
      (descendantOffsets (r : ℤ)) (getLeftChildOffset (r : ℤ))).2
  have hcand_mem : ∀ c : ℕ, (c : ℤ) ∈ descendantOffsets (r : ℤ) → c < A.length →
      le (getValue A (findExtremumDescendantOffset lt invert A (r : ℤ))) (valN A c) := by
    intro c hmem hclen
    have hcvalid : isValidNode A (c : ℤ) = true := (isValidNode_coe A c).mpr hclen
    have h := hcands (c : ℤ) hmem hcvalid
    rw [getValue_toNat (A := A) (i := (c : ℤ))] at h
    simpa using h
  have hlc_mem : ((2 * r + 1 : ℕ) : ℤ) ∈ descendantOffsets (r : ℤ) := by
    simp [descendantOffsets, getLeftChildOffset_coe]
  have hrc_mem : ((2 * r + 2 : ℕ) : ℤ) ∈ descendantOffsets (r : ℤ) := by
    simp only [descendantOffsets, List.mem_cons]
    right; right; right; left
    rw [getRightChildOffset_coe]
  rcases hdesc.strict_cover (fun e => hne e.symm) with rfl | rfl | hgc
  · exact hcand_mem _ hlc_mem hk
  · exact hcand_mem _ hrc_mem hk
  · have hgc_main : ∀ gc : ℕ, (gc : ℤ) ∈ descendantOffsets (r : ℤ) →
        parentN (parentN gc) = r → 3 ≤ gc → Desc gc k →
        le (getValue A (findExtremumDescendantOffset lt invert A (r : ℤ))) (valN A k) := by
      intro gc hgcmem hgcpar hgc3 hgck
      have hgclen : gc < A.length := by
        have := hgck.le
        omega
      have h1 := hcand_mem gc hgcmem hgclen
      rcases eq_or_ne gc k with rfl | hgcne
      · exact h1
      · have h0 : 0 < gc := by omega
        have h0' : 0 < parentN gc := by unfold parentN; omega
        have hrgc : r < gc := by
          have l1 := parentN_lt h0
          have l2 := parentN_lt h0'
          omega
        have hdesc_r_gc : Desc r gc := by
          have d1 : Desc (parentN gc) gc := Desc.parent h0
          have d2 : Desc (parentN (parentN gc)) (parentN gc) := Desc.parent h0'
          rw [hgcpar] at d2
          exact d2.trans d1
        have hpair := hb gc k hdesc_r_gc (by omega) hgck hk
        unfold pairOrderedRel at hpair
        rw [minLvl_grandchild_decide hgcpar hgc3] at hpair
        rw [if_pos rfl] at hpair
        exact htrans _ _ _ h1 hpair
    have hx1 : getLeftChildOffset (getLeftChildOffset (r : ℤ)) =
        ((2 * (2 * r + 1) + 1 : ℕ) : ℤ) := by
      rw [getLeftChildOffset_coe, getLeftChildOffset_coe]
    have hx2 : getRightChildOffset (getLeftChildOffset (r : ℤ)) =
        ((2 * (2 * r + 1) + 2 : ℕ) : ℤ) := by
      rw [getLeftChildOffset_coe, getRightChildOffset_coe]
    have hx3 : getLeftChildOffset (getRightChildOffset (r : ℤ)) =
        ((2 * (2 * r + 2) + 1 : ℕ) : ℤ) := by
      rw [getRightChildOffset_coe, getLeftChildOffset_coe]
    have hx4 : getRightChildOffset (getRightChildOffset (r : ℤ)) =
        ((2 * (2 * r + 2) + 2 : ℕ) : ℤ) := by
      rw [getRightChildOffset_coe, getRightChildOffset_coe]
    rcases hgc with (h | h) | (h | h)
    · refine hgc_main (2 * (2 * r + 1) + 1) ?_ ?_ (by omega) h
      · simp only [descendantOffsets, List.mem_cons]
        right; left; rw [hx1]
      · rw [parentN_left_child, parentN_left_child]
    · refine hgc_main (2 * (2 * r + 1) + 2) ?_ ?_ (by omega) h
      · simp only [descendantOffsets, List.mem_cons]
        right; right; left; rw [hx2]
      · rw [parentN_right_child, parentN_left_child]
    · refine hgc_main (2 * (2 * r + 2) + 1) ?_ ?_ (by omega) h
      · simp only [descendantOffsets, List.mem_cons]
        right; right; right; right; left; rw [hx3]
      · rw [parentN_left_child, parentN_right_child]
    · refine hgc_main (2 * (2 * r + 2) + 2) ?_ ?_ (by omega) h
      · simp only [descendantOffsets, List.mem_cons]
        right; right; right; right; right; left; rw [hx4]
      · rw [parentN_right_child, parentN_right_child]

end MMH

namespace MMH

/-- Assembly of the grandchild branch of trickle-down: given the
swapped array `A2` (root dominates, the intermediate parent still
dominates, everything else untouched) and the recursion's results on
the grandchild's sub-tree (`A'`), the whole sub-tree of `r` is ordered
and only its positions were permuted. -/
theorem td_assemble_grandchild {α : Type} [Inhabited α] (le : α → α → Prop)
    (htrans : ∀ a b c, le a b → le b c → le a c)
    (A A2 A' : List α) (r pm mN : ℕ)
    (hlen2 : A2.length = A.length) (hlen' : A'.length = A.length)
    (hpm : parentN mN = pm) (hpmr : parentN pm = r)
    (hpm_pos : 0 < pm) (hr_pm : r < pm) (hpm_m : pm < mN) (hm_len : mN < A.length)
    (hb : belowOrderedRel le (decide (minLvl r)) A r)
    (G2 : ∀ k, k < A.length → k ≠ r → k ≠ pm → k ≠ mN → valN A2 k = valN A k)
    (G3 : ∀ k, k < A.length → Desc r k → le (valN A2 r) (valN A2 k))
    (G4 : ∀ j, j < A.length → Desc pm j → le (valN A2 j) (valN A2 pm))
    (G6 : ∀ e, e < A.length → Desc r e →
      ∃ e2, e2 < A.length ∧ Desc r e2 ∧ valN A2 e = valN A e2)
    (IH1 : subtreeOrderedRel le (decide (minLvl r)) A' mN)
    (IH2 : ∀ k, k < A.length → ¬ Desc mN k → valN A' k = valN A2 k)
    (IH3 : ∀ k, k < A.length → Desc mN k →
      ∃ e, e < A.length ∧ Desc mN e ∧ valN A' k = valN A2 e) :
    subtreeOrderedRel le (decide (minLvl r)) A' r ∧
    (∀ k, k < A.length → ¬ Desc r k → valN A' k = valN A k) ∧
    (∀ k, k < A.length → Desc r k → ∃ e, e < A.length ∧ Desc r e ∧
      valN A' k = valN A e) := by
  have hmN_pos : 0 < mN := by omega
  have hd_r_pm : Desc r pm := by
    have h := Desc.parent hpm_pos
    rwa [hpmr] at h
  have hd_pm_m : Desc pm mN := by
    have h := Desc.parent hmN_pos
    rwa [hpm] at h
  have hd_r_m : Desc r mN := hd_r_pm.trans hd_pm_m
  have hnot_m_r : ¬ Desc mN r := fun h => by have := h.le; omega
  have hnot_m_pm : ¬ Desc mN pm := fun h => by have := h.le; omega
  have hiff : minLvl r ↔ ¬ minLvl pm := by
    have h := minLvl_parent_iff hpm_pos
    rwa [hpmr] at h
  have hpar_ne : ¬ (decide (minLvl pm) = decide (minLvl r)) := by
    rcases Classical.em (minLvl pm) with h | h
    · have h2 : ¬ minLvl r := fun hr => (hiff.mp hr) h
      simp [h, h2]
    · have h2 : minLvl r := hiff.mpr h
      simp [h, h2]
  refine ⟨?_, ?_, ?_⟩
  · -- the sub-tree of r is ordered in A'
    intro i j hri hij hj
    rw [hlen'] at hj
    have hi_len : i < A.length := lt_of_le_of_lt hij.le hj
    by_cases hi_m : Desc mN i
    · exact IH1 i j hi_m hij (by rw [hlen']; exact hj)
    · by_cases hi_r : i = r
      · subst hi_r
        unfold pairOrderedRel
        rw [if_pos rfl]
        have hAr : valN A' i = valN A2 i := IH2 i hi_len hnot_m_r
        rw [hAr]
        by_cases hj_m : Desc mN j
        · obtain ⟨e, helen, hme, heq⟩ := IH3 j hj hj_m
          rw [heq]
          exact G3 e helen (hd_r_m.trans hme)
        · rw [IH2 j hj hj_m]
          exact G3 j hj hij
      · by_cases hi_pm : i = pm
        · subst hi_pm
          unfold pairOrderedRel
          rw [if_neg hpar_ne]
          have hApm : valN A' i = valN A2 i := IH2 i hi_len hnot_m_pm
          rw [hApm]
          by_cases hj_m : Desc mN j
          · obtain ⟨e, helen, hme, heq⟩ := IH3 j hj hj_m
            rw [heq]
            exact G4 e helen (hd_pm_m.trans hme)
          · rw [IH2 j hj hj_m]
            exact G4 j hj hij
        · -- i is none of r, pm, and not in the grandchild's sub-tree:
          -- its whole sub-tree is untouched
          have huntouched : ∀ k, Desc i k → k < A.length → valN A' k = valN A k := by
            intro k hik hk
            have hkr : k ≠ r := by
              intro h
              subst h
              exact hi_r (le_antisymm hik.le hri.le)
            have hkpm : k ≠ pm := by
              intro h
              subst h
              rcases Desc.anc_of_child hpmr hpm_pos hik hri with h | h
              · exact hi_r h
              · exact hi_pm h
            have hkm : ¬ Desc mN k := by
              intro hmk
              rcases hik.comparable hmk with h | h
              · rcases eq_or_ne i mN with rfl | hne
                · exact hi_m (Desc.refl _)
                · have h2 : Desc i (parentN mN) := h.parent_mem hne hmN_pos
                  rw [hpm] at h2
                  rcases Desc.anc_of_child hpmr hpm_pos h2 hri with h3 | h3
                  · exact hi_r h3
                  · exact hi_pm h3
              · exact hi_m h
            have hkmN : k ≠ mN := by
              intro h
              subst h
              exact hkm (Desc.refl _)
            rw [IH2 k hk hkm, G2 k hk hkr hkpm hkmN]
          unfold pairOrderedRel
          rw [huntouched i (Desc.refl i) hi_len, huntouched j hij hj]
          have := hb i j hri hi_r hij hj
          unfold pairOrderedRel at this
          exact this
  · -- positions outside the sub-tree of r are untouched
    intro k hk hkr
    have hkm : ¬ Desc mN k := fun h => hkr (hd_r_m.trans h)
    rw [IH2 k hk hkm]
    exact G2 k hk (fun h => hkr (h ▸ Desc.refl r))
      (fun h => hkr (h ▸ hd_r_pm)) (fun h => hkr (h ▸ hd_r_m))
  · -- positions inside the sub-tree of r hold values from it
    intro k hk hkdesc
    by_cases hkm : Desc mN k
    · obtain ⟨e, helen, hme, heq⟩ := IH3 k hk hkm
      obtain ⟨e2, he2len, he2desc, heq2⟩ := G6 e helen (hd_r_m.trans hme)
      exact ⟨e2, he2len, he2desc, by rw [heq, heq2]⟩
    · rw [IH2 k hk hkm]
      exact G6 k hk hkdesc

end MMH

namespace MMH

/-- Child/grandchild parity: the flag of a node differs from its
parent's. -/
theorem minLvl_child_decide_ne {c r : ℕ} (hp : parentN c = r) (hc : 0 < c) :
    ¬ (decide (minLvl c) = decide (minLvl r)) := by
  have hiff : minLvl r ↔ ¬ minLvl c := by
    have h := minLvl_parent_iff hc
    rwa [hp] at h
  rcases Classical.em (minLvl c) with h | h
  · have h2 : ¬ minLvl r := fun hr => (hiff.mp hr) h
    simp [h, h2]
  · have h2 : minLvl r := hiff.mpr h
    simp [h, h2]

/-- An array agreeing with `A` away from `{r, pm, mN}` satisfies the
below-sub-tree hypothesis at the grandchild `mN`. -/
theorem td_below_grandchild {α : Type} [Inhabited α] (le : α → α → Prop)
    (A B : List α) (r mN : ℕ)
    (hpmr : parentN (parentN mN) = r) (hpm_pos : 0 < parentN mN)
    (hmN3 : 3 ≤ mN)
    (hBlen : B.length = A.length)
    (hagree : ∀ k, k < A.length → k ≠ r → k ≠ parentN mN → k ≠ mN →
      valN B k = valN A k)
    (hb : belowOrderedRel le (decide (minLvl r)) A r) :
    belowOrderedRel le (decide (minLvl mN)) B mN := by
  have hparity := minLvl_grandchild_decide hpmr hmN3
  have hr_pm : r < parentN mN := by
    rw [← hpmr]
    exact parentN_lt hpm_pos
  have hpm_m : parentN mN < mN := parentN_lt (by omega)
  have hdesc_r_m : Desc r mN := by
    have d1 : Desc (parentN (parentN mN)) (parentN mN) := Desc.parent hpm_pos
    have d2 : Desc (parentN mN) mN := Desc.parent (by omega)
    rw [hpmr] at d1
    exact d1.trans d2
  intro i j hmi hine hij hj
  rw [hBlen] at hj
  have hi_lb : 2 * mN + 1 ≤ i := hmi.strict_lb (fun e => hine e.symm)
  have hij_le := hij.le
  have hvi : valN B i = valN A i :=
    hagree i (by omega) (by omega) (by omega) (by omega)
  have hvj : valN B j = valN A j :=
    hagree j (by omega) (by omega) (by omega) (by omega)
  unfold pairOrderedRel
  rw [hparity, hvi, hvj]
  have h := hb i j (hdesc_r_m.trans hmi) (by omega) hij hj
  unfold pairOrderedRel at h
  exact h

end MMH

namespace MMH

/-- Value package for the grandchild branch when both swaps fire:
`A2 = swap (swap A mN r) mN pm` has the scanned minimum at `r`, the old
root value at `pm`, the old `pm` value at `mN`, everything else in
place; the new root dominates the sub-tree and `pm` still dominates
its own. -/
theorem td_G_doubleswap {α : Type} [Inhabited α] (le : α → α → Prop)
    (htot : ∀ a b, le a b ∨ le b a)
    (htrans : ∀ a b c, le a b → le b c → le a c)
    (A : List α) (r mN : ℕ)
    (hpmr : parentN (parentN mN) = r) (hpm_pos : 0 < parentN mN)
    (hmN3 : 3 ≤ mN) (hm_len : mN < A.length)
    (hb : belowOrderedRel le (decide (minLvl r)) A r)
    (hmin : ∀ k, Desc r k → k ≠ r → k < A.length → le (valN A mN) (valN A k))
    (h1 : le (valN A mN) (valN A r))
    (h2 : le (valN A (parentN mN)) (valN A r)) :
    (∀ k, k < A.length → k ≠ r → k ≠ parentN mN → k ≠ mN →
      valN (swapN (swapN A mN r) mN (parentN mN)) k = valN A k) ∧
    (∀ k, k < A.length → Desc r k →
      le (valN (swapN (swapN A mN r) mN (parentN mN)) r)
         (valN (swapN (swapN A mN r) mN (parentN mN)) k)) ∧
    (∀ j, j < A.length → Desc (parentN mN) j →
      le (valN (swapN (swapN A mN r) mN (parentN mN)) j)
         (valN (swapN (swapN A mN r) mN (parentN mN)) (parentN mN))) ∧
    (∀ e, e < A.length → Desc r e → ∃ e2, e2 < A.length ∧ Desc r e2 ∧
      valN (swapN (swapN A mN r) mN (parentN mN)) e = valN A e2) := by
  have hrefl : ∀ a, le a a := fun a => (htot a a).elim id id
  have hr_pm : r < parentN mN := by
    rw [← hpmr]
    exact parentN_lt hpm_pos
  have hpm_m : parentN mN < mN := parentN_lt (by omega)
  have hpm_len : parentN mN < A.length := by omega
  have hr_len : r < A.length := by omega
  have hA1len : (swapN A mN r).length = A.length := length_swapN A mN r
  have hd_r_pm : Desc r (parentN mN) := by
    have h := Desc.parent hpm_pos
    rwa [hpmr] at h
  have hd_pm_m : Desc (parentN mN) mN := Desc.parent (by omega)
  have hd_r_m : Desc r mN := hd_r_pm.trans hd_pm_m
  have hv_r : valN (swapN (swapN A mN r) mN (parentN mN)) r = valN A mN := by
    rw [valN_swapN_other (by omega) (by omega), valN_swapN_snd hr_len]
  have hv_pm : valN (swapN (swapN A mN r) mN (parentN mN)) (parentN mN) = valN A r := by
    rw [valN_swapN_snd (by omega), valN_swapN_fst hm_len hr_len]
  have hv_mN : valN (swapN (swapN A mN r) mN (parentN mN)) mN = valN A (parentN mN) := by
    rw [valN_swapN_fst (by omega) (by omega),
      valN_swapN_other (by omega) (by omega)]
  have hv_other : ∀ k, k ≠ r → k ≠ parentN mN → k ≠ mN →
      valN (swapN (swapN A mN r) mN (parentN mN)) k = valN A k := by
    intro k hkr hkpm hkm
    rw [valN_swapN_other (by omega) (by omega),
      valN_swapN_other (by omega) (by omega)]
  have hb_pm : ∀ j, Desc (parentN mN) j → j ≠ parentN mN → j < A.length →
      le (valN A j) (valN A (parentN mN)) := by
    intro j hd hne hj
    have h := hb (parentN mN) j hd_r_pm (by omega) hd hj
    unfold pairOrderedRel at h
    rw [if_neg (minLvl_child_decide_ne hpmr hpm_pos)] at h
    exact h
  refine ⟨fun k _ => hv_other k, ?_, ?_, ?_⟩
  · intro k hk hdesc
    rw [hv_r]
    rcases eq_or_ne k r with rfl | hkr
    · rw [hv_r]; exact hrefl _
    rcases eq_or_ne k (parentN mN) with rfl | hkpm
    · rw [hv_pm]; exact h1
    rcases eq_or_ne k mN with rfl | hkm
    · rw [hv_mN]; exact hmin (parentN k) hd_r_pm (by omega) hpm_len
    · rw [hv_other k hkr hkpm hkm]
      exact hmin k hdesc hkr hk
  · intro j hj hdesc
    rw [hv_pm]
    rcases eq_or_ne j (parentN mN) with rfl | hjpm
    · rw [hv_pm]; exact hrefl _
    rcases eq_or_ne j mN with rfl | hjm
    · rw [hv_mN]; exact h2
    · have hjr : j ≠ r := by
        have := hdesc.le
        omega
      rw [hv_other j hjr hjpm hjm]
      exact htrans _ _ _ (hb_pm j hdesc hjpm hj) h2
  · intro e he hdesc
    rcases eq_or_ne e r with rfl | her
    · exact ⟨mN, hm_len, hd_r_m, hv_r⟩
    rcases eq_or_ne e (parentN mN) with rfl | hepm
    · exact ⟨r, hr_len, Desc.refl r, hv_pm⟩
    rcases eq_or_ne e mN with rfl | hem
    · exact ⟨parentN e, hpm_len, hd_r_pm, hv_mN⟩
    · exact ⟨e, he, hdesc, hv_other e her hepm hem⟩

/-- Value package for the grandchild branch when only the first swap
fires: `A2 = swap A mN r`. -/
theorem td_G_singleswap {α : Type} [Inhabited α] (le : α → α → Prop)
    (htot : ∀ a b, le a b ∨ le b a)
    (htrans : ∀ a b c, le a b → le b c → le a c)
    (A : List α) (r mN : ℕ)
    (hpmr : parentN (parentN mN) = r) (hpm_pos : 0 < parentN mN)
    (hmN3 : 3 ≤ mN) (hm_len : mN < A.length)
    (hb : belowOrderedRel le (decide (minLvl r)) A r)
    (hmin : ∀ k, Desc r k → k ≠ r → k < A.length → le (valN A mN) (valN A k))
    (h1 : le (valN A mN) (valN A r))
    (h2 : le (valN A r) (valN A (parentN mN))) :
    (∀ k, k < A.length → k ≠ r → k ≠ parentN mN → k ≠ mN →
      valN (swapN A mN r) k = valN A k) ∧
    (∀ k, k < A.length → Desc r k →
      le (valN (swapN A mN r) r) (valN (swapN A mN r) k)) ∧
    (∀ j, j < A.length → Desc (parentN mN) j →
      le (valN (swapN A mN r) j) (valN (swapN A mN r) (parentN mN))) ∧
    (∀ e, e < A.length → Desc r e → ∃ e2, e2 < A.length ∧ Desc r e2 ∧
      valN (swapN A mN r) e = valN A e2) := by
  have hrefl : ∀ a, le a a := fun a => (htot a a).elim id id
  have hr_pm : r < parentN mN := by
    rw [← hpmr]
    exact parentN_lt hpm_pos
  have hpm_m : parentN mN < mN := parentN_lt (by omega)
  have hpm_len : parentN mN < A.length := by omega
  have hr_len : r < A.length := by omega
  have hd_r_pm : Desc r (parentN mN) := by
    have h := Desc.parent hpm_pos
    rwa [hpmr] at h
  have hd_pm_m : Desc (parentN mN) mN := Desc.parent (by omega)
  have hd_r_m : Desc r mN := hd_r_pm.trans hd_pm_m
  have hv_r : valN (swapN A mN r) r = valN A mN := valN_swapN_snd hr_len
  have hv_mN : valN (swapN A mN r) mN = valN A r := valN_swapN_fst hm_len hr_len
  have hv_other : ∀ k, k ≠ r → k ≠ mN → valN (swapN A mN r) k = valN A k := by
    intro k hkr hkm
    rw [valN_swapN_other (by omega) (by omega)]
  have hv_pm : valN (swapN A mN r) (parentN mN) = valN A (parentN mN) :=
    hv_other _ (by omega) (by omega)
  have hb_pm : ∀ j, Desc (parentN mN) j → j ≠ parentN mN → j < A.length →
      le (valN A j) (valN A (parentN mN)) := by
    intro j hd hne hj
    have h := hb (parentN mN) j hd_r_pm (by omega) hd hj
    unfold pairOrderedRel at h
    rw [if_neg (minLvl_child_decide_ne hpmr hpm_pos)] at h
    exact h
  refine ⟨fun k _ hkr hkpm hkm => hv_other k hkr hkm, ?_, ?_, ?_⟩
  · intro k hk hdesc
    rw [hv_r]
    rcases eq_or_ne k r with rfl | hkr
    · rw [hv_r]; exact hrefl _
    rcases eq_or_ne k mN with rfl | hkm
    · rw [hv_mN]; exact h1
    · rw [hv_other k hkr hkm]
      exact hmin k hdesc hkr hk
  · intro j hj hdesc
    rw [hv_pm]
    rcases eq_or_ne j (parentN mN) with rfl | hjpm
    · rw [hv_pm]; exact hrefl _
    rcases eq_or_ne j mN with rfl | hjm
    · rw [hv_mN]; exact h2
    · have hjr : j ≠ r := by
        have := hdesc.le
        omega
      rw [hv_other j hjr hjm]
      exact hb_pm j hdesc hjpm hj
  · intro e he hdesc
    rcases eq_or_ne e r with rfl | her
    · exact ⟨mN, hm_len, hd_r_m, hv_r⟩
    rcases eq_or_ne e mN with rfl | hem
    · exact ⟨r, hr_len, Desc.refl r, hv_mN⟩
    · exact ⟨e, he, hdesc, hv_other e her hem⟩

/-- Value package for the grandchild branch when no swap fires
(`A2 = A`). -/
theorem td_G_noswap {α : Type} [Inhabited α] (le : α → α → Prop)
    (htot : ∀ a b, le a b ∨ le b a)
    (htrans : ∀ a b c, le a b → le b c → le a c)
    (A : List α) (r mN : ℕ)
    (hpmr : parentN (parentN mN) = r) (hpm_pos : 0 < parentN mN)
    (hmN3 : 3 ≤ mN) (hm_len : mN < A.length)
    (hb : belowOrderedRel le (decide (minLvl r)) A r)
    (hmin : ∀ k, Desc r k → k ≠ r → k < A.length → le (valN A mN) (valN A k))
    (h0 : le (valN A r) (valN A mN)) :
    (∀ k, k < A.length → Desc r k → le (valN A r) (valN A k)) ∧
    (∀ j, j < A.length → Desc (parentN mN) j →
      le (valN A j) (valN A (parentN mN))) := by
  have hrefl : ∀ a, le a a := fun a => (htot a a).elim id id
  have hr_pm : r < parentN mN := by
    rw [← hpmr]
    exact parentN_lt hpm_pos
  have hd_r_pm : Desc r (parentN mN) := by
    have h := Desc.parent hpm_pos
    rwa [hpmr] at h
  constructor
  · intro k hk hdesc
    rcases eq_or_ne k r with rfl | hkr
    · exact hrefl _
    · exact htrans _ _ _ h0 (hmin k hdesc hkr hk)
  · intro j hj hdesc
    rcases eq_or_ne j (parentN mN) with rfl | hjpm
    · exact hrefl _
    · have h := hb (parentN mN) j hd_r_pm (by omega) hdesc hj
      unfold pairOrderedRel at h
      rw [if_neg (minLvl_child_decide_ne hpmr hpm_pos)] at h
      exact h

end MMH

namespace MMH

theorem toNat_coe (n : ℕ) : ((n : ℤ)).toNat = n := rfl

/-- If the root value dominates every strict member of its sub-tree and
everything strictly below is ordered, the whole sub-tree is ordered. -/
theorem td_root_ordered {α : Type} [Inhabited α] (le : α → α → Prop)
    (hrefl : ∀ a, le a a)
    (A : List α) (r : ℕ)
    (hb : belowOrderedRel le (decide (minLvl r)) A r)
    (hroot : ∀ j, Desc r j → j ≠ r → j < A.length → le (valN A r) (valN A j)) :
    subtreeOrderedRel le (decide (minLvl r)) A r := by
  intro i j hri hij hj
  by_cases hir : i = r
  · rw [hir] at hij ⊢
    unfold pairOrderedRel
    rw [if_pos rfl]
    by_cases hjr : j = r
    · rw [hjr]; exact hrefl _
    · exact hroot j hij hjr hj
  · exact hb i j hri hir hij hj

/-- Assembly of the child branch of trickle-down with a swap: the
extremum is a direct child of `r` and its value is moved to `r`. -/
theorem td_child_swap {α : Type} [Inhabited α] (le : α → α → Prop)
    (htot : ∀ a b, le a b ∨ le b a)
    (htrans : ∀ a b c, le a b → le b c → le a c)
    (A : List α) (r mN : ℕ)
    (hpc : parentN mN = r) (hmN_pos : 0 < mN) (hm_len : mN < A.length)
    (hb : belowOrderedRel le (decide (minLvl r)) A r)
    (hmin : ∀ k, Desc r k → k ≠ r → k < A.length → le (valN A mN) (valN A k))
    (h1 : le (valN A mN) (valN A r)) :
    subtreeOrderedRel le (decide (minLvl r)) (swapN A mN r) r ∧
    (∀ k, k < A.length → ¬ Desc r k → valN (swapN A mN r) k = valN A k) ∧
    (∀ k, k < A.length → Desc r k → ∃ e, e < A.length ∧ Desc r e ∧
      valN (swapN A mN r) k = valN A e) := by
  have hrefl : ∀ a, le a a := fun a => (htot a a).elim id id
  have hr_m : r < mN := by rw [← hpc]; exact parentN_lt hmN_pos
  have hr_len : r < A.length := by omega
  have hd_r_m : Desc r mN := by
    have h := Desc.parent hmN_pos
    rwa [hpc] at h
  have hv_r : valN (swapN A mN r) r = valN A mN := valN_swapN_snd hr_len
  have hv_mN : valN (swapN A mN r) mN = valN A r := valN_swapN_fst hm_len hr_len
  have hv_other : ∀ k, k ≠ r → k ≠ mN → valN (swapN A mN r) k = valN A k := by
    intro k hkr hkm
    exact valN_swapN_other (by omega) (by omega)
  refine ⟨?_, ?_, ?_⟩
  · intro i j hri hij hj
    rw [length_swapN] at hj
    by_cases hir : i = r
    · rw [hir] at hij ⊢
      unfold pairOrderedRel
      rw [if_pos rfl, hv_r]
      by_cases hjr : j = r
      · rw [hjr, hv_r]; exact hrefl _
      by_cases hjm : j = mN
      · rw [hjm, hv_mN]; exact h1
      · rw [hv_other j hjr hjm]
        exact hmin j hij hjr hj
    by_cases him : i = mN
    · rw [him] at hij ⊢
      unfold pairOrderedRel
      rw [if_neg (minLvl_child_decide_ne hpc hmN_pos), hv_mN]
      by_cases hjm : j = mN
      · rw [hjm, hv_mN]; exact hrefl _
      · have hjr : j ≠ r := by
          have := hij.le
          omega
        rw [hv_other j hjr hjm]
        have h := hb mN j hd_r_m (by omega) hij hj
        unfold pairOrderedRel at h
        rw [if_neg (minLvl_child_decide_ne hpc hmN_pos)] at h
        exact htrans _ _ _ h h1
    · have hkr : ∀ k, Desc i k → k ≠ r := by
        intro k hk
        have h1' := hri.strict_lb (fun e => hir e.symm)
        have h2' := hk.le
        omega
      have hkm : ∀ k, Desc i k → k ≠ mN := by
        intro k hk he
        rw [he] at hk
        rcases Desc.anc_of_child hpc hmN_pos hk hri with h | h
        · exact hir h
        · exact him h
      unfold pairOrderedRel
      rw [hv_other i (hkr i (Desc.refl i)) (hkm i (Desc.refl i)),
        hv_other j (hkr j hij) (hkm j hij)]
      have h := hb i j hri hir hij hj
      unfold pairOrderedRel at h
      exact h
  · intro k hk hkd
    exact hv_other k (fun e => hkd (by rw [e]; exact Desc.refl r))
      (fun e => hkd (by rw [e]; exact hd_r_m))
  · intro k hk hkd
    by_cases hkr : k = r
    · exact ⟨mN, hm_len, hd_r_m, by rw [hkr, hv_r]⟩
    by_cases hkm : k = mN
    · exact ⟨r, hr_len, Desc.refl r, by rw [hkm, hv_mN]⟩
    · exact ⟨k, hk, hkd, hv_other k hkr hkm⟩

/-- Main correctness of the trickle-down recursion, polarity-abstract:
starting from an array whose sub-tree below `r` is ordered, the result
has the whole sub-tree of `r` ordered, positions outside the sub-tree
untouched, and positions inside the sub-tree holding values drawn from
the sub-tree. -/
theorem trickleDown_core {α : Type} [Inhabited α] (lt : α → α → Bool)
    (ord : LevelOrderingType) (le : α → α → Prop)
    (hcmp : ∀ a b,
      lessThan lt (decide (ord = LevelOrderingType.Maximum)) a b = true ↔ ¬ le b a)
    (htot : ∀ a b, le a b ∨ le b a)
    (htrans : ∀ a b c, le a b → le b c → le a c) :
    ∀ (fuel : ℕ) (A : List α) (r : ℕ),
      A.length < r + fuel →
      belowOrderedRel le (decide (minLvl r)) A r →
      subtreeOrderedRel le (decide (minLvl r))
        (trickleDownImplementationAux lt ord fuel A (r : ℤ)) r ∧
      (∀ k, k < A.length → ¬ Desc r k →
        valN (trickleDownImplementationAux lt ord fuel A (r : ℤ)) k = valN A k) ∧
      (∀ k, k < A.length → Desc r k → ∃ e, e < A.length ∧ Desc r e ∧
        valN (trickleDownImplementationAux lt ord fuel A (r : ℤ)) k = valN A e) := by
  have hrefl : ∀ a, le a a := fun a => (htot a a).elim id id
  intro fuel
  induction fuel with
  | zero =>
    intro A r hfuel hb
    refine ⟨?_, fun k _ _ => rfl, fun k hk hkd => ⟨k, hk, hkd, rfl⟩⟩
    intro i j hri hij hj
    rw [show trickleDownImplementationAux lt ord 0 A (r : ℤ) = A from rfl] at hj
    exfalso
    have := hri.le
    have := hij.le
    omega
  | succ g ih =>
    intro A r hfuel hb
    rw [trickleDownImplementationAux]
    by_cases hlc : isLeftChildExist A (r : ℤ) = true
    · rw [if_neg (not_not_intro hlc)]
      dsimp only
      set mz := findExtremumDescendantOffset lt
        (decide (ord = LevelOrderingType.Maximum)) A (r : ℤ) with hmz_def
      have hr0 : (0 : ℤ) ≤ (r : ℤ) := by omega
      have hmv_pair := @findExtremumDescendantOffset_valid α _ lt
        (decide (ord = LevelOrderingType.Maximum)) A ((r : ℕ) : ℤ) hr0 hlc
      rw [← hmz_def] at hmv_pair
      obtain ⟨hmv, hmgt⟩ := hmv_pair
      unfold isValidNode sizeZ at hmv
      simp only [Bool.and_eq_true, decide_eq_true_eq] at hmv
      obtain ⟨hmz_nonneg, hmz_lt⟩ := hmv
      have hmz_eq : mz = ((mz.toNat : ℕ) : ℤ) := (Int.toNat_of_nonneg hmz_nonneg).symm
      set mN := mz.toNat with hmN_def
      have hm_len : mN < A.length := by omega
      have hr_m : r < mN := by omega
      have hmin : ∀ k, Desc r k → k ≠ r → k < A.length →
          le (valN A mN) (valN A k) := by
        have h := findExtremum_le_subtree lt
          (decide (ord = LevelOrderingType.Maximum)) le hcmp htot htrans A r hb
        rw [← hmz_def] at h
        intro k hd hne hk
        have h2 := h k hd hne hk
        rw [getValue_toNat, ← hmN_def] at h2
        exact h2
      by_cases hgp : getGrandParentOffset mz = (r : ℤ)
      · rw [if_pos hgp]
        have hgpz : 0 ≤ getGrandParentOffset mz := by rw [hgp]; omega
        obtain ⟨hmz3, _⟩ := getGrandParentOffset_nonneg hgpz
        have hmN3 : 3 ≤ mN := by omega
        have hpmr : parentN (parentN mN) = r := by
          have h := @getGrandParentOffset_coe mN hmN3
          rw [← hmz_eq] at h
          rw [hgp] at h
          have h2 : grandParentN mN = r := by exact_mod_cast h.symm
          exact h2
        have hpm_pos : 0 < parentN mN := by unfold parentN; omega
        have hr_pm : r < parentN mN := by rw [← hpmr]; exact parentN_lt hpm_pos
        have hpm_m : parentN mN < mN := parentN_lt (by omega)
        rw [hmz_eq]
        rw [@getParentOffset_coe mN (by omega)]
        simp only [getValue_toNat, swapValues_toNat, toNat_coe]
        by_cases hless : lessThan lt (decide (ord = LevelOrderingType.Maximum))
            (valN A mN) (valN A r) = true
        · rw [if_pos hless]
          have h1 : le (valN A mN) (valN A r) :=
            (htot _ _).resolve_right ((hcmp _ _).mp hless)
          by_cases hgt : greaterThan lt (decide (ord = LevelOrderingType.Maximum))
              (valN (swapN A mN r) mN) (valN (swapN A mN r) (parentN mN)) = true
          · rw [if_pos hgt]
            have hx : valN (swapN A mN r) mN = valN A r :=
              valN_swapN_fst hm_len (by omega)
            have hy : valN (swapN A mN r) (parentN mN) = valN A (parentN mN) :=
              valN_swapN_other (by omega) (by omega)
            rw [greaterThan_eq_lessThan, hx, hy] at hgt
            have h2 : le (valN A (parentN mN)) (valN A r) :=
              (htot _ _).resolve_right ((hcmp _ _).mp hgt)
            obtain ⟨G2, G3, G4, G6⟩ := td_G_doubleswap le htot htrans A r mN
              hpmr hpm_pos hmN3 hm_len hb hmin h1 h2
            have hlen2 : (swapN (swapN A mN r) mN (parentN mN)).length = A.length := by
              rw [length_swapN, length_swapN]
            have hbelow := td_below_grandchild le A
              (swapN (swapN A mN r) mN (parentN mN)) r mN hpmr hpm_pos hmN3
              hlen2 G2 hb
            obtain ⟨IH1, IH2, IH3⟩ := ih (swapN (swapN A mN r) mN (parentN mN)) mN
              (by rw [hlen2]; omega) hbelow
            rw [minLvl_grandchild_decide hpmr hmN3] at IH1
            refine td_assemble_grandchild le htrans A
              (swapN (swapN A mN r) mN (parentN mN)) _ r (parentN mN) mN hlen2
              ?_ rfl hpmr hpm_pos hr_pm hpm_m hm_len hb G2 G3 G4 G6 IH1 ?_ ?_
            · rw [length_trickleDownImplementationAux, hlen2]
            · intro k hk hkd
              exact IH2 k (by rw [hlen2]; exact hk) hkd
            · intro k hk hkd
              obtain ⟨e, he, hde, heq⟩ := IH3 k (by rw [hlen2]; exact hk) hkd
              exact ⟨e, by rw [← hlen2]; exact he, hde, heq⟩
          · rw [if_neg hgt]
            have hx : valN (swapN A mN r) mN = valN A r :=
              valN_swapN_fst hm_len (by omega)
            have hy : valN (swapN A mN r) (parentN mN) = valN A (parentN mN) :=
              valN_swapN_other (by omega) (by omega)
            have h2 : le (valN A r) (valN A (parentN mN)) := by
              by_contra hno
              apply hgt
              rw [greaterThan_eq_lessThan, hx, hy]
              exact (hcmp _ _).mpr hno
            obtain ⟨G2, G3, G4, G6⟩ := td_G_singleswap le htot htrans A r mN
              hpmr hpm_pos hmN3 hm_len hb hmin h1 h2
            have hlen2 : (swapN A mN r).length = A.length := length_swapN A mN r
            have hbelow := td_below_grandchild le A (swapN A mN r) r mN
              hpmr hpm_pos hmN3 hlen2 G2 hb
            obtain ⟨IH1, IH2, IH3⟩ := ih (swapN A mN r) mN
              (by rw [hlen2]; omega) hbelow
            rw [minLvl_grandchild_decide hpmr hmN3] at IH1
            refine td_assemble_grandchild le htrans A (swapN A mN r) _ r
              (parentN mN) mN hlen2 ?_ rfl hpmr hpm_pos hr_pm hpm_m hm_len hb
              G2 G3 G4 G6 IH1 ?_ ?_
            · rw [length_trickleDownImplementationAux, hlen2]
            · intro k hk hkd
              exact IH2 k (by rw [hlen2]; exact hk) hkd
            · intro k hk hkd
              obtain ⟨e, he, hde, heq⟩ := IH3 k (by rw [hlen2]; exact hk) hkd
              exact ⟨e, by rw [← hlen2]; exact he, hde, heq⟩
        · rw [if_neg hless]
          have h0 : le (valN A r) (valN A mN) := by
            by_contra hno
            exact hless ((hcmp _ _).mpr hno)
          obtain ⟨P1, P2⟩ := td_G_noswap le htot htrans A r mN
            hpmr hpm_pos hmN3 hm_len hb hmin h0
          have hbelow := td_below_grandchild le A A r mN hpmr hpm_pos hmN3
            rfl (fun k _ _ _ _ => rfl) hb
          obtain ⟨IH1, IH2, IH3⟩ := ih A mN (by omega) hbelow
          rw [minLvl_grandchild_decide hpmr hmN3] at IH1
          refine td_assemble_grandchild le htrans A A _ r (parentN mN) mN rfl
            ?_ rfl hpmr hpm_pos hr_pm hpm_m hm_len hb
            (fun k _ _ _ _ => rfl) (fun k hk hd => P1 k hk hd)
            (fun j hj hd => P2 j hj hd)
            (fun e he hd => ⟨e, he, hd, rfl⟩) IH1 IH2 IH3
          rw [length_trickleDownImplementationAux]
      · rw [if_neg hgp]
        by_cases hpc : getParentOffset mz = (r : ℤ)
        · rw [if_pos hpc]
          have hmN_pos : 0 < mN := by omega
          have hpcN : parentN mN = r := by
            have h := @getParentOffset_coe mN hmN_pos
            rw [← hmz_eq] at h
            rw [hpc] at h
            exact_mod_cast h.symm
          rw [hmz_eq]
          simp only [getValue_toNat, swapValues_toNat, toNat_coe]
          by_cases hless : lessThan lt (decide (ord = LevelOrderingType.Maximum))
              (valN A mN) (valN A r) = true
          · rw [if_pos hless]
            have h1 : le (valN A mN) (valN A r) :=
              (htot _ _).resolve_right ((hcmp _ _).mp hless)
            exact td_child_swap le htot htrans A r mN hpcN hmN_pos hm_len hb hmin h1
          · rw [if_neg hless]
            have h0 : le (valN A r) (valN A mN) := by
              by_contra hno
              exact hless ((hcmp _ _).mpr hno)
            refine ⟨td_root_ordered le hrefl A r hb ?_,
              fun k _ _ => rfl, fun k hk hd => ⟨k, hk, hd, rfl⟩⟩
            intro j hdj hne hj
            exact htrans _ _ _ h0 (hmin j hdj hne hj)
        · rw [if_neg hpc]
          rcases findExtremum_parent_or_grandParent lt
            (decide (ord = LevelOrderingType.Maximum)) A r with h | h
          · rw [← hmz_def] at h
            exact absurd h hpc
          · rw [← hmz_def] at h
            exact absurd h hgp
    · rw [if_pos hlc]
      refine ⟨?_, fun k _ _ => rfl, fun k hk hkd => ⟨k, hk, hkd, rfl⟩⟩
      have hlen : A.length ≤ 2 * r + 1 := by
        unfold isLeftChildExist getLeftChildOffset sizeZ at hlc
        simp only [decide_eq_true_eq] at hlc
        omega
      apply td_root_ordered le hrefl A r hb
      intro j hdj hne hjlen
      exfalso
      have := hdj.strict_lb (fun e => hne e.symm)
      omega

end MMH


namespace MMH

/-- `TrickleDown` at an offset at or beyond the size returns the array
unchanged (the level lookup yields `-1`, the maximum branch is taken,
and the left-child existence test fails immediately). -/
theorem trickleDown_out_of_range {α : Type} [Inhabited α] (lt : α → α → Bool)
    (heap : List α) (m : ℤ) (h : sizeZ heap ≤ m) :
    trickleDown lt heap m = heap := by
  have h0 : (0 : ℤ) ≤ m := by
    unfold sizeZ at h
    omega
  have hnolc : ¬ (isLeftChildExist heap m = true) := by
    unfold isLeftChildExist getLeftChildOffset sizeZ at *
    simp only [decide_eq_true_eq]
    omega
  unfold trickleDown
  split_ifs with hlvl
  · rw [trickleDownImplementation_eq lt _ heap m h0, if_pos hnolc]
  · rw [trickleDownImplementation_eq lt _ heap m h0, if_pos hnolc]

theorem pairOrderedRel_true_iff {α : Type} [LinearOrder α] [Inhabited α]
    (A : List α) (i j : ℕ) :
    pairOrderedRel (· ≤ ·) true A i j ↔ pairOrdered A i j := by
  unfold pairOrderedRel pairOrdered
  by_cases h : minLvl i <;> simp [h]

theorem pairOrderedRel_false_iff {α : Type} [LinearOrder α] [Inhabited α]
    (A : List α) (i j : ℕ) :
    pairOrderedRel (fun a b => b ≤ a) false A i j ↔ pairOrdered A i j := by
  unfold pairOrderedRel pairOrdered
  by_cases h : minLvl i <;> simp [h]

/-- `LessThan` composed over `std::less` in the minimum ordering is the
strict complement of `≤`. -/
theorem lessThan_min_iff {α : Type} [LinearOrder α] (a b : α) :
    lessThan stdLt
      (decide (LevelOrderingType.Minimum = LevelOrderingType.Maximum)) a b = true ↔
    ¬ (b ≤ a) := by
  have hd : decide (LevelOrderingType.Minimum = LevelOrderingType.Maximum) = false := by
    decide
  rw [hd]
  unfold lessThan
  rw [if_neg Bool.false_ne_true]
  unfold stdLt
  simp only [decide_eq_true_eq]
  exact lt_iff_not_le

/-- `LessThan` composed over `std::less` in the maximum (inverted)
ordering is the strict complement of `≥`. -/
theorem lessThan_max_iff {α : Type} [LinearOrder α] (a b : α) :
    lessThan stdLt
      (decide (LevelOrderingType.Maximum = LevelOrderingType.Maximum)) a b = true ↔
    ¬ (a ≤ b) := by
  have hd : decide (LevelOrderingType.Maximum = LevelOrderingType.Maximum) = true := by
    decide
  rw [hd]
  unfold lessThan
  rw [if_pos rfl]
  unfold stdLt
  simp only [decide_eq_true_eq]
  exact lt_iff_not_le

/-- Real-order master lemma for `TrickleDown`: if every pair strictly
below `r` is ordered, the result has every pair of the whole sub-tree
of `r` ordered; positions outside the sub-tree are untouched and
positions inside hold values drawn from the sub-tree. -/
theorem trickleDown_real {α : Type} [LinearOrder α] [Inhabited α]
    (A : List α) (r : ℕ)
    (hb : ∀ i j, Desc r i → i ≠ r → Desc i j → j < A.length → pairOrdered A i j) :
    (∀ i j, Desc r i → Desc i j → j < A.length →
      pairOrdered (trickleDown stdLt A (r : ℤ)) i j) ∧
    (∀ k, k < A.length → ¬ Desc r k →
      valN (trickleDown stdLt A (r : ℤ)) k = valN A k) ∧
    (∀ k, k < A.length → Desc r k → ∃ e, e < A.length ∧ Desc r e ∧
      valN (trickleDown stdLt A (r : ℤ)) k = valN A e) := by
  by_cases hr : r < A.length
  · unfold trickleDown
    by_cases hmin : minLvl r
    · have hdec : decide (minLvl r) = true := decide_eq_true hmin
      rw [if_pos ((isMinimumLevel_coe hr).mpr hmin)]
      have hbrel : belowOrderedRel (· ≤ ·) (decide (minLvl r)) A r := by
        intro i j hri hir hij hj
        rw [hdec]
        exact (pairOrderedRel_true_iff A i j).mpr (hb i j hri hir hij hj)
      obtain ⟨S, U, I⟩ := trickleDown_core stdLt LevelOrderingType.Minimum (· ≤ ·)
        lessThan_min_iff le_total (fun a b c h1 h2 => le_trans h1 h2)
        (A.length + 1) A r (by omega) hbrel
      refine ⟨?_, U, I⟩
      intro i j hri hij hj
      have h := S i j hri hij
        (by rw [length_trickleDownImplementationAux]; exact hj)
      rw [hdec] at h
      exact (pairOrderedRel_true_iff _ i j).mp h
    · have hdec : decide (minLvl r) = false := decide_eq_false hmin
      rw [if_neg (fun h => hmin ((isMinimumLevel_coe hr).mp h))]
      have hbrel : belowOrderedRel (fun a b => b ≤ a) (decide (minLvl r)) A r := by
        intro i j hri hir hij hj
        rw [hdec]
        exact (pairOrderedRel_false_iff A i j).mpr (hb i j hri hir hij hj)
      obtain ⟨S, U, I⟩ := trickleDown_core stdLt LevelOrderingType.Maximum
        (fun a b => b ≤ a)
        lessThan_max_iff (fun a b => le_total b a)
        (fun a b c h1 h2 => le_trans h2 h1)
        (A.length + 1) A r (by omega) hbrel
      refine ⟨?_, U, I⟩
      intro i j hri hij hj
      have h := S i j hri hij
        (by rw [length_trickleDownImplementationAux]; exact hj)
      rw [hdec] at h
      exact (pairOrderedRel_false_iff _ i j).mp h
  · have hid : trickleDown stdLt A (r : ℤ) = A :=
      trickleDown_out_of_range stdLt A (r : ℤ) (by unfold sizeZ; omega)
    rw [hid]
    refine ⟨?_, fun k _ _ => rfl, fun k hk hkd => ⟨k, hk, hkd, rfl⟩⟩
    intro i j hri hij hj
    exfalso
    have := hri.le
    have := hij.le
    omega

end MMH

namespace MMH

/-- On a sub-tree that is already fully ordered, the trickle-down
recursion is the identity: the scanned extremum is never out of order
with the root, and the unconditional recursion onto the grandchild
meets an ordered sub-tree again. -/
theorem trickleDown_noop {α : Type} [Inhabited α] (lt : α → α → Bool)
    (ord : LevelOrderingType) (le : α → α → Prop)
    (hcmp : ∀ a b,
      lessThan lt (decide (ord = LevelOrderingType.Maximum)) a b = true ↔ ¬ le b a) :
    ∀ (fuel : ℕ) (A : List α) (r : ℕ),
      subtreeOrderedRel le (decide (minLvl r)) A r →
      trickleDownImplementationAux lt ord fuel A (r : ℤ) = A := by
  intro fuel
  induction fuel with
  | zero => intro A r _; rfl
  | succ g ih =>
    intro A r hs
    rw [trickleDownImplementationAux]
    by_cases hlc : isLeftChildExist A (r : ℤ) = true
    · rw [if_neg (not_not_intro hlc)]
      dsimp only
      set mz := findExtremumDescendantOffset lt
        (decide (ord = LevelOrderingType.Maximum)) A (r : ℤ) with hmz_def
      have hr0 : (0 : ℤ) ≤ (r : ℤ) := by omega
      have hmv_pair := @findExtremumDescendantOffset_valid α _ lt
        (decide (ord = LevelOrderingType.Maximum)) A ((r : ℕ) : ℤ) hr0 hlc
      rw [← hmz_def] at hmv_pair
      obtain ⟨hmv, hmgt⟩ := hmv_pair
      unfold isValidNode sizeZ at hmv
      simp only [Bool.and_eq_true, decide_eq_true_eq] at hmv
      obtain ⟨hmz_nonneg, hmz_lt⟩ := hmv
      have hmz_eq : mz = ((mz.toNat : ℕ) : ℤ) := (Int.toNat_of_nonneg hmz_nonneg).symm
      set mN := mz.toNat with hmN_def
      have hm_len : mN < A.length := by omega
      have hr_m : r < mN := by omega
      have hpog := findExtremum_parent_or_grandParent lt
        (decide (ord = LevelOrderingType.Maximum)) A r
      rw [← hmz_def] at hpog
      have hdesc_r_m : Desc r mN := by
        rcases hpog with h | h
        · have hmN_pos : 0 < mN := by omega
          have h2 := @getParentOffset_coe mN hmN_pos
          rw [← hmz_eq] at h2
          rw [h] at h2
          have h3 : parentN mN = r := by exact_mod_cast h2.symm
          rw [← h3]
          exact Desc.parent hmN_pos
        · have hgpz : 0 ≤ getGrandParentOffset mz := by rw [h]; omega
          obtain ⟨hmz3, _⟩ := getGrandParentOffset_nonneg hgpz
          have hmN3 : 3 ≤ mN := by omega
          have h2 := @getGrandParentOffset_coe mN hmN3
          rw [← hmz_eq] at h2
          rw [h] at h2
          have h3 : grandParentN mN = r := by exact_mod_cast h2.symm
          rw [← h3]
          exact Desc.grandParent hmN3
      have hroot : le (valN A r) (valN A mN) := by
        have h := hs r mN (Desc.refl r) hdesc_r_m hm_len
        unfold pairOrderedRel at h
        rw [if_pos rfl] at h
        exact h
      have hless_false : ¬ (lessThan lt (decide (ord = LevelOrderingType.Maximum))
          (getValue A mz) (getValue A ((r : ℕ) : ℤ)) = true) := by
        intro hcon
        rw [getValue_toNat, ← hmN_def] at hcon
        rw [show getValue A ((r : ℕ) : ℤ) = valN A r from rfl] at hcon
        exact ((hcmp _ _).mp hcon) hroot
      by_cases hgp : getGrandParentOffset mz = (r : ℤ)
      · rw [if_pos hgp, if_neg hless_false]
        have hgpz : 0 ≤ getGrandParentOffset mz := by rw [hgp]; omega
        obtain ⟨hmz3, _⟩ := getGrandParentOffset_nonneg hgpz
        have hmN3 : 3 ≤ mN := by omega
        have hpmr : parentN (parentN mN) = r := by
          have h2 := @getGrandParentOffset_coe mN hmN3
          rw [← hmz_eq] at h2
          rw [hgp] at h2
          exact_mod_cast h2.symm
        rw [hmz_eq]
        apply ih
        rw [minLvl_grandchild_decide hpmr hmN3]
        intro i j hmi hij hj
        exact hs i j (hdesc_r_m.trans hmi) hij hj
      · rw [if_neg hgp]
        by_cases hpc : getParentOffset mz = (r : ℤ)
        · rw [if_pos hpc, if_neg hless_false]
        · rw [if_neg hpc]
    · rw [if_pos hlc]

end MMH

namespace MMH

/-- Level-parity facts at the three smallest offsets, routed through
the shift loop (`Nat.log2` itself is compiled by well-founded recursion
and does not reduce definitionally). -/
theorem minLvl_zero : minLvl 0 := by
  show levelN 0 % 2 = 0
  rw [show levelN 0 = binaryLogarithmIntegerFloor 1 from
    (binaryLogarithmIntegerFloor_eq_log2 1).symm]
  decide

theorem minLvl_one_false : ¬ minLvl 1 := by
  show ¬ levelN 1 % 2 = 0
  rw [show levelN 1 = binaryLogarithmIntegerFloor 2 from
    (binaryLogarithmIntegerFloor_eq_log2 2).symm]
  decide

theorem minLvl_two_false : ¬ minLvl 2 := by
  show ¬ levelN 2 % 2 = 0
  rw [show levelN 2 = binaryLogarithmIntegerFloor 3 from
    (binaryLogarithmIntegerFloor_eq_log2 3).symm]
  decide

/-- Main correctness of the bubble-up recursion, polarity-abstract.
At a node `j` whose `minLvl`-flag is `b`, assume every pair not ending
at `j` is ordered, `j` dominates its own sub-tree, and `j`'s value is
dominated by every opposite-parity strict ancestor.  Then after the
recursion every pair is ordered. -/
theorem bubbleUp_core {α : Type} [Inhabited α] (lt : α → α → Bool)
    (ord : LevelOrderingType) (le : α → α → Prop) (b : Bool)
    (hcmp : ∀ x y,
      lessThan lt (decide (ord = LevelOrderingType.Maximum)) x y = true ↔ ¬ le y x)
    (htot : ∀ x y, le x y ∨ le y x)
    (htrans : ∀ x y z, le x y → le y z → le x z) :
    ∀ (fuel : ℕ) (A : List α) (j : ℕ), j < fuel → j < A.length →
      decide (minLvl j) = b →
      (∀ a d, Desc a d → d < A.length → d ≠ j → pairOrderedRel le b A a d) →
      (∀ d, Desc j d → d < A.length → le (valN A j) (valN A d)) →
      (∀ a, Desc a j → a ≠ j → decide (minLvl a) ≠ b → le (valN A j) (valN A a)) →
      (∀ a d, Desc a d → d < A.length →
        pairOrderedRel le b (bubbleUpImplementationAux lt ord fuel A (j : ℤ)) a d) := by
  have hrefl : ∀ x, le x x := fun x => (htot x x).elim id id
  intro fuel
  induction fuel with
  | zero =>
    intro A j hf
    exact absurd hf (Nat.not_lt_zero j)
  | succ g ih =>
    intro A j hf hj hparity H1 H2 H3
    rw [bubbleUpImplementationAux]
    by_cases hgpe : isGrandParentExist A (j : ℤ) = true
    · rw [if_neg (not_not_intro hgpe)]
      have hgpz : 0 ≤ getGrandParentOffset (j : ℤ) := by
        unfold isGrandParentExist isValidNode at hgpe
        simp only [Bool.and_eq_true, decide_eq_true_eq] at hgpe
        exact hgpe.1
      obtain ⟨hj3z, _⟩ := getGrandParentOffset_nonneg hgpz
      have hj3 : 3 ≤ j := by omega
      rw [@getGrandParentOffset_coe j hj3]
      simp only [getValue_toNat, toNat_coe, swapValues_toNat]
      set gp := grandParentN j with hgp_def
      have hpj : parentN (parentN j) = gp := hgp_def.symm
      have hp_pos : 0 < parentN j := by unfold parentN; omega
      have hpj_lt : parentN j < j := parentN_lt (by omega)
      have hgp_lt : gp < j := by
        have h2 := parentN_lt hp_pos
        omega
      have hgplen : gp < A.length := by omega
      have hparity2 : decide (minLvl gp) = b := by
        rw [← minLvl_grandchild_decide hpj hj3]
        exact hparity
      have hpne : decide (minLvl (parentN j)) ≠ b := by
        intro he
        exact (minLvl_child_decide_ne rfl (show 0 < j by omega))
          (hparity.trans he.symm)
      have hdesc_gp_p : Desc gp (parentN j) := by
        have h := Desc.parent hp_pos
        rwa [hpj] at h
      have hdesc_gp_j : Desc gp j := hdesc_gp_p.trans (Desc.parent (by omega))
      have hanc : ∀ a, Desc a j → a ≠ j → a ≠ parentN j → Desc a gp := by
        intro a h1 h2 h3
        have h4 := h1.parent_mem h2 (by omega)
        have h5 := h4.parent_mem h3 hp_pos
        rwa [hpj] at h5
      by_cases hless : lessThan lt (decide (ord = LevelOrderingType.Maximum))
          (valN A j) (valN A gp) = true
      · rw [if_pos hless]
        set A2 := swapN A j gp with hA2
        have hA2len : A2.length = A.length := length_swapN A j gp
        have hxg : le (valN A j) (valN A gp) :=
          (htot _ _).resolve_right ((hcmp _ _).mp hless)
        have v2_j : valN A2 j = valN A gp := valN_swapN_fst hj hgplen
        have v2_gp : valN A2 gp = valN A j := valN_swapN_snd hgplen
        have v2_other : ∀ k, k ≠ j → k ≠ gp → valN A2 k = valN A k := by
          intro k h1 h2
          exact valN_swapN_other (by omega) (by omega)
        have H1' : ∀ a d, Desc a d → d < A.length → d ≠ gp →
            pairOrderedRel le b A2 a d := by
          intro a d had hd hdgp
          unfold pairOrderedRel
          rcases eq_or_ne a d with heq | hand
          · rw [heq]; split_ifs <;> exact hrefl _
          by_cases hdj : d = j
          · rw [hdj] at had ⊢
            rw [v2_j]
            by_cases hagp : a = gp
            · rw [hagp, if_pos hparity2, v2_gp]
              exact hxg
            · have hanej : a ≠ j := by
                rw [← hdj]; exact hand
              rw [v2_other a hanej hagp]
              by_cases hap : a = parentN j
              · rw [hap, if_neg hpne]
                have h := H1 gp (parentN j) hdesc_gp_p (by omega) (by omega)
                unfold pairOrderedRel at h
                rw [if_pos hparity2] at h
                exact h
              · have hagp' : Desc a gp := hanc a had hanej hap
                have h := H1 a gp hagp' (by omega) (by omega)
                unfold pairOrderedRel at h
                by_cases hpar : decide (minLvl a) = b
                · rw [if_pos hpar]
                  rw [if_pos hpar] at h
                  exact h
                · rw [if_neg hpar]
                  rw [if_neg hpar] at h
                  exact h
          · have hv2d : valN A2 d = valN A d := v2_other d hdj hdgp
            rw [hv2d]
            by_cases haj : a = j
            · rw [haj, if_pos hparity, v2_j]
              have h := H1 gp d (hdesc_gp_j.trans (haj ▸ had)) hd hdj
              unfold pairOrderedRel at h
              rw [if_pos hparity2] at h
              exact h
            by_cases hagp : a = gp
            · rw [hagp, if_pos hparity2, v2_gp]
              have h := H1 gp d (hagp ▸ had) hd hdj
              unfold pairOrderedRel at h
              rw [if_pos hparity2] at h
              exact htrans _ _ _ hxg h
            · rw [v2_other a haj hagp]
              have h := H1 a d had hd hdj
              unfold pairOrderedRel at h
              exact h
        have H2' : ∀ d, Desc gp d → d < A.length → le (valN A2 gp) (valN A2 d) := by
          intro d hgpd hd
          rw [v2_gp]
          by_cases hdgp : d = gp
          · rw [hdgp, v2_gp]; exact hrefl _
          by_cases hdj : d = j
          · rw [hdj, v2_j]; exact hxg
          · rw [v2_other d hdj hdgp]
            have h := H1 gp d hgpd hd hdj
            unfold pairOrderedRel at h
            rw [if_pos hparity2] at h
            exact htrans _ _ _ hxg h
        have H3' : ∀ a, Desc a gp → a ≠ gp → decide (minLvl a) ≠ b →
            le (valN A2 gp) (valN A2 a) := by
          intro a hagp hne hpar
          rw [v2_gp]
          have haj : a ≠ j := by
            intro he
            rw [he] at hagp
            have := hagp.le
            omega
          rw [v2_other a haj hne]
          exact H3 a (hagp.trans hdesc_gp_j) haj hpar
        intro a d had hd
        exact ih A2 gp (by omega) (by rw [hA2len]; omega) hparity2
          (fun a2 d2 h1 h2 h3 => H1' a2 d2 h1 (hA2len ▸ h2) h3)
          (fun d2 h1 h2 => H2' d2 h1 (hA2len ▸ h2))
          H3' a d had (by rw [hA2len]; exact hd)
      · rw [if_neg hless]
        have h0 : le (valN A gp) (valN A j) := by
          by_contra hno
          exact hless ((hcmp _ _).mpr hno)
        intro a d had hd
        by_cases hdj : d = j
        · rw [hdj] at had ⊢
          unfold pairOrderedRel
          by_cases haj : a = j
          · rw [haj]; split_ifs <;> exact hrefl _
          by_cases hpar : decide (minLvl a) = b
          · rw [if_pos hpar]
            by_cases hagp : a = gp
            · rw [hagp]; exact h0
            · have hap : a ≠ parentN j := by
                intro he
                apply hpne
                rw [← he]; exact hpar
              have hdesc_a_gp : Desc a gp := hanc a had haj hap
              have h := H1 a gp hdesc_a_gp (by omega) (by omega)
              unfold pairOrderedRel at h
              rw [if_pos hpar] at h
              exact htrans _ _ _ h h0
          · rw [if_neg hpar]
            exact H3 a had haj hpar
        · exact H1 a d had hd hdj
    · rw [if_pos hgpe]
      have hjlt3 : j < 3 := by
        by_contra hge
        push_neg at hge
        apply hgpe
        unfold isGrandParentExist
        rw [@getGrandParentOffset_coe j hge]
        rw [isValidNode_coe]
        have h1 : grandParentN j < j := by
          have h2 : 0 < parentN j := by unfold parentN; omega
          have h3 := parentN_lt h2
          have h4 := parentN_lt (show 0 < j by omega)
          unfold grandParentN
          omega
        omega
      intro a d had hd
      by_cases hdj : d = j
      · rw [hdj] at had ⊢
        by_cases haj : a = j
        · rw [haj]; unfold pairOrderedRel; split_ifs <;> exact hrefl _
        · unfold pairOrderedRel
          by_cases hpar : decide (minLvl a) = b
          · exfalso
            have hlb := had.strict_lb haj
            have ha0 : a = 0 := by omega
            have hj12 : j = 1 ∨ j = 2 := by omega
            rw [ha0] at hpar
            rw [decide_eq_true minLvl_zero] at hpar
            rcases hj12 with h | h <;> rw [h] at hparity
            · rw [decide_eq_false minLvl_one_false] at hparity
              rw [← hpar] at hparity
              exact Bool.false_ne_true hparity
            · rw [decide_eq_false minLvl_two_false] at hparity
              rw [← hpar] at hparity
              exact Bool.false_ne_true hparity
          · rw [if_neg hpar]
            exact H3 a had haj hpar
      · exact H1 a d had hd hdj

end MMH

namespace MMH

theorem isValidNode_swapValues {α : Type} [Inhabited α] (A : List α) (i j k : ℤ) :
    isValidNode (swapValues A i j) k = isValidNode A k := by
  unfold isValidNode
  rw [show sizeZ (swapValues A i j) = sizeZ A from by
    unfold sizeZ; rw [length_swapValues]]

theorem valN_append_lt {α : Type} [Inhabited α] {A : List α} {k : ℕ}
    (h : k < A.length) (x : α) : valN (A ++ [x]) k = valN A k := by
  unfold valN
  rw [List.getD_eq_getElem?_getD, List.getD_eq_getElem?_getD,
    List.getElem?_append, if_pos h]

theorem valN_append_last {α : Type} [Inhabited α] (A : List α) (x : α) :
    valN (A ++ [x]) A.length = x := by
  unfold valN
  rw [List.getD_eq_getElem?_getD, List.getElem?_append_right (le_refl _)]
  simp

theorem isParentExist_coe {α : Type} {A : List α} {j : ℕ} (hj : j < A.length) :
    isParentExist A ((j : ℕ) : ℤ) = true ↔ 0 < j := by
  unfold isParentExist
  rcases Nat.eq_zero_or_pos j with rfl | hpos
  · rw [show getParentOffset ((0 : ℕ) : ℤ) = -1 from rfl]
    rw [@isValidNode_neg α A (-1) (by omega)]
    simp
  · rw [@getParentOffset_coe j hpos, isValidNode_coe]
    have := parentN_lt hpos
    constructor
    · intro _; exact hpos
    · intro _; omega

/-- Dispatch case of `BubbleUp` without the initial parent swap: the new
node continues in its own level's polarity; the parent (if any) already
dominates it. -/
theorem bu_start_noswap {α : Type} [Inhabited α] (lt : α → α → Bool)
    (ord : LevelOrderingType) (le : α → α → Prop) (b : Bool)
    (hcmp : ∀ x y,
      lessThan lt (decide (ord = LevelOrderingType.Maximum)) x y = true ↔ ¬ le y x)
    (htot : ∀ x y, le x y ∨ le y x)
    (htrans : ∀ x y z, le x y → le y z → le x z)
    (B : List α) (j : ℕ) (hlast : j + 1 = B.length)
    (hparity : decide (minLvl j) = b)
    (preH1 : ∀ a d, Desc a d → d < B.length → d ≠ j → pairOrderedRel le b B a d)
    (hpar : 0 < j → le (valN B j) (valN B (parentN j))) :
    ∀ a d, Desc a d → d < B.length →
      pairOrderedRel le b (bubbleUpImplementationAux lt ord (j + 1) B (j : ℤ)) a d := by
  have hrefl : ∀ x, le x x := fun x => (htot x x).elim id id
  have hj : j < B.length := by omega
  have H2 : ∀ d, Desc j d → d < B.length → le (valN B j) (valN B d) := by
    intro d hd hdl
    rcases eq_or_ne d j with heq | hne
    · rw [heq]; exact hrefl _
    · exfalso
      have := hd.strict_lb (fun e => hne e.symm)
      omega
  have H3 : ∀ a, Desc a j → a ≠ j → decide (minLvl a) ≠ b →
      le (valN B j) (valN B a) := by
    intro a ha hne hpar_a
    have hjpos : 0 < j := by
      rcases Nat.eq_zero_or_pos j with rfl | h
      · exact absurd (Nat.le_zero.mp ha.le) hne
      · exact h
    have hple := hpar hjpos
    rcases eq_or_ne a (parentN j) with heq | hnep
    · rw [heq]; exact hple
    · have hdesc_ap : Desc a (parentN j) := ha.parent_mem hne hjpos
      have hplt := parentN_lt hjpos
      have h := preH1 a (parentN j) hdesc_ap (by omega) (by omega)
      unfold pairOrderedRel at h
      rw [if_neg hpar_a] at h
      exact htrans _ _ _ hple h
  exact bubbleUp_core lt ord le b hcmp htot htrans (j + 1) B j (by omega) hj
    hparity preH1 H2 H3

/-- Dispatch case of `BubbleUp` with the initial parent swap: the new
node is out of order with its parent, they are exchanged, and the
recursion continues from the parent in the parent's polarity. -/
theorem bu_start_swap {α : Type} [Inhabited α] (lt : α → α → Bool)
    (ord : LevelOrderingType) (le : α → α → Prop) (b : Bool)
    (hcmp : ∀ x y,
      lessThan lt (decide (ord = LevelOrderingType.Maximum)) x y = true ↔ ¬ le y x)
    (htot : ∀ x y, le x y ∨ le y x)
    (htrans : ∀ x y z, le x y → le y z → le x z)
    (B : List α) (j : ℕ) (hlast : j + 1 = B.length) (hjpos : 0 < j)
    (hparity : decide (minLvl (parentN j)) = b)
    (preH1 : ∀ a d, Desc a d → d < B.length → d ≠ j → pairOrderedRel le b B a d)
    (hord : le (valN B j) (valN B (parentN j))) :
    ∀ a d, Desc a d → d < B.length →
      pairOrderedRel le b (bubbleUpImplementationAux lt ord (parentN j + 1)
        (swapN B j (parentN j)) ((parentN j : ℕ) : ℤ)) a d := by
  have hrefl : ∀ x, le x x := fun x => (htot x x).elim id id
  have hj : j < B.length := by omega
  have hplt : parentN j < j := parentN_lt hjpos
  have hplen : parentN j < B.length := by omega
  set p := parentN j with hp_def
  set B2 := swapN B j p with hB2
  have hB2len : B2.length = B.length := length_swapN B j p
  have v2_p : valN B2 p = valN B j := valN_swapN_snd hplen
  have v2_j : valN B2 j = valN B p := valN_swapN_fst hj hplen
  have v2_other : ∀ k, k ≠ j → k ≠ p → valN B2 k = valN B k := by
    intro k h1 h2
    exact valN_swapN_other (by omega) (by omega)
  have H1'' : ∀ a d, Desc a d → d < B.length → d ≠ p →
      pairOrderedRel le b B2 a d := by
    intro a d had hd hdp
    unfold pairOrderedRel
    rcases eq_or_ne a d with heq | hand
    · rw [heq]; split_ifs <;> exact hrefl _
    by_cases hdj : d = j
    · rw [hdj] at had ⊢
      rw [v2_j]
      by_cases hap : a = p
      · rw [hap, if_pos hparity, v2_p]
        exact hord
      · have haj : a ≠ j := by rw [← hdj]; exact hand
        rw [v2_other a haj hap]
        have hdesc_ap : Desc a p := by
          rw [hp_def]; exact had.parent_mem haj hjpos
        have h := preH1 a p hdesc_ap (by omega) (by omega)
        unfold pairOrderedRel at h
        by_cases hpa : decide (minLvl a) = b
        · rw [if_pos hpa]
          rw [if_pos hpa] at h
          exact h
        · rw [if_neg hpa]
          rw [if_neg hpa] at h
          exact h
    · rw [v2_other d hdj hdp]
      by_cases haj : a = j
      · exfalso
        rw [haj] at had
        have := had.strict_lb (fun e => hdj e.symm)
        omega
      by_cases hap : a = p
      · rw [hap, if_pos hparity, v2_p]
        have h := preH1 p d (hap ▸ had) hd hdj
        unfold pairOrderedRel at h
        rw [if_pos hparity] at h
        exact htrans _ _ _ hord h
      · rw [v2_other a haj hap]
        have h := preH1 a d had hd hdj
        unfold pairOrderedRel at h
        exact h
  have H2'' : ∀ d, Desc p d → d < B.length → le (valN B2 p) (valN B2 d) := by
    intro d hpd hd
    rw [v2_p]
    by_cases hdp : d = p
    · rw [hdp, v2_p]; exact hrefl _
    by_cases hdj : d = j
    · rw [hdj, v2_j]; exact hord
    · rw [v2_other d hdj hdp]
      have h := preH1 p d hpd hd hdj
      unfold pairOrderedRel at h
      rw [if_pos hparity] at h
      exact htrans _ _ _ hord h
  have H3'' : ∀ a, Desc a p → a ≠ p → decide (minLvl a) ≠ b →
      le (valN B2 p) (valN B2 a) := by
    intro a hap hnep hpa
    rw [v2_p]
    have haj : a ≠ j := by
      intro he
      rw [he] at hap
      have := hap.le
      omega
    rw [v2_other a haj hnep]
    have h := preH1 a p hap (by omega) (by omega)
    unfold pairOrderedRel at h
    rw [if_neg hpa] at h
    exact htrans _ _ _ hord h
  intro a d had hd
  exact bubbleUp_core lt ord le b hcmp htot htrans (p + 1) B2 p (by omega)
    (by rw [hB2len]; omega) hparity
    (fun a2 d2 h1 h2 h3 => H1'' a2 d2 h1 (hB2len ▸ h2) h3)
    (fun d2 h1 h2 => H2'' d2 h1 (hB2len ▸ h2))
    H3'' a d had (by rw [hB2len]; exact hd)

theorem length_emplaceHeap {α : Type} [Inhabited α] (lt : α → α → Bool)
    (A : List α) (x : α) : (emplaceHeap lt A x).length = A.length + 1 := by
  unfold emplaceHeap bubbleUp
  split_ifs <;>
    simp [length_bubbleUpImplementation, length_swapValues]

theorem multiset_emplaceHeap {α : Type} [Inhabited α] (lt : α → α → Bool)
    (A : List α) (x : α) :
    ((emplaceHeap lt A x : List α) : Multiset α) = x ::ₘ (A : Multiset α) := by
  unfold emplaceHeap bubbleUp
  have hlen : (A ++ [x]).length = A.length + 1 := by simp
  have hoff : sizeZ (A ++ [x]) - 1 = ((A.length : ℕ) : ℤ) := by
    unfold sizeZ
    rw [hlen]
    push_cast
    ring
  rw [hoff]
  have hvalid : isValidNode (A ++ [x]) ((A.length : ℕ) : ℤ) = true := by
    rw [isValidNode_coe]
    omega
  have happ : ((A ++ [x] : List α) : Multiset α) = x ::ₘ (A : Multiset α) :=
    Quot.sound (List.perm_append_singleton x A)
  split_ifs with hm h1 h3
  · have hpv : isValidNode (A ++ [x]) (getParentOffset ((A.length : ℕ) : ℤ)) = true := by
      have := h1.1
      unfold isParentExist at this
      exact this
    rw [multiset_bubbleUpImplementation _ _ _ _
      (by rw [isValidNode_swapValues]; exact hpv)]
    rw [multiset_swapValues hvalid hpv]
    exact happ
  · rw [multiset_bubbleUpImplementation _ _ _ _ hvalid]
    exact happ
  · have hpv : isValidNode (A ++ [x]) (getParentOffset ((A.length : ℕ) : ℤ)) = true := by
      have := h3.1
      unfold isParentExist at this
      exact this
    rw [multiset_bubbleUpImplementation _ _ _ _
      (by rw [isValidNode_swapValues]; exact hpv)]
    rw [multiset_swapValues hvalid hpv]
    exact happ
  · rw [multiset_bubbleUpImplementation _ _ _ _ hvalid]
    exact happ

/-- `Emplace` preserves the min-max ordering invariant. -/
theorem emplaceHeap_invariant {α : Type} [LinearOrder α] [Inhabited α]
    (A : List α) (x : α) (hinv : minMaxHeapInvariant A) :
    minMaxHeapInvariant (emplaceHeap stdLt A x) := by
  unfold emplaceHeap
  set B := A ++ [x] with hB
  have hBlen : B.length = A.length + 1 := by rw [hB]; simp
  have hoff : sizeZ B - 1 = ((A.length : ℕ) : ℤ) := by
    unfold sizeZ
    rw [hBlen]
    push_cast
    ring
  rw [hoff]
  set j := A.length with hj_def
  have hjB : j < B.length := by omega
  have hlast : j + 1 = B.length := by omega
  have preH1 : ∀ a d, Desc a d → d < B.length → d ≠ j → pairOrdered B a d := by
    intro a d had hd hdj
    have hdA : d < A.length := by omega
    have haA : a < A.length := lt_of_le_of_lt had.le hdA
    have h := hinv a d had hdA
    unfold pairOrdered at h ⊢
    rw [show valN B a = valN A a from valN_append_lt haA x,
        show valN B d = valN A d from valN_append_lt hdA x]
    exact h
  unfold bubbleUp
  by_cases hmin : minLvl j
  · rw [if_pos ((isMinimumLevel_coe hjB).mpr hmin)]
    by_cases hjpos : 0 < j
    · rw [@getParentOffset_coe j hjpos]
      simp only [getValue_toNat, toNat_coe, swapValues_toNat]
      have hpe : isParentExist B (j : ℤ) = true := (isParentExist_coe hjB).mpr hjpos
      by_cases hgt : greaterThan stdLt false (valN B j) (valN B (parentN j)) = true
      · rw [if_pos ⟨hpe, hgt⟩]
        have hparP : ¬ minLvl (parentN j) :=
          fun h => (minLvl_parent_iff hjpos).mp h hmin
        have hparity : decide (minLvl (parentN j)) = false := decide_eq_false hparP
        have hgt' : valN B (parentN j) < valN B j := by
          unfold greaterThan stdLt at hgt
          rw [if_neg Bool.false_ne_true] at hgt
          exact of_decide_eq_true hgt
        have hres := bu_start_swap stdLt LevelOrderingType.Maximum
          (fun a b => b ≤ a) false
          lessThan_max_iff (fun a b => le_total b a)
          (fun a b c h1 h2 => le_trans h2 h1)
          B j hlast hjpos hparity
          (fun a d had hd hdj =>
            (pairOrderedRel_false_iff B a d).mpr (preH1 a d had hd hdj))
          (le_of_lt hgt')
        intro a d had hd
        rw [length_bubbleUpImplementation, length_swapN] at hd
        exact (pairOrderedRel_false_iff _ a d).mp (hres a d had hd)
      · rw [if_neg (fun hc => hgt hc.2)]
        have hparity : decide (minLvl j) = true := decide_eq_true hmin
        have hple : valN B j ≤ valN B (parentN j) := by
          by_contra hno
          apply hgt
          unfold greaterThan stdLt
          rw [if_neg Bool.false_ne_true]
          exact decide_eq_true (lt_of_not_le hno)
        have hres := bu_start_noswap stdLt LevelOrderingType.Minimum (· ≤ ·) true
          lessThan_min_iff le_total (fun a b c h1 h2 => le_trans h1 h2)
          B j hlast hparity
          (fun a d had hd hdj =>
            (pairOrderedRel_true_iff B a d).mpr (preH1 a d had hd hdj))
          (fun _ => hple)
        intro a d had hd
        rw [length_bubbleUpImplementation] at hd
        exact (pairOrderedRel_true_iff _ a d).mp (hres a d had hd)
    · have hpe : ¬ (isParentExist B (j : ℤ) = true) :=
        fun h => hjpos ((isParentExist_coe hjB).mp h)
      rw [if_neg (fun hc => hpe hc.1)]
      have hparity : decide (minLvl j) = true := decide_eq_true hmin
      have hres := bu_start_noswap stdLt LevelOrderingType.Minimum (· ≤ ·) true
        lessThan_min_iff le_total (fun a b c h1 h2 => le_trans h1 h2)
        B j hlast hparity
        (fun a d had hd hdj =>
          (pairOrderedRel_true_iff B a d).mpr (preH1 a d had hd hdj))
        (fun h => absurd h hjpos)
      intro a d had hd
      rw [length_bubbleUpImplementation] at hd
      exact (pairOrderedRel_true_iff _ a d).mp (hres a d had hd)
  · rw [if_neg (fun h => hmin ((isMinimumLevel_coe hjB).mp h))]
    by_cases hjpos : 0 < j
    · rw [@getParentOffset_coe j hjpos]
      simp only [getValue_toNat, toNat_coe, swapValues_toNat]
      have hpe : isParentExist B (j : ℤ) = true := (isParentExist_coe hjB).mpr hjpos
      by_cases hlt : lessThan stdLt false (valN B j) (valN B (parentN j)) = true
      · rw [if_pos ⟨hpe, hlt⟩]
        have hparP : minLvl (parentN j) := (minLvl_parent_iff hjpos).mpr hmin
        have hparity : decide (minLvl (parentN j)) = true := decide_eq_true hparP
        have hlt' : valN B j < valN B (parentN j) := by
          unfold lessThan stdLt at hlt
          rw [if_neg Bool.false_ne_true] at hlt
          exact of_decide_eq_true hlt
        have hres := bu_start_swap stdLt LevelOrderingType.Minimum (· ≤ ·) true
          lessThan_min_iff le_total (fun a b c h1 h2 => le_trans h1 h2)
          B j hlast hjpos hparity
          (fun a d had hd hdj =>
            (pairOrderedRel_true_iff B a d).mpr (preH1 a d had hd hdj))
          (le_of_lt hlt')
        intro a d had hd
        rw [length_bubbleUpImplementation, length_swapN] at hd
        exact (pairOrderedRel_true_iff _ a d).mp (hres a d had hd)
      · rw [if_neg (fun hc => hlt hc.2)]
        have hparity : decide (minLvl j) = false := decide_eq_false hmin
        have hple : valN B (parentN j) ≤ valN B j := by
          by_contra hno
          apply hlt
          unfold lessThan stdLt
          rw [if_neg Bool.false_ne_true]
          exact decide_eq_true (lt_of_not_le hno)
        have hres := bu_start_noswap stdLt LevelOrderingType.Maximum
          (fun a b => b ≤ a) false
          lessThan_max_iff (fun a b => le_total b a)
          (fun a b c h1 h2 => le_trans h2 h1)
          B j hlast hparity
          (fun a d had hd hdj =>
            (pairOrderedRel_false_iff B a d).mpr (preH1 a d had hd hdj))
          (fun _ => hple)
        intro a d had hd
        rw [length_bubbleUpImplementation] at hd
        exact (pairOrderedRel_false_iff _ a d).mp (hres a d had hd)
    · exfalso
      apply hmin
      have h0 : j = 0 := by omega
      rw [h0]
      exact minLvl_zero

end MMH

namespace MMH

theorem valN_dropLast {α : Type} [Inhabited α] {A : List α} {k : ℕ}
    (h : k < A.length - 1) : valN A.dropLast k = valN A k := by
  have h1 : k < A.dropLast.length := by rw [List.length_dropLast]; omega
  have h2 : k < A.length := by omega
  rw [valN_eq_getElem h1, valN_eq_getElem h2]
  exact List.getElem_dropLast A k h1

/-- Under the invariant the root is a global minimum. -/
theorem invariant_root_min {α : Type} [LinearOrder α] [Inhabited α] {A : List α}
    (hinv : minMaxHeapInvariant A) (k : ℕ) (hk : k < A.length) :
    valN A 0 ≤ valN A k := by
  have h := hinv 0 k (Desc.zero k) hk
  unfold pairOrdered at h
  rw [if_pos minLvl_zero] at h
  exact h

theorem findMinimum_spec {α : Type} [Inhabited α] (lt : α → α → Bool)
    (A : List α) (h : A ≠ []) :
    findMinimum lt A = Except.ok (valN A 0) := by
  unfold findMinimum findMinimumOffset
  rw [if_neg (by simp [h])]
  rfl

/-- Under the invariant the root value is `≤` every element. -/
theorem findMinimum_min {α : Type} [LinearOrder α] [Inhabited α] {A : List α}
    (hinv : minMaxHeapInvariant A) :
    ∀ x ∈ (A : Multiset α), valN A 0 ≤ x := by
  intro x hx
  rw [Multiset.mem_coe] at hx
  obtain ⟨i, hi, heq⟩ := List.mem_iff_getElem.mp hx
  rw [← heq, ← valN_eq_getElem hi]
  exact invariant_root_min hinv i hi

/-- Under the invariant `FindMaximumOffset` returns a valid offset whose
value dominates the whole heap. -/
theorem findMaximumOffset_spec {α : Type} [LinearOrder α] [Inhabited α]
    {A : List α} (hinv : minMaxHeapInvariant A) (h : A ≠ []) :
    ∃ c : ℕ, findMaximumOffset stdLt A = Except.ok ((c : ℕ) : ℤ) ∧ c ≤ 2 ∧
      c < A.length ∧ ∀ k, k < A.length → valN A k ≤ valN A c := by
  have hn : 0 < A.length := List.length_pos.mpr h
  have hsub : ∀ c : ℕ, 0 < c → c < A.length →
      (∀ k, 1 ≤ k → k < A.length → valN A k ≤ valN A c) →
      ∀ k, k < A.length → valN A k ≤ valN A c := by
    intro c hcpos hclen hbig k hk
    rcases Nat.eq_zero_or_pos k with rfl | hkpos
    · exact invariant_root_min hinv c hclen
    · exact hbig k hkpos hk
  have hdom : ∀ c : ℕ, c = 1 ∨ c = 2 → c < A.length →
      ∀ k, 1 ≤ k → k < A.length → Desc c k → valN A k ≤ valN A c := by
    intro c hc12 hclen k _ hk hdesc
    have hpair := hinv c k hdesc hk
    unfold pairOrdered at hpair
    rcases hc12 with rfl | rfl
    · rw [if_neg minLvl_one_false] at hpair
      exact hpair
    · rw [if_neg minLvl_two_false] at hpair
      exact hpair
  unfold findMaximumOffset
  rw [if_neg (by simp [h])]
  by_cases h1 : A.length = 1
  · rw [if_pos h1]
    refine ⟨0, rfl, by omega, hn, ?_⟩
    intro k hk
    have : k = 0 := by omega
    rw [this]
  · rw [if_neg h1]
    have h2 : 2 ≤ A.length := by omega
    have hoff1 : getLeftChildOffset getRootOffset = ((1 : ℕ) : ℤ) := rfl
    have hoff2 : getRightChildOffset getRootOffset = ((2 : ℕ) : ℤ) := rfl
    have hsplit : ∀ k, 1 ≤ k → Desc 1 k ∨ Desc 2 k := by
      intro k hk
      have := (Desc.zero k).strict_step (by omega)
      simpa using this
    by_cases hcond : isRightChildExist A getRootOffset = true ∧
        greaterThan stdLt false (getValue A (getRightChildOffset getRootOffset))
          (getValue A (getLeftChildOffset getRootOffset)) = true
    · rw [if_pos hcond]
      obtain ⟨hrc, hgt⟩ := hcond
      have h3 : 2 < A.length := by
        unfold isRightChildExist getRightChildOffset getLeftChildOffset
          getRootOffset sizeZ at hrc
        simp only [decide_eq_true_eq] at hrc
        omega
      have h12 : valN A 1 ≤ valN A 2 := by
        unfold greaterThan stdLt at hgt
        rw [if_neg Bool.false_ne_true] at hgt
        rw [hoff1, hoff2] at hgt
        simp only [getValue_toNat, toNat_coe] at hgt
        exact le_of_lt (of_decide_eq_true hgt)
      refine ⟨2, by rw [hoff2], by omega, h3, ?_⟩
      apply hsub 2 (by omega) h3
      intro k hk1 hk
      rcases hsplit k hk1 with hd | hd
      · calc valN A k ≤ valN A 1 := hdom 1 (Or.inl rfl) (by omega) k hk1 hk hd
          _ ≤ valN A 2 := h12
      · exact hdom 2 (Or.inr rfl) h3 k hk1 hk hd
    · rw [if_neg hcond]
      refine ⟨1, by rw [hoff1], by omega, by omega, ?_⟩
      apply hsub 1 (by omega) (by omega)
      intro k hk1 hk
      rcases hsplit k hk1 with hd | hd
      · exact hdom 1 (Or.inl rfl) (by omega) k hk1 hk hd
      · by_cases h3 : 2 < A.length
        · have hrc : isRightChildExist A getRootOffset = true := by
            unfold isRightChildExist getRightChildOffset getLeftChildOffset
              getRootOffset sizeZ
            simp only [decide_eq_true_eq]
            omega
          have hngt : ¬ (greaterThan stdLt false
              (getValue A (getRightChildOffset getRootOffset))
              (getValue A (getLeftChildOffset getRootOffset)) = true) := by
            intro hg
            exact hcond ⟨hrc, hg⟩
          have h21 : valN A 2 ≤ valN A 1 := by
            by_contra hno
            apply hngt
            unfold greaterThan stdLt
            rw [if_neg Bool.false_ne_true]
            rw [hoff1, hoff2]
            simp only [getValue_toNat, toNat_coe]
            exact decide_eq_true (lt_of_not_le hno)
          calc valN A k ≤ valN A 2 := hdom 2 (Or.inr rfl) h3 k hk1 hk hd
            _ ≤ valN A 1 := h21
        · exfalso
          have := hd.le
          omega

/-- Under the invariant `FindMaximum` returns a maximal element. -/
theorem findMaximum_spec {α : Type} [LinearOrder α] [Inhabited α]
    {A : List α} (hinv : minMaxHeapInvariant A) (h : A ≠ []) :
    ∃ v, findMaximum stdLt A = Except.ok v ∧ v ∈ (A : Multiset α) ∧
      ∀ x ∈ (A : Multiset α), x ≤ v := by
  obtain ⟨c, hoff, _, hc, hmax⟩ := findMaximumOffset_spec hinv h
  refine ⟨valN A c, ?_, ?_, ?_⟩
  · unfold findMaximum
    rw [hoff]
    rfl
  · rw [Multiset.mem_coe, valN_eq_getElem hc]
    exact List.getElem_mem hc
  · intro x hx
    rw [Multiset.mem_coe] at hx
    obtain ⟨i, hi, heq⟩ := List.mem_iff_getElem.mp hx
    rw [← heq, ← valN_eq_getElem hi]
    exact hmax i hi

end MMH

namespace MMH

/-- Effect of "overwrite position `c` with the last value, then drop the
last element": lengths, values, and the multiset identity
`⟦A⟧ = A[c] ::ₘ ⟦result⟧`. -/
theorem removeAt_spec {α : Type} [Inhabited α] (A : List α) (c : ℕ)
    (hc : c < A.length) :
    ((A.set c (valN A (A.length - 1))).dropLast).length = A.length - 1 ∧
    (∀ k, k < A.length - 1 → k ≠ c →
      valN ((A.set c (valN A (A.length - 1))).dropLast) k = valN A k) ∧
    (c < A.length - 1 →
      valN ((A.set c (valN A (A.length - 1))).dropLast) c = valN A (A.length - 1)) ∧
    (A : Multiset α) = valN A c ::ₘ
      (((A.set c (valN A (A.length - 1))).dropLast : List α) : Multiset α) := by
  have hne : A ≠ [] := List.ne_nil_of_length_pos (by omega)
  have hClen : A.dropLast.length = A.length - 1 := List.length_dropLast A
  have hCdef : A.dropLast ++ [valN A (A.length - 1)] = A := by
    have h1 : A.getLast hne = A[A.length - 1] := List.getLast_eq_getElem A hne
    have h2 : valN A (A.length - 1) = A[A.length - 1] := valN_eq_getElem (by omega)
    rw [h2, ← h1]
    exact List.dropLast_append_getLast hne
  refine ⟨by rw [List.length_dropLast, List.length_set], ?_, ?_, ?_⟩
  · intro k hk hkc
    have hk2 : k < (A.set c (valN A (A.length - 1))).length - 1 := by
      rw [List.length_set]; omega
    rw [valN_dropLast hk2, valN_set_ne (fun e => hkc e.symm)]
  · intro hclt
    have hc2 : c < (A.set c (valN A (A.length - 1))).length - 1 := by
      rw [List.length_set]; omega
    rw [valN_dropLast hc2, valN_set_self hc]
  · set w := valN A (A.length - 1) with hw
    by_cases hcl : c < A.length - 1
    · have hset : A.set c w = A.dropLast.set c w ++ [w] := by
        conv_lhs => rw [← hCdef]
        rw [List.set_append, if_pos (by rw [hClen]; omega)]
      rw [hset, List.dropLast_concat]
      have hms := multiset_set (show c < A.dropLast.length by rw [hClen]; omega) w
      rw [show valN A.dropLast c = valN A c from valN_dropLast (by omega)] at hms
      have hA_ms : (A : Multiset α) = w ::ₘ (A.dropLast : Multiset α) := by
        conv_lhs => rw [← hCdef]
        exact Quot.sound (List.perm_append_singleton _ _)
      rw [hA_ms]
      rw [← Multiset.singleton_add, ← Multiset.singleton_add]
      have hms2 : ({valN A c} : Multiset α) +
          ((A.dropLast.set c w : List α) : Multiset α) =
          (A.dropLast : Multiset α) + {w} := by
        rw [add_comm]
        exact hms
      rw [hms2]
      exact add_comm _ _
    · have hceq : c = A.length - 1 := by omega
      have hset : A.set c w = A := by
        conv_lhs => rw [← hCdef]
        rw [List.set_append, if_neg (by rw [hClen]; omega)]
        rw [show c - A.dropLast.length = 0 from by rw [hClen]; omega]
        rw [show ([w].set 0 w) = [w] from rfl]
        exact hCdef
      rw [hset, hceq, ← hw]
      conv_lhs => rw [← hCdef]
      rw [show ((A.dropLast ++ [w] : List α) : Multiset α) =
        ((w :: A.dropLast : List α) : Multiset α) from
        Quot.sound (List.perm_append_singleton _ _)]
      exact (Multiset.cons_coe _ _).symm

end MMH

namespace MMH

/-- `DeleteMinimum` on an invariant-satisfying non-empty heap succeeds,
preserves the invariant, shrinks the size by one and removes exactly
one copy of the minimum. -/
theorem deleteMinimum_spec {α : Type} [LinearOrder α] [Inhabited α] {A : List α}
    (hinv : minMaxHeapInvariant A) (h : A ≠ []) :
    ∃ A', deleteMinimum stdLt A = Except.ok A' ∧ minMaxHeapInvariant A' ∧
      A'.length = A.length - 1 ∧
      (A : Multiset α) = valN A 0 ::ₘ (A' : Multiset α) := by
  have hn : 0 < A.length := List.length_pos.mpr h
  unfold deleteMinimum
  rw [if_neg (by simp [h])]
  have hB : (setValue A getRootOffset (getValue A (sizeZ A - 1))).dropLast
      = (A.set 0 (valN A (A.length - 1))).dropLast := by
    rw [show sizeZ A - 1 = ((A.length - 1 : ℕ) : ℤ) from by unfold sizeZ; omega]
    rfl
  rw [hB, show getRootOffset = ((0 : ℕ) : ℤ) from rfl]
  obtain ⟨hlen, hval, hvalc, hms⟩ := removeAt_spec A 0 hn
  set B := (A.set 0 (valN A (A.length - 1))).dropLast with hBdef
  have hb : ∀ i j, Desc 0 i → i ≠ 0 → Desc i j → j < B.length → pairOrdered B i j := by
    intro i j h0i hi0 hij hj
    rw [hlen] at hj
    have hij_le := hij.le
    have hi1 : 1 ≤ i := by omega
    have hj1 : 1 ≤ j := le_trans hi1 hij.le
    unfold pairOrdered
    rw [hval i (by omega) (by omega), hval j (by omega) (by omega)]
    have h2 := hinv i j hij (by omega)
    unfold pairOrdered at h2
    exact h2
  obtain ⟨S, U, I⟩ := trickleDown_real B 0 hb
  refine ⟨trickleDown stdLt B ((0 : ℕ) : ℤ), rfl, ?_, ?_, ?_⟩
  · intro i j hij hj
    rw [length_trickleDown] at hj
    exact S i j (Desc.zero i) hij hj
  · rw [length_trickleDown, hlen]
  · rw [hms, multiset_trickleDown stdLt B ((0 : ℕ) : ℤ) (by omega)]

/-- `DeleteMaximum` on an invariant-satisfying non-empty heap succeeds,
preserves the invariant, shrinks the size by one and removes exactly
one copy of the maximum. -/
theorem deleteMaximum_spec {α : Type} [LinearOrder α] [Inhabited α] {A : List α}
    (hinv : minMaxHeapInvariant A) (h : A ≠ []) :
    ∃ (c : ℕ) (A' : List α),
      findMaximumOffset stdLt A = Except.ok ((c : ℕ) : ℤ) ∧ c < A.length ∧
      (∀ k, k < A.length → valN A k ≤ valN A c) ∧
      deleteMaximum stdLt A = Except.ok A' ∧ minMaxHeapInvariant A' ∧
      A'.length = A.length - 1 ∧
      (A : Multiset α) = valN A c ::ₘ (A' : Multiset α) := by
  have hn : 0 < A.length := List.length_pos.mpr h
  obtain ⟨c, hoff, hc2, hc, hmax⟩ := findMaximumOffset_spec hinv h
  have hdel : deleteMaximum stdLt A = Except.ok (trickleDown stdLt
      ((A.set c (valN A (A.length - 1))).dropLast) ((c : ℕ) : ℤ)) := by
    unfold deleteMaximum getLastNodeOffset
    rw [hoff, if_neg (by simp [h])]
    rw [show sizeZ A - 1 = ((A.length - 1 : ℕ) : ℤ) from by unfold sizeZ; omega]
    rfl
  obtain ⟨hlen, hval, hvalc, hms⟩ := removeAt_spec A c hc
  set B := (A.set c (valN A (A.length - 1))).dropLast with hBdef
  have hb : ∀ i j, Desc c i → i ≠ c → Desc i j → j < B.length → pairOrdered B i j := by
    intro i j hci hic hij hj
    rw [hlen] at hj
    have hij_le := hij.le
    have hlb := hci.strict_lb (fun e => hic e.symm)
    have hjc : j ≠ c := by
      have := hij.le
      omega
    unfold pairOrdered
    rw [hval i (by omega) (by omega), hval j (by omega) hjc]
    have h2 := hinv i j hij (by omega)
    unfold pairOrdered at h2
    exact h2
  obtain ⟨S, U, I⟩ := trickleDown_real B c hb
  refine ⟨c, trickleDown stdLt B ((c : ℕ) : ℤ), hoff, hc, hmax, hdel, ?_, ?_, ?_⟩
  · intro i j hij hj
    rw [length_trickleDown, hlen] at hj
    have hij_le := hij.le
    by_cases hcj : Desc c j
    · by_cases hci : Desc c i
      · exact S i j hci hij (by rw [hlen]; exact hj)
      · rcases hij.comparable hcj with hic | hci2
        · have hinec : i ≠ c := fun e => hci (e ▸ Desc.refl c)
          have hi0 : i = 0 := by
            have := hic.strict_lb hinec
            omega
          obtain ⟨e, he, hce, heq⟩ := I j (by rw [hlen]; exact hj) hcj
          unfold pairOrdered
          rw [show valN (trickleDown stdLt B ((c : ℕ) : ℤ)) i = valN A i from by
            rw [U i (by rw [hlen]; omega) hci, hval i (by omega) hinec]]
          rw [heq]
          rw [hlen] at he
          by_cases hec : e = c
          · rw [hec, hvalc (by omega), hi0, if_pos minLvl_zero]
            exact invariant_root_min hinv (A.length - 1) (by omega)
          · rw [hval e (by omega) hec, hi0, if_pos minLvl_zero]
            exact invariant_root_min hinv e (by omega)
        · exact absurd hci2 hci
    · have hci : ¬ Desc c i := fun hd => hcj (hd.trans hij)
      have hic : i ≠ c := fun e => hci (e ▸ Desc.refl c)
      have hjc : j ≠ c := fun e => hcj (e ▸ Desc.refl c)
      unfold pairOrdered
      rw [U i (by rw [hlen]; omega) hci, U j (by rw [hlen]; exact hj) hcj,
        hval i (by omega) hic, hval j (by omega) hjc]
      have h2 := hinv i j hij (by omega)
      unfold pairOrdered at h2
      exact h2
  · rw [length_trickleDown, hlen]
  · rw [hms, multiset_trickleDown stdLt B ((c : ℕ) : ℤ) (by omega)]

end MMH

namespace MMH

/-- The list coercion `List ℕ → List ℤ` is element-wise. -/
theorem coeList_eq_map (l : List ℕ) :
    (l : List ℤ) = List.map (fun a : ℕ => (a : ℤ)) l := by
  induction l with
  | nil => rfl
  | cons a as ih => simp_all [List.flatMap_cons]

/-- Floyd loop invariant: once every sub-tree rooted at an offset `≥ t`
is ordered, trickling down `t-1, …, 0` in turn yields the full
invariant; length and contents are preserved. -/
theorem floyd_fold_invariant {α : Type} [LinearOrder α] [Inhabited α] :
    ∀ (t : ℕ) (A : List α),
      (∀ i j, t ≤ i → Desc i j → j < A.length → pairOrdered A i j) →
      minMaxHeapInvariant (List.foldl
        (fun (heap : List α) (subTreeOffset : ℕ) =>
          trickleDown stdLt heap (subTreeOffset : ℤ)) A (List.range t).reverse) ∧
      (List.foldl
        (fun (heap : List α) (subTreeOffset : ℕ) =>
          trickleDown stdLt heap (subTreeOffset : ℤ)) A (List.range t).reverse).length
        = A.length ∧
      ((List.foldl
        (fun (heap : List α) (subTreeOffset : ℕ) =>
          trickleDown stdLt heap (subTreeOffset : ℤ)) A (List.range t).reverse : List α)
        : Multiset α) = (A : Multiset α) := by
  intro t
  induction t with
  | zero =>
    intro A h
    exact ⟨fun i j hij hj => h i j (Nat.zero_le i) hij hj, rfl, rfl⟩
  | succ t ih =>
    intro A h
    rw [List.range_succ, List.reverse_append]
    simp only [List.reverse_singleton, List.singleton_append, List.foldl_cons]
    obtain ⟨S, U, I⟩ := trickleDown_real A t (by
      intro i j hti hit hij hj
      have hlb := hti.strict_lb (fun e => hit e.symm)
      exact h i j (by omega) hij hj)
    have hstep : ∀ i j, t ≤ i → Desc i j → j < (trickleDown stdLt A (t : ℤ)).length →
        pairOrdered (trickleDown stdLt A (t : ℤ)) i j := by
      intro i j hti hij hj
      rw [length_trickleDown] at hj
      by_cases hdt : Desc t i
      · exact S i j hdt hij hj
      · have hit : i ≠ t := fun e => hdt (e ▸ Desc.refl t)
        have hjt : ¬ Desc t j := by
          intro hd
          rcases hij.comparable hd with h1 | h2
          · exact hit (le_antisymm h1.le hti)
          · exact hdt h2
        unfold pairOrdered
        rw [U i (lt_of_le_of_lt hij.le hj) hdt, U j hj hjt]
        have h2 := h i j (by omega) hij hj
        unfold pairOrdered at h2
        exact h2
    obtain ⟨hi1, hi2, hi3⟩ := ih (trickleDown stdLt A (t : ℤ)) hstep
    refine ⟨hi1, ?_, ?_⟩
    · rw [hi2, length_trickleDown]
    · rw [hi3, multiset_trickleDown stdLt A (t : ℤ) (by omega)]

/-- The bulk constructor produces an invariant-satisfying heap with the
same length and contents as the source. -/
theorem minMaxHeapOfSeq_invariant {α : Type} [LinearOrder α] [Inhabited α]
    (source : List α) :
    minMaxHeapInvariant (minMaxHeapOfSeq stdLt source) ∧
    (minMaxHeapOfSeq stdLt source).length = source.length ∧
    ((minMaxHeapOfSeq stdLt source : List α) : Multiset α) = (source : Multiset α) := by
  unfold minMaxHeapOfSeq
  by_cases hlt : source.length < 2
  · rw [if_pos hlt]
    refine ⟨?_, rfl, rfl⟩
    intro i j hij hj
    have hij_le := hij.le
    have hj0 : j = 0 := by omega
    have hi0 : i = 0 := by omega
    rw [hi0, hj0]
    unfold pairOrdered
    split_ifs with hml
    · exact le_refl _
    · exact le_refl _
  · rw [if_neg hlt]
    have hoff : (getParentOffset (sizeZ source - 1)).toNat + 1
        = parentN (source.length - 1) + 1 := by
      rw [show sizeZ source - 1 = ((source.length - 1 : ℕ) : ℤ) from by
        unfold sizeZ; omega]
      rw [@getParentOffset_coe (source.length - 1) (by omega), toNat_coe]
    rw [hoff, coeList_eq_map, List.foldl_map]
    apply floyd_fold_invariant
    intro i j hti hij hj
    have hpar : parentN (source.length - 1) = (source.length - 1 - 1) / 2 := rfl
    have heq : j = i := hij.leaf hj (by omega)
    rw [heq]
    unfold pairOrdered
    split_ifs with hml
    · exact le_refl _
    · exact le_refl _

/-- Every heap state reachable through the public interface satisfies
the min-max ordering invariant. -/
theorem reachable_invariant {α : Type} [LinearOrder α] [Inhabited α]
    {A : List α} (h : Reachable stdLt A) : minMaxHeapInvariant A := by
  induction h with
  | empty =>
    intro i j hij hj
    simp at hj
  | ofSeq source => exact (minMaxHeapOfSeq_invariant source).1
  | emplaceStep heap x hr ih => exact emplaceHeap_invariant heap x ih
  | deleteMinStep heap heap' hr hdel ih =>
    have hne : heap ≠ [] := by
      intro he
      rw [he] at hdel
      simp [deleteMinimum] at hdel
    obtain ⟨A', hok, hinv', _, _⟩ := deleteMinimum_spec ih hne
    rw [hdel] at hok
    injection hok with he
    rw [he]
    exact hinv'
  | deleteMaxStep heap heap' hr hdel ih =>
    have hne : heap ≠ [] := by
      intro he
      rw [he] at hdel
      exact Except.noConfusion hdel
    obtain ⟨c, A', _, _, _, hok, hinv', _, _⟩ := deleteMaximum_spec ih hne
    rw [hdel] at hok
    injection hok with he
    rw [he]
    exact hinv'

end MMH

namespace MMH

/-- The fuelled drain of an invariant-satisfying heap returns exactly
its contents, in non-decreasing order. -/
theorem drainMinimumAux_spec {α : Type} [LinearOrder α] [Inhabited α] :
    ∀ (fuel : ℕ) (A : List α), A.length = fuel → minMaxHeapInvariant A →
      ((drainMinimumAux stdLt fuel A : List α) : Multiset α) = (A : Multiset α) ∧
      List.Sorted (· ≤ ·) (drainMinimumAux stdLt fuel A) := by
  intro fuel
  induction fuel with
  | zero =>
    intro A hlen hinv
    rw [List.length_eq_zero.mp hlen]
    exact ⟨rfl, List.sorted_nil⟩
  | succ f ih =>
    intro A hlen hinv
    have hne : A ≠ [] := by
      intro h
      rw [h] at hlen
      simp at hlen
    obtain ⟨A', hdel, hinv', hlen', hms⟩ := deleteMinimum_spec hinv hne
    have hfind := findMinimum_spec stdLt A hne
    have hstep : drainMinimumAux stdLt (f + 1) A
        = valN A 0 :: drainMinimumAux stdLt f A' := by
      rw [drainMinimumAux, hfind, hdel]
    rw [hstep]
    have hlen'' : A'.length = f := by omega
    obtain ⟨ihms, ihsorted⟩ := ih A' hlen'' hinv'
    constructor
    · rw [show ((valN A 0 :: drainMinimumAux stdLt f A' : List α) : Multiset α)
          = valN A 0 ::ₘ ((drainMinimumAux stdLt f A' : List α) : Multiset α) from
        (Multiset.cons_coe _ _).symm]
      rw [ihms, hms]
    · rw [List.sorted_cons]
      refine ⟨?_, ihsorted⟩
      intro b hb
      have hbm : b ∈ (A' : Multiset α) := by
        rw [← ihms]
        exact Multiset.mem_coe.mpr hb
      have hbA : b ∈ (A : Multiset α) := by
        rw [hms]
        exact Multiset.mem_cons_of_mem hbm
      exact findMinimum_min hinv b hbA

theorem drainMinimum_spec {α : Type} [LinearOrder α] [Inhabited α]
    {A : List α} (hinv : minMaxHeapInvariant A) :
    ((drainMinimum stdLt A : List α) : Multiset α) = (A : Multiset α) ∧
    List.Sorted (· ≤ ·) (drainMinimum stdLt A) :=
  drainMinimumAux_spec A.length A rfl hinv

/-- Floyd equivalence: bulk-build then drain is exactly the sorted
input sequence. -/
theorem drain_build_sorted {α : Type} [LinearOrder α] [Inhabited α]
    (S : List α) :
    drainMinimum stdLt (minMaxHeapOfSeq stdLt S) = S.insertionSort (· ≤ ·) := by
  obtain ⟨hinv, hlen, hms⟩ := minMaxHeapOfSeq_invariant S
  obtain ⟨hms2, hsorted⟩ := drainMinimum_spec hinv
  apply List.eq_of_perm_of_sorted ?_ hsorted (List.sorted_insertionSort (· ≤ ·) S)
  apply Multiset.coe_eq_coe.mp
  rw [hms2, hms]
  exact (Multiset.coe_eq_coe.mpr (List.perm_insertionSort (· ≤ ·) S)).symm

end MMH

namespace MMH

/-- A `k`-smallest selection of a multiset is unique as a multiset. -/
theorem selectsSmallest_unique {α : Type} [LinearOrder α] {k : ℕ}
    {s M1 M2 : Multiset α} (h1 : selectsSmallest k s M1)
    (h2 : selectsSmallest k s M2) : M1 = M2 := by
  obtain ⟨hle1, hcard1, hbd1⟩ := h1
  obtain ⟨hle2, hcard2, hbd2⟩ := h2
  by_contra hne
  have hcards : Multiset.card M1 = Multiset.card M2 := by rw [hcard1, hcard2]
  have hex1 : ∃ a, Multiset.count a M2 < Multiset.count a M1 := by
    by_contra hno
    push_neg at hno
    exact hne (Multiset.eq_of_le_of_card_le
      (Multiset.le_iff_count.mpr hno) (by omega))
  have hex2 : ∃ b, Multiset.count b M1 < Multiset.count b M2 := by
    by_contra hno
    push_neg at hno
    exact hne (Multiset.eq_of_le_of_card_le
      (Multiset.le_iff_count.mpr hno) (by omega)).symm
  obtain ⟨a, ha⟩ := hex1
  obtain ⟨b, hb⟩ := hex2
  have haM1 : a ∈ M1 := Multiset.count_pos.mp (by omega)
  have hbM2 : b ∈ M2 := Multiset.count_pos.mp (by omega)
  have hs1 : Multiset.count a M1 ≤ Multiset.count a s :=
    Multiset.le_iff_count.mp hle1 a
  have hs2 : Multiset.count b M2 ≤ Multiset.count b s :=
    Multiset.le_iff_count.mp hle2 b
  have haSub2 : a ∈ s - M2 := by
    rw [← Multiset.count_pos, Multiset.count_sub]
    omega
  have hbSub1 : b ∈ s - M1 := by
    rw [← Multiset.count_pos, Multiset.count_sub]
    omega
  have hab : a ≤ b := hbd1 a haM1 b hbSub1
  have hba : b ≤ a := hbd2 b hbM2 a haSub2
  have heq : a = b := le_antisymm hab hba
  rw [heq] at ha
  omega

/-- A `k`-largest selection of a multiset is unique as a multiset. -/
theorem selectsLargest_unique {α : Type} [LinearOrder α] {k : ℕ}
    {s M1 M2 : Multiset α} (h1 : selectsLargest k s M1)
    (h2 : selectsLargest k s M2) : M1 = M2 := by
  obtain ⟨hle1, hcard1, hbd1⟩ := h1
  obtain ⟨hle2, hcard2, hbd2⟩ := h2
  by_contra hne
  have hcards : Multiset.card M1 = Multiset.card M2 := by rw [hcard1, hcard2]
  have hex1 : ∃ a, Multiset.count a M2 < Multiset.count a M1 := by
    by_contra hno
    push_neg at hno
    exact hne (Multiset.eq_of_le_of_card_le
      (Multiset.le_iff_count.mpr hno) (by omega))
  have hex2 : ∃ b, Multiset.count b M1 < Multiset.count b M2 := by
    by_contra hno
    push_neg at hno
    exact hne (Multiset.eq_of_le_of_card_le
      (Multiset.le_iff_count.mpr hno) (by omega)).symm
  obtain ⟨a, ha⟩ := hex1
  obtain ⟨b, hb⟩ := hex2
  have haM1 : a ∈ M1 := Multiset.count_pos.mp (by omega)
  have hbM2 : b ∈ M2 := Multiset.count_pos.mp (by omega)
  have hs1 : Multiset.count a M1 ≤ Multiset.count a s :=
    Multiset.le_iff_count.mp hle1 a
  have hs2 : Multiset.count b M2 ≤ Multiset.count b s :=
    Multiset.le_iff_count.mp hle2 b
  have haSub2 : a ∈ s - M2 := by
    rw [← Multiset.count_pos, Multiset.count_sub]
    omega
  have hbSub1 : b ∈ s - M1 := by
    rw [← Multiset.count_pos, Multiset.count_sub]
    omega
  have hab : b ≤ a := hbd1 a haM1 b hbSub1
  have hba : a ≤ b := hbd2 b hbM2 a haSub2
  have heq : a = b := le_antisymm hba hab
  rw [heq] at ha
  omega

/-- Generic: taking `k` from a sorted permutation of `s` is a selection
w.r.t. the sorting relation. -/
theorem take_sorted_selects {α : Type} [LinearOrder α] (r : α → α → Prop)
    [DecidableRel r] (k : ℕ) (s l : List α) (hperm : List.Perm l s)
    (hsorted : List.Pairwise r l) :
    ((l.take k : List α) : Multiset α) ≤ (s : Multiset α) ∧
    Multiset.card ((l.take k : List α) : Multiset α)
      = min k (Multiset.card (s : Multiset α)) ∧
    ∀ a ∈ ((l.take k : List α) : Multiset α),
      ∀ b ∈ (s : Multiset α) - ((l.take k : List α) : Multiset α), r a b := by
  have hsplit : l.take k ++ l.drop k = l := List.take_append_drop k l
  have hpair : ∀ a ∈ l.take k, ∀ b ∈ l.drop k, r a b := by
    have h := List.pairwise_append.mp (by rw [hsplit]; exact hsorted)
    exact h.2.2
  have hcoe_l : ((l : List α) : Multiset α) =
      ((l.take k : List α) : Multiset α) + ((l.drop k : List α) : Multiset α) := by
    conv_lhs => rw [← hsplit]
    exact (Multiset.coe_add _ _).symm
  have hcoe_s : ((s : List α) : Multiset α) =
      ((l.take k : List α) : Multiset α) + ((l.drop k : List α) : Multiset α) := by
    rw [← hcoe_l]
    exact (Multiset.coe_eq_coe.mpr hperm).symm
  refine ⟨?_, ?_, ?_⟩
  · rw [hcoe_s]
    exact Multiset.le_add_right _ _
  · rw [Multiset.coe_card, List.length_take]
    rw [hcoe_s]
    simp only [Multiset.card_add, Multiset.coe_card, List.length_take,
      List.length_drop]
    have := hperm.length_eq
    omega
  · intro a ha b hb
    rw [hcoe_s, add_tsub_cancel_left] at hb
    exact hpair a (Multiset.mem_coe.mp ha) b (Multiset.mem_coe.mp hb)

/-- `kSmallest` is a `k`-smallest selection. -/
theorem kSmallest_selects {α : Type} [LinearOrder α] (k : ℕ) (s : List α) :
    selectsSmallest k (s : Multiset α) (kSmallest k s) := by
  unfold selectsSmallest kSmallest
  exact take_sorted_selects (· ≤ ·) k s (s.insertionSort (· ≤ ·))
    (List.perm_insertionSort (· ≤ ·) s)
    (List.sorted_insertionSort (· ≤ ·) s)

/-- `kLargest` is a `k`-largest selection. -/
theorem kLargest_selects {α : Type} [LinearOrder α] (k : ℕ) (s : List α) :
    selectsLargest k (s : Multiset α) (kLargest k s) := by
  unfold selectsLargest kLargest
  obtain ⟨h1, h2, h3⟩ := take_sorted_selects (fun lhs rhs => rhs ≤ lhs) k s
    (s.insertionSort (fun lhs rhs => rhs ≤ lhs))
    (List.perm_insertionSort (fun lhs rhs => rhs ≤ lhs) s)
    (List.sorted_insertionSort (fun lhs rhs => rhs ≤ lhs) s)
  exact ⟨h1, h2, h3⟩

end MMH

namespace FSPQ

open MMH

/-- One-step equation for a full MinKeep queue. -/
theorem emplaceQueue_minKeep_full {α : Type} [Inhabited α] (lt opLt : α → α → Bool)
    (K : ℕ) (A : List α) (x v : α) (hfull : ¬ A.length < K)
    (hfind : findMaximum lt A = Except.ok v) :
    emplaceQueue false lt opLt K A x =
      (if opLt x v = true then deleteMaximum lt (emplaceHeap lt A x)
       else Except.ok A) := by
  unfold emplaceQueue
  rw [if_neg hfull, if_neg Bool.false_ne_true, hfind]
  rfl

/-- MinKeep stream induction: the queue always holds a `K`-smallest
selection of everything inserted so far. -/
theorem minKeep_stream_spec {α : Type} [LinearOrder α] [Inhabited α] :
    ∀ (stream : List α) (K : ℕ) (A : List α) (processed : Multiset α),
      1 ≤ K →
      minMaxHeapInvariant A →
      A.length = min K (Multiset.card processed) →
      selectsSmallest K processed (A : Multiset α) →
      ∃ A', insertStream false stdLt stdLt K A stream = Except.ok A' ∧
        minMaxHeapInvariant A' ∧
        A'.length = min K (Multiset.card (processed + (stream : Multiset α))) ∧
        selectsSmallest K (processed + (stream : Multiset α)) (A' : Multiset α) := by
  intro stream
  induction stream with
  | nil =>
    intro K A processed hK hinv hlen hsel
    refine ⟨A, rfl, hinv, ?_, ?_⟩
    · simpa using hlen
    · simpa using hsel
  | cons x xs ih =>
    intro K A processed hK hinv hlen hsel
    have hstream_ms : (((x :: xs : List α) : List α) : Multiset α)
        = {x} + (xs : Multiset α) := by
      rw [← Multiset.cons_coe, ← Multiset.singleton_add]
    by_cases hlt : A.length < K
    · have hq : emplaceQueue false stdLt stdLt K A x
          = Except.ok (emplaceHeap stdLt A x) := by
        unfold emplaceQueue
        rw [if_pos hlt]
      have hchain : insertStream false stdLt stdLt K A (x :: xs)
          = insertStream false stdLt stdLt K (emplaceHeap stdLt A x) xs := by
        unfold insertStream
        rw [List.foldlM_cons, hq]
        rfl
      have hcard_proc : Multiset.card processed = A.length := by
        rcases le_or_lt K (Multiset.card processed) with h | h
        · rw [min_eq_left h] at hlen
          omega
        · rw [min_eq_right (le_of_lt h)] at hlen
          omega
      have hMeq : (A : Multiset α) = processed := by
        apply Multiset.eq_of_le_of_card_le hsel.1
        rw [Multiset.coe_card]
        omega
      have hinv' := emplaceHeap_invariant A x hinv
      have hlen' := length_emplaceHeap stdLt A x
      have hms' := multiset_emplaceHeap stdLt A x
      have hsel' : selectsSmallest K (processed + {x})
          ((emplaceHeap stdLt A x : List α) : Multiset α) := by
        rw [hms', hMeq]
        refine ⟨le_of_eq (by rw [← Multiset.singleton_add, add_comm]), ?_, ?_⟩
        · rw [Multiset.card_cons, Multiset.card_add, Multiset.card_singleton]
          rw [min_eq_right (by omega)]
        · intro a ha b hb
          exfalso
          rw [show processed + {x} = x ::ₘ processed from by
            rw [← Multiset.singleton_add, add_comm]] at hb
          simp at hb
      obtain ⟨A', hok, hi2, hi3, hi4⟩ := ih K (emplaceHeap stdLt A x)
        (processed + {x}) hK hinv'
        (by
          rw [hlen', Multiset.card_add, Multiset.card_singleton]
          rw [min_eq_right (by omega)]
          omega)
        hsel'
      rw [hchain]
      refine ⟨A', hok, hi2, ?_, ?_⟩
      · rw [hstream_ms, ← add_assoc]
        exact hi3
      · rw [hstream_ms, ← add_assoc]
        exact hi4
    · have hAlen : A.length = K := by
        rcases le_or_lt K (Multiset.card processed) with h | h
        · rw [min_eq_left h] at hlen
          exact hlen
        · rw [min_eq_right (le_of_lt h)] at hlen
          omega
      have hne : A ≠ [] := by
        intro he
        rw [he] at hAlen
        simp at hAlen
        omega
      have hKcard : K ≤ Multiset.card processed := by
        by_contra hno
        push_neg at hno
        rw [min_eq_right (le_of_lt hno)] at hlen
        omega
      obtain ⟨v, hfind, hvmem, hvmax⟩ := findMaximum_spec hinv hne
      have hq := emplaceQueue_minKeep_full stdLt stdLt K A x v hlt hfind
      by_cases hxv : stdLt x v = true
      · rw [if_pos hxv] at hq
        have hxv' : x < v := of_decide_eq_true hxv
        have hxne : x ≠ v := ne_of_lt hxv'
        have hinvB := emplaceHeap_invariant A x hinv
        have hlenB := length_emplaceHeap stdLt A x
        have hmsB := multiset_emplaceHeap stdLt A x
        have hneB : emplaceHeap stdLt A x ≠ [] := by
          intro he
          rw [he] at hlenB
          simp at hlenB
        obtain ⟨c, A'', hoffB, hcB, hmaxB, hdelB, hinvA'', hlenA'', hmsA''⟩ :=
          deleteMaximum_spec hinvB hneB
        rw [hdelB] at hq
        have hw_mem : valN (emplaceHeap stdLt A x) c
            ∈ ((emplaceHeap stdLt A x : List α) : Multiset α) := by
          rw [Multiset.mem_coe, valN_eq_getElem hcB]
          exact List.getElem_mem hcB
        have hw_max : ∀ y ∈ ((emplaceHeap stdLt A x : List α) : Multiset α),
            y ≤ valN (emplaceHeap stdLt A x) c := by
          intro y hy
          rw [Multiset.mem_coe] at hy
          obtain ⟨i, hi, heq⟩ := List.mem_iff_getElem.mp hy
          rw [← heq, ← valN_eq_getElem hi]
          exact hmaxB i hi
        have hweq : valN (emplaceHeap stdLt A x) c = v := by
          have h1 : v ≤ valN (emplaceHeap stdLt A x) c := by
            apply hw_max
            rw [hmsB]
            exact Multiset.mem_cons_of_mem hvmem
          have h2 : valN (emplaceHeap stdLt A x) c ∈ x ::ₘ (A : Multiset α) := by
            rw [← hmsB]
            exact hw_mem
          rcases Multiset.mem_cons.mp h2 with heq | hmem
          · exfalso
            rw [heq] at h1
            exact absurd (lt_of_lt_of_le hxv' h1) (lt_irrefl x)
          · exact le_antisymm (hvmax _ hmem) h1
        rw [hweq, hmsB] at hmsA''
        have hA''ms : (A'' : Multiset α) = (x ::ₘ (A : Multiset α)).erase v := by
          rw [hmsA'', Multiset.erase_cons_head]
        have hsel'' : selectsSmallest K (processed + {x}) (A'' : Multiset α) := by
          refine ⟨?_, ?_, ?_⟩
          · rw [hA''ms, Multiset.erase_cons_tail _ hxne,
              show processed + {x} = x ::ₘ processed from by
                rw [← Multiset.singleton_add, add_comm]]
            exact Multiset.cons_le_cons x
              (le_trans (Multiset.erase_le v _) hsel.1)
          · rw [hA''ms,
              Multiset.card_erase_of_mem (Multiset.mem_cons_of_mem hvmem),
              Multiset.card_cons, Multiset.card_add, Multiset.card_singleton,
              Nat.pred_succ, Multiset.coe_card]
            have hcard := hsel.2.1
            rw [min_eq_left hKcard, Multiset.coe_card] at hcard
            rw [min_eq_left (by omega)]
            omega
          · intro a hmem b hb
            rw [hA''ms] at hb
            rw [← Multiset.count_pos, Multiset.count_sub] at hb
            have hamem' : a ∈ x ::ₘ (A : Multiset α).erase v := by
              rw [hA''ms, Multiset.erase_cons_tail _ hxne] at hmem
              exact hmem
            by_cases hbv : b = v
            · rw [hbv]
              rcases Multiset.mem_cons.mp hamem' with heq | hamem
              · rw [heq]
                exact le_of_lt hxv'
              · exact hvmax a (Multiset.mem_of_mem_erase hamem)
            · rw [Multiset.count_erase_of_ne hbv] at hb
              have hb_s : b ∈ processed - (A : Multiset α) := by
                rw [← Multiset.count_pos, Multiset.count_sub]
                have e1 : Multiset.count b (processed + {x})
                    = Multiset.count b processed
                      + Multiset.count b ({x} : Multiset α) :=
                  Multiset.count_add b processed {x}
                have e2 : Multiset.count b (x ::ₘ (A : Multiset α))
                    = Multiset.count b (A : Multiset α)
                      + if b = x then 1 else 0 :=
                  Multiset.count_cons b x (A : Multiset α)
                have e3 : Multiset.count b ({x} : Multiset α)
                    = if b = x then 1 else 0 :=
                  Multiset.count_singleton b x
                rw [e1, e2, e3] at hb
                omega
              rcases Multiset.mem_cons.mp hamem' with heq | hamem
              · rw [heq]
                exact le_trans (le_of_lt hxv') (hsel.2.2 v hvmem b hb_s)
              · exact hsel.2.2 a (Multiset.mem_of_mem_erase hamem) b hb_s
        have hchain : insertStream false stdLt stdLt K A (x :: xs)
            = insertStream false stdLt stdLt K A'' xs := by
          unfold insertStream
          rw [List.foldlM_cons, hq]
          rfl
        obtain ⟨A3, hok, hi2, hi3, hi4⟩ := ih K A'' (processed + {x}) hK hinvA''
          (by
            rw [hlenA'', hlenB, hAlen, Multiset.card_add,
              Multiset.card_singleton, min_eq_left (by omega)]
            omega)
          hsel''
        rw [hchain]
        refine ⟨A3, hok, hi2, ?_, ?_⟩
        · rw [hstream_ms, ← add_assoc]
          exact hi3
        · rw [hstream_ms, ← add_assoc]
          exact hi4
      · rw [if_neg hxv] at hq
        have hvx : v ≤ x := le_of_not_lt (fun hlt2 => hxv (decide_eq_true hlt2))
        have hsel' : selectsSmallest K (processed + {x}) (A : Multiset α) := by
          obtain ⟨hle, hcard, hbd⟩ := hsel
          refine ⟨le_trans hle (Multiset.le_add_right _ _), ?_, ?_⟩
          · rw [Multiset.card_add, Multiset.card_singleton,
              min_eq_left (by omega)]
            rw [min_eq_left hKcard] at hcard
            exact hcard
          · intro a ha b hb
            by_cases hbx : b = x
            · rw [hbx]
              exact le_trans (hvmax a ha) hvx
            · apply hbd a ha b
              rw [← Multiset.count_pos, Multiset.count_sub] at hb ⊢
              rw [Multiset.count_add, Multiset.count_singleton,
                if_neg hbx] at hb
              omega
        have hchain : insertStream false stdLt stdLt K A (x :: xs)
            = insertStream false stdLt stdLt K A xs := by
          unfold insertStream
          rw [List.foldlM_cons, hq]
          rfl
        obtain ⟨A3, hok, hi2, hi3, hi4⟩ := ih K A (processed + {x}) hK hinv
          (by
            rw [hAlen, Multiset.card_add, Multiset.card_singleton,
              min_eq_left (by omega)])
          hsel'
        rw [hchain]
        refine ⟨A3, hok, hi2, ?_, ?_⟩
        · rw [hstream_ms, ← add_assoc]
          exact hi3
        · rw [hstream_ms, ← add_assoc]
          exact hi4

end FSPQ

namespace FSPQ

open MMH

/-- One-step equation for a full MaxKeep queue. -/
theorem emplaceQueue_maxKeep_full {α : Type} [Inhabited α] (lt opLt : α → α → Bool)
    (K : ℕ) (A : List α) (x v : α) (hfull : ¬ A.length < K)
    (hfind : findMinimum lt A = Except.ok v) :
    emplaceQueue true lt opLt K A x =
      (if composeGreaterThanFromLessThan lt x v = true
       then deleteMinimum lt (emplaceHeap lt A x)
       else Except.ok A) := by
  unfold emplaceQueue
  rw [if_neg hfull, if_pos rfl, hfind]
  rfl

/-- MaxKeep stream induction: the queue always holds a `K`-largest
selection of everything inserted so far. -/
theorem maxKeep_stream_spec {α : Type} [LinearOrder α] [Inhabited α] :
    ∀ (stream : List α) (K : ℕ) (A : List α) (processed : Multiset α),
      1 ≤ K →
      minMaxHeapInvariant A →
      A.length = min K (Multiset.card processed) →
      selectsLargest K processed (A : Multiset α) →
      ∃ A', insertStream true stdLt stdLt K A stream = Except.ok A' ∧
        minMaxHeapInvariant A' ∧
        A'.length = min K (Multiset.card (processed + (stream : Multiset α))) ∧
        selectsLargest K (processed + (stream : Multiset α)) (A' : Multiset α) := by
  intro stream
  induction stream with
  | nil =>
    intro K A processed hK hinv hlen hsel
    refine ⟨A, rfl, hinv, ?_, ?_⟩
    · simpa using hlen
    · simpa using hsel
  | cons x xs ih =>
    intro K A processed hK hinv hlen hsel
    have hstream_ms : (((x :: xs : List α) : List α) : Multiset α)
        = {x} + (xs : Multiset α) := by
      rw [← Multiset.cons_coe, ← Multiset.singleton_add]
    by_cases hlt : A.length < K
    · have hq : emplaceQueue true stdLt stdLt K A x
          = Except.ok (emplaceHeap stdLt A x) := by
        unfold emplaceQueue
        rw [if_pos hlt]
      have hchain : insertStream true stdLt stdLt K A (x :: xs)
          = insertStream true stdLt stdLt K (emplaceHeap stdLt A x) xs := by
        unfold insertStream
        rw [List.foldlM_cons, hq]
        rfl
      have hcard_proc : Multiset.card processed = A.length := by
        rcases le_or_lt K (Multiset.card processed) with h | h
        · rw [min_eq_left h] at hlen
          omega
        · rw [min_eq_right (le_of_lt h)] at hlen
          omega
      have hMeq : (A : Multiset α) = processed := by
        apply Multiset.eq_of_le_of_card_le hsel.1
        rw [Multiset.coe_card]
        omega
      have hinv' := emplaceHeap_invariant A x hinv
      have hlen' := length_emplaceHeap stdLt A x
      have hms' := multiset_emplaceHeap stdLt A x
      have hsel' : selectsLargest K (processed + {x})
          ((emplaceHeap stdLt A x : List α) : Multiset α) := by
        rw [hms', hMeq]
        refine ⟨le_of_eq (by rw [← Multiset.singleton_add, add_comm]), ?_, ?_⟩
        · rw [Multiset.card_cons, Multiset.card_add, Multiset.card_singleton]
          rw [min_eq_right (by omega)]
        · intro a ha b hb
          exfalso
          rw [show processed + {x} = x ::ₘ processed from by
            rw [← Multiset.singleton_add, add_comm]] at hb
          simp at hb
      obtain ⟨A', hok, hi2, hi3, hi4⟩ := ih K (emplaceHeap stdLt A x)
        (processed + {x}) hK hinv'
        (by
          rw [hlen', Multiset.card_add, Multiset.card_singleton]
          rw [min_eq_right (by omega)]
          omega)
        hsel'
      rw [hchain]
      refine ⟨A', hok, hi2, ?_, ?_⟩
      · rw [hstream_ms, ← add_assoc]
        exact hi3
      · rw [hstream_ms, ← add_assoc]
        exact hi4
    · have hAlen : A.length = K := by
        rcases le_or_lt K (Multiset.card processed) with h | h
        · rw [min_eq_left h] at hlen
          exact hlen
        · rw [min_eq_right (le_of_lt h)] at hlen
          omega
      have hne : A ≠ [] := by
        intro he
        rw [he] at hAlen
        simp at hAlen
        omega
      have hKcard : K ≤ Multiset.card processed := by
        by_contra hno
        push_neg at hno
        rw [min_eq_right (le_of_lt hno)] at hlen
        omega
      have hfind := findMinimum_spec stdLt A hne
      have hvmin := findMinimum_min hinv
      have hvmem : valN A 0 ∈ (A : Multiset α) := by
        rw [Multiset.mem_coe, valN_eq_getElem (List.length_pos.mpr hne)]
        exact List.getElem_mem (List.length_pos.mpr hne)
      have hq := emplaceQueue_maxKeep_full stdLt stdLt K A x (valN A 0) hlt hfind
      by_cases hxv : composeGreaterThanFromLessThan stdLt x (valN A 0) = true
      · rw [if_pos hxv] at hq
        have hxv' : valN A 0 < x := of_decide_eq_true hxv
        have hxne : x ≠ valN A 0 := (ne_of_lt hxv').symm
        have hinvB := emplaceHeap_invariant A x hinv
        have hlenB := length_emplaceHeap stdLt A x
        have hmsB := multiset_emplaceHeap stdLt A x
        have hneB : emplaceHeap stdLt A x ≠ [] := by
          intro he
          rw [he] at hlenB
          simp at hlenB
        obtain ⟨A'', hdelB, hinvA'', hlenA'', hmsA''⟩ :=
          deleteMinimum_spec hinvB hneB
        rw [hdelB] at hq
        have hw_mem : valN (emplaceHeap stdLt A x) 0
            ∈ ((emplaceHeap stdLt A x : List α) : Multiset α) := by
          rw [Multiset.mem_coe,
            valN_eq_getElem (List.length_pos.mpr hneB)]
          exact List.getElem_mem (List.length_pos.mpr hneB)
        have hw_min : ∀ y ∈ ((emplaceHeap stdLt A x : List α) : Multiset α),
            valN (emplaceHeap stdLt A x) 0 ≤ y := findMinimum_min hinvB
        have hweq : valN (emplaceHeap stdLt A x) 0 = valN A 0 := by
          have h1 : valN (emplaceHeap stdLt A x) 0 ≤ valN A 0 := by
            apply hw_min
            rw [hmsB]
            exact Multiset.mem_cons_of_mem hvmem
          have h2 : valN (emplaceHeap stdLt A x) 0 ∈ x ::ₘ (A : Multiset α) := by
            rw [← hmsB]
            exact hw_mem
          rcases Multiset.mem_cons.mp h2 with heq | hmem
          · exfalso
            rw [heq] at h1
            exact absurd (lt_of_lt_of_le hxv' h1) (lt_irrefl _)
          · exact le_antisymm h1 (hvmin _ hmem)
        rw [hweq, hmsB] at hmsA''
        have hA''ms : (A'' : Multiset α)
            = (x ::ₘ (A : Multiset α)).erase (valN A 0) := by
          rw [hmsA'', Multiset.erase_cons_head]
        have hsel'' : selectsLargest K (processed + {x}) (A'' : Multiset α) := by
          refine ⟨?_, ?_, ?_⟩
          · rw [hA''ms, Multiset.erase_cons_tail _ hxne,
              show processed + {x} = x ::ₘ processed from by
                rw [← Multiset.singleton_add, add_comm]]
            exact Multiset.cons_le_cons x
              (le_trans (Multiset.erase_le _ _) hsel.1)
          · rw [hA''ms,
              Multiset.card_erase_of_mem (Multiset.mem_cons_of_mem hvmem),
              Multiset.card_cons, Multiset.card_add, Multiset.card_singleton,
              Nat.pred_succ, Multiset.coe_card]
            have hcard := hsel.2.1
            rw [min_eq_left hKcard, Multiset.coe_card] at hcard
            rw [min_eq_left (by omega)]
            omega
          · intro a hmem b hb
            rw [hA''ms] at hb
            rw [← Multiset.count_pos, Multiset.count_sub] at hb
            have hamem' : a ∈ x ::ₘ (A : Multiset α).erase (valN A 0) := by
              rw [hA''ms, Multiset.erase_cons_tail _ hxne] at hmem
              exact hmem
            by_cases hbv : b = valN A 0
            · rw [hbv]
              rcases Multiset.mem_cons.mp hamem' with heq | hamem
              · rw [heq]
                exact le_of_lt hxv'
              · exact hvmin a (Multiset.mem_of_mem_erase hamem)
            · rw [Multiset.count_erase_of_ne hbv] at hb
              have hb_s : b ∈ processed - (A : Multiset α) := by
                rw [← Multiset.count_pos, Multiset.count_sub]
                have e1 : Multiset.count b (processed + {x})
                    = Multiset.count b processed
                      + Multiset.count b ({x} : Multiset α) :=
                  Multiset.count_add b processed {x}
                have e2 : Multiset.count b (x ::ₘ (A : Multiset α))
                    = Multiset.count b (A : Multiset α)
                      + if b = x then 1 else 0 :=
                  Multiset.count_cons b x (A : Multiset α)
                have e3 : Multiset.count b ({x} : Multiset α)
                    = if b = x then 1 else 0 :=
                  Multiset.count_singleton b x
                rw [e1, e2, e3] at hb
                omega
              rcases Multiset.mem_cons.mp hamem' with heq | hamem
              · rw [heq]
                exact le_trans (hsel.2.2 (valN A 0) hvmem b hb_s) (le_of_lt hxv')
              · exact hsel.2.2 a (Multiset.mem_of_mem_erase hamem) b hb_s
        have hchain : insertStream true stdLt stdLt K A (x :: xs)
            = insertStream true stdLt stdLt K A'' xs := by
          unfold insertStream
          rw [List.foldlM_cons, hq]
          rfl
        obtain ⟨A3, hok, hi2, hi3, hi4⟩ := ih K A'' (processed + {x}) hK hinvA''
          (by
            rw [hlenA'', hlenB, hAlen, Multiset.card_add,
              Multiset.card_singleton, min_eq_left (by omega)]
            omega)
          hsel''
        rw [hchain]
        refine ⟨A3, hok, hi2, ?_, ?_⟩
        · rw [hstream_ms, ← add_assoc]
          exact hi3
        · rw [hstream_ms, ← add_assoc]
          exact hi4
      · rw [if_neg hxv] at hq
        have hvx : x ≤ valN A 0 :=
          le_of_not_lt (fun hlt2 => hxv (decide_eq_true hlt2))
        have hsel' : selectsLargest K (processed + {x}) (A : Multiset α) := by
          obtain ⟨hle, hcard, hbd⟩ := hsel
          refine ⟨le_trans hle (Multiset.le_add_right _ _), ?_, ?_⟩
          · rw [Multiset.card_add, Multiset.card_singleton,
              min_eq_left (by omega)]
            rw [min_eq_left hKcard] at hcard
            exact hcard
          · intro a ha b hb
            by_cases hbx : b = x
            · rw [hbx]
              exact le_trans hvx (hvmin a ha)
            · apply hbd a ha b
              rw [← Multiset.count_pos, Multiset.count_sub] at hb ⊢
              rw [Multiset.count_add, Multiset.count_singleton,
                if_neg hbx] at hb
              omega
        have hchain : insertStream true stdLt stdLt K A (x :: xs)
            = insertStream true stdLt stdLt K A xs := by
          unfold insertStream
          rw [List.foldlM_cons, hq]
          rfl
        obtain ⟨A3, hok, hi2, hi3, hi4⟩ := ih K A (processed + {x}) hK hinv
          (by
            rw [hAlen, Multiset.card_add, Multiset.card_singleton,
              min_eq_left (by omega)])
          hsel'
        rw [hchain]
        refine ⟨A3, hok, hi2, ?_, ?_⟩
        · rw [hstream_ms, ← add_assoc]
          exact hi3
        · rw [hstream_ms, ← add_assoc]
          exact hi4

end FSPQ

namespace LSQ

open MMH

/-- `std::min_element` via `minElementIndex`: a valid index holding a
minimal value. -/
theorem minElementIndex_spec {α : Type} [LinearOrder α] [Inhabited α] :
    ∀ (c : List α), c ≠ [] →
      minElementIndex c < c.length ∧
      ∀ y ∈ c, valN c (minElementIndex c) ≤ y := by
  intro c
  induction c with
  | nil => intro h; exact absurd rfl h
  | cons x xs ih =>
    intro _
    match xs, ih with
    | [], _ =>
      refine ⟨by simp [minElementIndex], ?_⟩
      intro y hy
      rw [List.mem_singleton.mp hy]
      exact le_refl _
    | z :: zs, ih =>
      obtain ⟨ihlt, ihmin⟩ := ih (by simp)
      have hred : minElementIndex (x :: z :: zs)
          = if decide ((z :: zs).getD (minElementIndex (z :: zs)) default < x) = true
            then minElementIndex (z :: zs) + 1 else 0 := rfl
      rw [hred]
      by_cases hcond : decide ((z :: zs).getD (minElementIndex (z :: zs)) default < x) = true
      · rw [if_pos hcond]
        have hlt : valN (z :: zs) (minElementIndex (z :: zs)) < x :=
          of_decide_eq_true hcond
        constructor
        · simp only [List.length_cons] at ihlt ⊢
          omega
        · intro y hy
          have hval : valN (x :: z :: zs) (minElementIndex (z :: zs) + 1)
              = valN (z :: zs) (minElementIndex (z :: zs)) := rfl
          rw [hval]
          rcases List.mem_cons.mp hy with heq | hmem
          · rw [heq]
            exact le_of_lt hlt
          · exact ihmin y hmem
      · rw [if_neg hcond]
        have hge : x ≤ valN (z :: zs) (minElementIndex (z :: zs)) :=
          le_of_not_lt (fun h2 => hcond (decide_eq_true h2))
        constructor
        · simp
        · intro y hy
          have hval : valN (x :: z :: zs) 0 = x := rfl
          rw [hval]
          rcases List.mem_cons.mp hy with heq | hmem
          · rw [heq]
          · exact le_trans hge (ihmin y hmem)

end LSQ

namespace LSQ

open MMH

/-- Linear-scan stream induction: the container always holds a
`K`-largest selection of everything pushed so far. -/
theorem lsq_stream_spec {α : Type} [LinearOrder α] [Inhabited α] :
    ∀ (stream : List α) (K : ℕ) (c : List α) (processed : Multiset α),
      1 ≤ K →
      c.length = min K (Multiset.card processed) →
      selectsLargest K processed (c : Multiset α) →
      (pushStream K c stream).length
        = min K (Multiset.card (processed + (stream : Multiset α))) ∧
      selectsLargest K (processed + (stream : Multiset α))
        ((pushStream K c stream : List α) : Multiset α) := by
  intro stream
  induction stream with
  | nil =>
    intro K c processed hK hlen hsel
    constructor
    · simpa using hlen
    · simpa using hsel
  | cons x xs ih =>
    intro K c processed hK hlen hsel
    have hstream_ms : (((x :: xs : List α) : List α) : Multiset α)
        = {x} + (xs : Multiset α) := by
      rw [← Multiset.cons_coe, ← Multiset.singleton_add]
    have hchain : pushStream K c (x :: xs) = pushStream K (push K c x) xs := rfl
    rw [hchain, hstream_ms, ← add_assoc]
    by_cases hfull : c.length = K
    · have hne : c ≠ [] := by
        intro he
        rw [he] at hfull
        simp at hfull
        omega
      have hKcard : K ≤ Multiset.card processed := by
        by_contra hno
        push_neg at hno
        rw [min_eq_right (le_of_lt hno)] at hlen
        omega
      obtain ⟨hidx, hmin⟩ := minElementIndex_spec c hne
      have hminM : ∀ y ∈ (c : Multiset α), valN c (minElementIndex c) ≤ y :=
        fun y hy => hmin y (Multiset.mem_coe.mp hy)
      have hm_mem : valN c (minElementIndex c) ∈ (c : Multiset α) := by
        rw [Multiset.mem_coe, valN_eq_getElem hidx]
        exact List.getElem_mem hidx
      by_cases hcond : decide (c.getD (minElementIndex c) default < x) = true
      · have hpush : push K c x = c.set (minElementIndex c) x := by
          unfold push
          rw [if_pos hfull, if_pos hcond]
        have hxv' : valN c (minElementIndex c) < x := of_decide_eq_true hcond
        have hxne : x ≠ valN c (minElementIndex c) := (ne_of_lt hxv').symm
        have hms := multiset_set hidx x
        have hM' : ((c.set (minElementIndex c) x : List α) : Multiset α)
            = x ::ₘ ((c : Multiset α).erase (valN c (minElementIndex c))) := by
          apply add_right_cancel
            (b := ({valN c (minElementIndex c)} : Multiset α))
          rw [hms, ← Multiset.singleton_add, add_assoc,
            add_comm ((c : Multiset α).erase (valN c (minElementIndex c)))
              ({valN c (minElementIndex c)} : Multiset α),
            Multiset.singleton_add, Multiset.singleton_add,
            Multiset.cons_erase hm_mem, ← Multiset.singleton_add]
          exact add_comm _ _
        have hlen' : (push K c x).length = min K (Multiset.card (processed + {x})) := by
          rw [hpush, List.length_set, hfull, Multiset.card_add,
            Multiset.card_singleton, min_eq_left (by omega)]
        have hsel' : selectsLargest K (processed + {x})
            ((push K c x : List α) : Multiset α) := by
          rw [hpush, hM']
          refine ⟨?_, ?_, ?_⟩
          · rw [show processed + {x} = x ::ₘ processed from by
              rw [← Multiset.singleton_add, add_comm]]
            exact Multiset.cons_le_cons x
              (le_trans (Multiset.erase_le _ _) hsel.1)
          · rw [Multiset.card_cons, Multiset.card_erase_of_mem hm_mem,
              Multiset.coe_card, Multiset.card_add, Multiset.card_singleton,
              min_eq_left (by omega), hfull]
            exact Nat.succ_pred_eq_of_pos (by omega)
          · intro a hmem b hb
            rw [← Multiset.count_pos, Multiset.count_sub] at hb
            by_cases hbv : b = valN c (minElementIndex c)
            · rw [hbv]
              rcases Multiset.mem_cons.mp hmem with heq | hamem
              · rw [heq]
                exact le_of_lt hxv'
              · exact hminM a (Multiset.mem_of_mem_erase hamem)
            · rw [Multiset.count_cons, Multiset.count_erase_of_ne hbv] at hb
              have hb_s : b ∈ processed - (c : Multiset α) := by
                rw [← Multiset.count_pos, Multiset.count_sub]
                have e1 : Multiset.count b (processed + {x})
                    = Multiset.count b processed
                      + Multiset.count b ({x} : Multiset α) :=
                  Multiset.count_add b processed {x}
                have e3 : Multiset.count b ({x} : Multiset α)
                    = if b = x then 1 else 0 :=
                  Multiset.count_singleton b x
                rw [e1, e3] at hb
                omega
              rcases Multiset.mem_cons.mp hmem with heq | hamem
              · rw [heq]
                exact le_trans
                  (hsel.2.2 (valN c (minElementIndex c)) hm_mem b hb_s)
                  (le_of_lt hxv')
              · exact hsel.2.2 a (Multiset.mem_of_mem_erase hamem) b hb_s
        exact ih K (push K c x) (processed + {x}) hK hlen' hsel'
      · have hpush : push K c x = c := by
          unfold push
          rw [if_pos hfull, if_neg hcond]
        have hvx : x ≤ valN c (minElementIndex c) :=
          le_of_not_lt (fun h2 => hcond (decide_eq_true h2))
        have hlen' : (push K c x).length = min K (Multiset.card (processed + {x})) := by
          rw [hpush, hfull, Multiset.card_add, Multiset.card_singleton,
            min_eq_left (by omega)]
        have hsel' : selectsLargest K (processed + {x})
            ((push K c x : List α) : Multiset α) := by
          rw [hpush]
          obtain ⟨hle, hcard, hbd⟩ := hsel
          refine ⟨le_trans hle (Multiset.le_add_right _ _), ?_, ?_⟩
          · rw [Multiset.card_add, Multiset.card_singleton,
              min_eq_left (by omega)]
            rw [min_eq_left hKcard] at hcard
            exact hcard
          · intro a ha b hb
            by_cases hbx : b = x
            · rw [hbx]
              exact le_trans hvx (hminM a ha)
            · apply hbd a ha b
              rw [← Multiset.count_pos, Multiset.count_sub] at hb ⊢
              rw [Multiset.count_add, Multiset.count_singleton,
                if_neg hbx] at hb
              omega
        exact ih K (push K c x) (processed + {x}) hK hlen' hsel'
    · have hlt : c.length < K := by
        rcases le_or_lt K (Multiset.card processed) with h | h
        · rw [min_eq_left h] at hlen
          omega
        · rw [min_eq_right (le_of_lt h)] at hlen
          omega
      have hcard_proc : Multiset.card processed = c.length := by
        rcases le_or_lt K (Multiset.card processed) with h | h
        · rw [min_eq_left h] at hlen
          omega
        · rw [min_eq_right (le_of_lt h)] at hlen
          omega
      have hMeq : (c : Multiset α) = processed := by
        apply Multiset.eq_of_le_of_card_le hsel.1
        rw [Multiset.coe_card]
        omega
      have hpush : push K c x = c ++ [x] := by
        unfold push
        rw [if_neg hfull]
      have happ : ((c ++ [x] : List α) : Multiset α) = x ::ₘ (c : Multiset α) :=
        Quot.sound (List.perm_append_singleton x c)
      have hlen' : (push K c x).length = min K (Multiset.card (processed + {x})) := by
        rw [hpush, List.length_append, Multiset.card_add,
          Multiset.card_singleton, min_eq_right (by omega)]
        simp only [List.length_singleton]
        omega
      have hsel' : selectsLargest K (processed + {x})
          ((push K c x : List α) : Multiset α) := by
        rw [hpush, happ, hMeq]
        refine ⟨le_of_eq (by rw [← Multiset.singleton_add, add_comm]), ?_, ?_⟩
        · rw [Multiset.card_cons, Multiset.card_add, Multiset.card_singleton]
          rw [min_eq_right (by omega)]
        · intro a ha b hb
          exfalso
          rw [show processed + {x} = x ::ₘ processed from by
            rw [← Multiset.singleton_add, add_comm]] at hb
          simp at hb
      exact ih K (push K c x) (processed + {x}) hK hlen' hsel'

end LSQ

namespace MMH

/-- C4: every reachable state of a `MinMaxHeap` — empty or bulk
construction followed by any sequence of successful `Emplace`,
`DeleteMinimum`, `DeleteMaximum` calls — satisfies the min-max ordering
invariant: every node on an even (min) level is `≤` all of its
descendants and every node on an odd (max) level is `≥` all of its
descendants.  (The completeness invariant — a contiguous array with no
holes — is inherent to the list model of the backing `std::vector`.) -/
theorem C4_reachable_states_satisfy_invariant {α : Type} [LinearOrder α]
    [Inhabited α] {A : List α} (h : Reachable stdLt A) :
    minMaxHeapInvariant A :=
  reachable_invariant h

/-- C4 witness: a bulk-constructed state is reachable and satisfies the
invariant. -/
theorem C4_reachable_states_satisfy_invariant_witness :
    Reachable stdLt (minMaxHeapOfSeq stdLt ([3, 1, 4, 1, 5, 9, 2, 6] : List ℤ)) ∧
    minMaxHeapInvariant (minMaxHeapOfSeq stdLt ([3, 1, 4, 1, 5, 9, 2, 6] : List ℤ)) :=
  ⟨Reachable.ofSeq _,
   C4_reachable_states_satisfy_invariant (Reachable.ofSeq _)⟩

/-- C5: for every sequence `S`, bulk construction (copy then bottom-up
Floyd heapify) followed by repeatedly taking find-min then delete-min
until empty yields exactly the non-decreasing sort of `S` — a sorted
sequence whose contents are the multiset of `S`. -/
theorem C5_floyd_build_drain_equals_sorted {α : Type} [LinearOrder α]
    [Inhabited α] (S : List α) :
    drainMinimum stdLt (minMaxHeapOfSeq stdLt S) = S.insertionSort (· ≤ ·) ∧
    List.Sorted (· ≤ ·) (drainMinimum stdLt (minMaxHeapOfSeq stdLt S)) ∧
    ((drainMinimum stdLt (minMaxHeapOfSeq stdLt S) : List α) : Multiset α)
      = (S : Multiset α) := by
  obtain ⟨hinv, hlen, hms⟩ := minMaxHeapOfSeq_invariant S
  obtain ⟨hms2, hsorted⟩ := drainMinimum_spec hinv
  exact ⟨drain_build_sorted S, hsorted, by rw [hms2, hms]⟩

end MMH

namespace MMH

/-- C1: for the bounded queue under MinKeep with capacity `K ≥ 1` (and
the element type's standard order, where the source's built-in `<`
guard and the heap's comparator agree), inserting any stream leaves
exactly the multiset of the `K` smallest stream elements (all of them
when the stream is shorter); in particular for `K = 5` and the stream
`[2,3,1,5,5,6,2,3,1,9]` the final contents are `{1,1,2,2,3}`. -/
theorem C1_min_keep_retains_k_smallest :
    (∀ (α : Type) [LinearOrder α] [Inhabited α] (K : ℕ) (stream : List α),
      1 ≤ K →
      ∃ A', FSPQ.insertStream false stdLt stdLt K ([] : List α) stream
          = Except.ok A' ∧
        (A' : Multiset α) = kSmallest K stream) ∧
    FSPQ.insertStream false stdLt stdLt 5 ([] : List ℤ)
      [2, 3, 1, 5, 5, 6, 2, 3, 1, 9] = Except.ok [1, 2, 3, 1, 2] ∧
    (([1, 2, 3, 1, 2] : List ℤ) : Multiset ℤ) = ({1, 1, 2, 2, 3} : Multiset ℤ) := by
  refine ⟨?_, by decide, by decide⟩
  intro α _ _ K stream hK
  obtain ⟨A', hok, hinv, hlen, hsel⟩ := FSPQ.minKeep_stream_spec stream K [] 0 hK
    (by intro i j hij hj; simp at hj)
    (by simp)
    ⟨by simp, by simp, by intro a ha; simp at ha⟩
  refine ⟨A', hok, ?_⟩
  rw [zero_add] at hsel
  exact selectsSmallest_unique hsel (kSmallest_selects K stream)

/-- C1 witness: the general statement applied at the claim's concrete
scenario. -/
theorem C1_min_keep_retains_k_smallest_witness :
    (1 : ℕ) ≤ 5 ∧
    (∃ A', FSPQ.insertStream false stdLt stdLt 5 ([] : List ℤ)
        [2, 3, 1, 5, 5, 6, 2, 3, 1, 9] = Except.ok A' ∧
      (A' : Multiset ℤ) = kSmallest 5 [2, 3, 1, 5, 5, 6, 2, 3, 1, 9]) ∧
    kSmallest 5 [2, 3, 1, 5, 5, 6, 2, 3, 1, 9] = ({1, 1, 2, 2, 3} : Multiset ℤ) :=
  ⟨by decide,
   C1_min_keep_retains_k_smallest.1 ℤ 5 [2, 3, 1, 5, 5, 6, 2, 3, 1, 9] (by decide),
   by decide⟩

/-- C9: the alternate linear-scan container (`fixed_size_priority_queue`
with `max_size = K ≥ 1`), after pushing a stream of pairwise-distinct
values, holds exactly the `K` largest values of the stream (all of them
when the stream has at most `K` values), and its retained contents
coincide (as a multiset) with the MaxKeep bounded queue's on the same
stream. -/
theorem C9_linear_scan_equals_max_keep :
    ∀ (α : Type) [LinearOrder α] [Inhabited α] (K : ℕ) (stream : List α),
      1 ≤ K → stream.Nodup →
      ((LSQ.pushStream K ([] : List α) stream : List α) : Multiset α)
          = kLargest K stream ∧
      ∃ A', FSPQ.insertStream true stdLt stdLt K ([] : List α) stream
          = Except.ok A' ∧
        (A' : Multiset α)
          = ((LSQ.pushStream K ([] : List α) stream : List α) : Multiset α) := by
  intro α _ _ K stream hK _
  obtain ⟨hlenL, hselL⟩ := LSQ.lsq_stream_spec stream K [] 0 hK (by simp)
    ⟨by simp, by simp, by intro a ha; simp at ha⟩
  obtain ⟨A', hok, hinv, hlen, hsel⟩ := FSPQ.maxKeep_stream_spec stream K [] 0 hK
    (by intro i j hij hj; simp at hj)
    (by simp)
    ⟨by simp, by simp, by intro a ha; simp at ha⟩
  rw [zero_add] at hselL hsel
  have h1 : ((LSQ.pushStream K ([] : List α) stream : List α) : Multiset α)
      = kLargest K stream :=
    selectsLargest_unique hselL (kLargest_selects K stream)
  refine ⟨h1, A', hok, ?_⟩
  rw [h1]
  exact selectsLargest_unique hsel (kLargest_selects K stream)

/-- C9 witness: the statement applied to a concrete distinct-valued
stream with `K = 3`. -/
theorem C9_linear_scan_equals_max_keep_witness :
    (1 : ℕ) ≤ 3 ∧ ([3, 1, 4, 5, 9, 2, 6] : List ℤ).Nodup ∧
    (((LSQ.pushStream 3 ([] : List ℤ) [3, 1, 4, 5, 9, 2, 6] : List ℤ) : Multiset ℤ)
        = kLargest 3 [3, 1, 4, 5, 9, 2, 6] ∧
      ∃ A', FSPQ.insertStream true stdLt stdLt 3 ([] : List ℤ)
          [3, 1, 4, 5, 9, 2, 6] = Except.ok A' ∧
        (A' : Multiset ℤ)
          = ((LSQ.pushStream 3 ([] : List ℤ) [3, 1, 4, 5, 9, 2, 6] : List ℤ)
              : Multiset ℤ)) :=
  ⟨by decide, by decide,
   C9_linear_scan_equals_max_keep ℤ 3 [3, 1, 4, 5, 9, 2, 6] (by decide) (by decide)⟩

end MMH

namespace MMH

/-- C8 counterexample: the claim says that when the scanned extremum
lies at a grandchild `m` with `A[m]` not less than `A[r]`, trickle-down
stops "leaving the entire array unchanged".  The source (lines 441–445)
recurses on `m` unconditionally, so a deeper violation is still
repaired: on `[0,5,6,1,7,8,9,0]` with `r = 0` (a min level) the scan
finds the grandchild `m = 3` with `A[3] = 1 ≥ A[0] = 0`, no swap
happens at the root, yet the recursion at `3` swaps in its child `7`
and the array changes. -/
theorem C8_no_swap_still_recurses_counterexample :
    isMinimumLevel ([0, 5, 6, 1, 7, 8, 9, 0] : List ℤ) 0 = true ∧
    findExtremumDescendantOffset stdLt false ([0, 5, 6, 1, 7, 8, 9, 0] : List ℤ) 0 = 3 ∧
    getGrandParentOffset 3 = 0 ∧
    stdLt (getValue ([0, 5, 6, 1, 7, 8, 9, 0] : List ℤ) 3)
      (getValue ([0, 5, 6, 1, 7, 8, 9, 0] : List ℤ) 0) = false ∧
    trickleDownImplementation stdLt LevelOrderingType.Minimum
      ([0, 5, 6, 1, 7, 8, 9, 0] : List ℤ) 0 = [0, 5, 6, 0, 7, 8, 9, 1] ∧
    ([0, 5, 6, 0, 7, 8, 9, 1] : List ℤ) ≠ [0, 5, 6, 1, 7, 8, 9, 0] := by
  refine ⟨by decide, by decide, by decide, by decide, by decide, by decide⟩

/-- C8 (amended): on an invariant-satisfying heap state, when the
extremum among the existing children and grandchildren of a min-level
root `r` is a grandchild `m` and `A[m]` is not less than `A[r]`, the
min trickle-down performs no swap — and although the source still
recurses on `m` (it does not stop there), the recursion meets an
already-ordered sub-tree at every step, so the array is returned
unchanged. -/
theorem C8_grandchild_no_swap_is_identity {α : Type} [LinearOrder α]
    [Inhabited α] (A : List α) (r m : ℕ) (hinv : minMaxHeapInvariant A)
    (hminLvl : minLvl r)
    (hm : findExtremumDescendantOffset stdLt false A (r : ℤ) = (m : ℤ))
    (hgc : getGrandParentOffset (m : ℤ) = (r : ℤ))
    (hnl : ¬ (stdLt (valN A m) (valN A r) = true)) :
    trickleDownImplementation stdLt LevelOrderingType.Minimum A (r : ℤ) = A := by
  have hdec : (decide (LevelOrderingType.Minimum = LevelOrderingType.Maximum))
      = false := by decide
  have hroot_m : valN A r ≤ valN A m :=
    le_of_not_lt (fun h2 => hnl (decide_eq_true h2))
  have hbelow : belowOrderedRel (· ≤ ·) (decide (minLvl r)) A r := by
    intro i j hri hir hij hj
    rw [decide_eq_true hminLvl]
    exact (pairOrderedRel_true_iff A i j).mpr (hinv i j hij hj)
  have hext := findExtremum_le_subtree stdLt
    (decide (LevelOrderingType.Minimum = LevelOrderingType.Maximum)) (· ≤ ·)
    lessThan_min_iff le_total (fun a b c h1 h2 => le_trans h1 h2) A r hbelow
  rw [hdec, hm] at hext
  have hsub : subtreeOrderedRel (· ≤ ·) (decide (minLvl r)) A r := by
    apply td_root_ordered (· ≤ ·) (fun x => le_refl x) A r hbelow
    intro j hdj hne hj
    refine le_trans hroot_m ?_
    have h := hext j hdj hne hj
    rw [show getValue A ((m : ℕ) : ℤ) = valN A m from rfl] at h
    exact h
  exact trickleDown_noop stdLt LevelOrderingType.Minimum (· ≤ ·)
    lessThan_min_iff (A.length + 1) A r hsub

/-- C8 witness: a concrete invariant heap where the extremum is the
grandchild `3`, no swap fires, and the array is unchanged. -/
theorem C8_grandchild_no_swap_is_identity_witness :
    minMaxHeapInvariant (minMaxHeapOfSeq stdLt ([1, 9, 8, 2, 3, 4, 5] : List ℤ)) ∧
    minLvl 0 ∧
    findExtremumDescendantOffset stdLt false
      (minMaxHeapOfSeq stdLt ([1, 9, 8, 2, 3, 4, 5] : List ℤ)) ((0 : ℕ) : ℤ)
      = ((3 : ℕ) : ℤ) ∧
    getGrandParentOffset ((3 : ℕ) : ℤ) = ((0 : ℕ) : ℤ) ∧
    ¬ (stdLt (valN (minMaxHeapOfSeq stdLt ([1, 9, 8, 2, 3, 4, 5] : List ℤ)) 3)
        (valN (minMaxHeapOfSeq stdLt ([1, 9, 8, 2, 3, 4, 5] : List ℤ)) 0) = true) ∧
    trickleDownImplementation stdLt LevelOrderingType.Minimum
      (minMaxHeapOfSeq stdLt ([1, 9, 8, 2, 3, 4, 5] : List ℤ)) ((0 : ℕ) : ℤ)
      = minMaxHeapOfSeq stdLt ([1, 9, 8, 2, 3, 4, 5] : List ℤ) :=
  ⟨(minMaxHeapOfSeq_invariant _).1, minLvl_zero, by decide, by decide, by decide,
   C8_grandchild_no_swap_is_identity _ 0 3 (minMaxHeapOfSeq_invariant _).1
     minLvl_zero (by decide) (by decide) (by decide)⟩

/-- C10: `TrickleDown` at any offset at or beyond the size returns
without failing and without modifying the array; consequently
`DeleteMaximum` — which always trickles down from the old maximum
offset after shrinking, an offset that may equal the just-removed last
index — succeeds on every invariant-satisfying non-empty heap and
leaves a correct heap of size one less. -/
theorem C10_out_of_range_trickle_down_is_safe :
    (∀ (α : Type) [Inhabited α] (lt : α → α → Bool) (heap : List α) (m : ℤ),
      sizeZ heap ≤ m → trickleDown lt heap m = heap) ∧
    (∀ (α : Type) [LinearOrder α] [Inhabited α] (A : List α),
      minMaxHeapInvariant A → A ≠ [] →
      ∃ A', deleteMaximum stdLt A = Except.ok A' ∧ minMaxHeapInvariant A' ∧
        A'.length = A.length - 1) := by
  constructor
  · intro α _ lt heap m h
    exact trickleDown_out_of_range lt heap m h
  · intro α _ _ A hinv hne
    obtain ⟨c, A', _, _, _, hok, hinv', hlen', _⟩ := deleteMaximum_spec hinv hne
    exact ⟨A', hok, hinv', hlen'⟩

/-- C10 witness: an out-of-range trickle-down on a two-element heap is
the identity, and `DeleteMaximum` succeeds there even though the
maximum offset is exactly the just-removed last index. -/
theorem C10_out_of_range_trickle_down_is_safe_witness :
    sizeZ ([1, 2] : List ℤ) ≤ 5 ∧
    trickleDown stdLt ([1, 2] : List ℤ) 5 = [1, 2] ∧
    minMaxHeapInvariant (minMaxHeapOfSeq stdLt ([1, 2] : List ℤ)) ∧
    minMaxHeapOfSeq stdLt ([1, 2] : List ℤ) ≠ [] ∧
    findMaximumOffset stdLt (minMaxHeapOfSeq stdLt ([1, 2] : List ℤ))
      = Except.ok (sizeZ (minMaxHeapOfSeq stdLt ([1, 2] : List ℤ)) - 1) ∧
    (∃ A', deleteMaximum stdLt (minMaxHeapOfSeq stdLt ([1, 2] : List ℤ))
        = Except.ok A' ∧ minMaxHeapInvariant A' ∧
      A'.length = (minMaxHeapOfSeq stdLt ([1, 2] : List ℤ)).length - 1) :=
  ⟨by decide,
   C10_out_of_range_trickle_down_is_safe.1 ℤ stdLt [1, 2] 5 (by decide),
   (minMaxHeapOfSeq_invariant _).1,
   by decide,
   by decide,
   C10_out_of_range_trickle_down_is_safe.2 ℤ _
     (minMaxHeapOfSeq_invariant _).1 (by decide)⟩

end MMH
